import Mathlib

/-!
LocalBinaryPattern: a shallow embedding of `lbp.cpp` and `lbp.h`.

Conventions of the embedding.

* A finite C++ `double` is a rational (`ℚ`); the type `Double = Option ℚ` adds
  `none` for a value that is not finite (`NaN` or an infinity).  Arithmetic
  propagates `none` and a comparison `d < x` with `d = none` is false (the sums of
  squares of `nn_search` are never `-inf`).
* The arithmetic of `nn_search` is that of IEEE 754 binary64: every subtraction,
  `pow(x, 2)`, addition and `sqrt` is the exact result rounded to the nearest
  `double`, ties to even, with overflow to a value that is not finite (`fl`,
  `fsqrt`).  The same holds for `lbp_fp`, the embedding of `lbp` that carries
  the rounding of every operation on `double`.
* In `lbp`, `compute_lbp_histogram` and `norm` the operations on `double` are
  exact: the counts and `pow(2, i)` for `i ≤ 30` are exact as `double`s, `ceil`
  and `round` are exact, and the rounding of the products, sums and quotients is
  left out there.
* `sin` and `cos` of the C library are a parameter (`Libm`); the theorems that
  need it assume their values lie in `[-1, 1]` (`Libm.bounded`).
* A C++ `int` is a 32-bit two's complement integer.  Values are carried in `Int`;
  every conversion from `double` to `int` and every `int` addition that could
  leave `[INT_MIN, INT_MAX]` is checked, and leaving the range is undefined
  behaviour.
* `std::vector` is a `List`; reading or writing past the end is undefined
  behaviour.  Lengths of containers are assumed to fit `int`, so the casts
  `(int) v.size()` are the identity and list positions are `Nat`.
* A failed `assert`, an uncaught exception and undefined behaviour end the run:
  functions that can do either return `Except Fault`.
* Loops are structural recursions; the loops with stride get an iteration bound
  (`fuel`) that is proved sufficient (`for_stride_fuel`), and so does the loop of
  `load_set` (`load_set_loop_eq`).
* A `std::string` being parsed is a `List Char`; an input stream is the list of
  the characters not yet extracted with its `eofbit` and `failbit` (`IStream`).
  `atoi` of the C library is a parameter; where a statement needs its value, the
  contract of the C standard is assumed (`conforming`: the decimal number read
  after white space and a sign is returned whenever an `int` holds it).
* The theorem on the sample points of `P = 8`, `R = 1.0` assumes that `sin` and
  `cos` return a value within 1/10 of the sine and the cosine at the eight
  arguments used (`Libm.accurate`).
-/

namespace LBP

/-! ## Basic types -/

/-- Ways in which a run ends without returning. -/
inductive Fault where
  /-- a failed `assert`: the run aborts -/
  | assertFailed
  /-- undefined behaviour: an out-of-range read or write, a signed overflow -/
  | undefinedBehaviour
  /-- an exception that nothing catches (`std::length_error` of a `vector` built
  with a negative size): the run aborts -/
  | uncaughtException
  /-- not an outcome of the program: the iteration bound given to a loop of the
  model was too small (never the case, see `for_stride_fuel`) -/
  | outOfFuel
  deriving DecidableEq, Repr

/-- A `double`: `some q` is the finite value `q`, `none` is a non-finite value. -/
abbrev Double := Option ℚ

/-- Largest `int`. -/
def INT_MAX : Int := 2147483647

/-- Smallest `int`. -/
def INT_MIN : Int := -2147483648

/-- The largest finite `double`, `(2 - 2^-52) * 2^1023`, from `<cfloat>`. -/
def DBL_MAX : ℚ := 2 ^ 1024 - 2 ^ 971

/-- The `double` value of the constant `M_PI` of `<math.h>`. -/
def M_PI : ℚ := 884279719003555 / 281474976710656

/-- Spatial stride used when going through all the pixels in each image
(`#define STRIDE 3` in `lbp.h`). -/
def STRIDE : Int := 3

/-- An integer value stored in an `int`: undefined when it does not fit. -/
def checkInt (z : Int) : Except Fault Int :=
  if INT_MIN ≤ z ∧ z ≤ INT_MAX then .ok z else .error .undefinedBehaviour

/-- Conversion of a finite `double` to `int`: truncation towards zero, undefined
when the truncated value does not fit. -/
def toInt (q : ℚ) : Except Fault Int :=
  checkInt (if 0 ≤ q then ⌊q⌋ else ⌈q⌉)

/-- The call `round(q)` of `<math.h>`: nearest integer, halves away from zero. -/
def cround (q : ℚ) : Int :=
  if 0 ≤ q then ⌊q + 1 / 2⌋ else ⌈q - 1 / 2⌉

/-- Division on `double` for a finite dividend and divisor: `x / 0.0` is not
finite. -/
def Double.div (a b : ℚ) : Double :=
  if b = 0 then none else some (a / b)

/-! ## Rounding to `double` (IEEE 754 binary64, round to nearest, ties to even) -/

/-- The integer nearest to `t`, the even one of the two when `t` lies half-way. -/
def roundEven (t : ℚ) : Int :=
  if t - ⌊t⌋ < 1 / 2 then ⌊t⌋
  else if 1 / 2 < t - ⌊t⌋ then ⌊t⌋ + 1
  else if ⌊t⌋ % 2 = 0 then ⌊t⌋ else ⌊t⌋ + 1

/-- The exponent of the spacing of the `double`s around a magnitude `a`:
`2^(e - 52)` when `2^e ≤ a < 2^(e + 1)` with `e ≥ -1022`, and `2^-1074` below
`2^-1022` (subnormal numbers). -/
def ulpExp (a : ℚ) : Int := max (Int.log 2 a) (-1022) - 52

/-- The result of a `double` operation whose exact value is `q`: the nearest
multiple of the spacing around `q`, or a value that is not finite when that
exceeds `DBL_MAX` (overflow to an infinity). -/
def fl (q : ℚ) : Double :=
  let v : ℚ := (roundEven (q / 2 ^ ulpExp |q|) : ℚ) * 2 ^ ulpExp |q|
  if |v| ≤ DBL_MAX then some v else none

/-- The `double` nearest to the square root of `q ≥ 0`: the call `sqrt(q)`,
which IEEE 754 requires to be correctly rounded. -/
def fsqrt (q : ℚ) : ℚ :=
  let w : Int := max (Int.log 2 q / 2) (-1022) - 52
  let t : ℚ := q / 2 ^ (2 * w)
  let n : Nat := Nat.sqrt ⌊t⌋₊
  let m : Nat :=
    if t < ((n : ℚ) + 1 / 2) ^ 2 then n
    else if ((n : ℚ) + 1 / 2) ^ 2 < t then n + 1
    else if n % 2 = 0 then n else n + 1
  (m : ℚ) * 2 ^ w

/-- The rational `a` is a finite `double`: `m * 2^e` with `|m| < 2^53` and
`-1074 ≤ e ≤ 971`. -/
def isDouble (a : ℚ) : Prop :=
  ∃ m e : Int, |m| < 2 ^ 53 ∧ -1074 ≤ e ∧ e ≤ 971 ∧ a = (m : ℚ) * 2 ^ e

/-! ## The `double` operations of `nn_search` -/

/-- Subtraction on `double`: the exact difference, rounded. -/
def Double.sub : Double → Double → Double
  | some a, some b => fl (a - b)
  | _, _ => none

/-- Addition on `double`: the exact sum, rounded. -/
def Double.add : Double → Double → Double
  | some a, some b => fl (a + b)
  | _, _ => none

/-- The call `pow(x, 2)`: the exact square, rounded. -/
def Double.pow2 : Double → Double
  | some a => fl (a ^ 2)
  | none => none

/-- The call `sqrt(x)`: the square root, rounded; not a finite number when `x`
is negative or not finite. -/
def Double.sqrt : Double → Double
  | some a => if 0 ≤ a then some (fsqrt a) else none
  | none => none

/-! ## `norm` -/

/-- Compute the norm of a list of values: the loop `total += histogram[i]`. -/
def norm (histogram : List ℚ) : ℚ :=
  histogram.foldl (fun total v => total + v) 0

/-! ## `nn_search` -/

/-- Inner loop of `nn_search`: `for j < histograms[i].size()`,
`d += pow(hist[j] - histograms[i][j], 2)`.  The second list is the part of
`histograms[i]` from position `j` on. -/
def nn_search_dist (hist : List Double) : List Double → Nat → Double → Except Fault Double
  | [], _, d => .ok d
  | t :: rest, j, d =>
    match hist.get? j with
    | none => .error .undefinedBehaviour
    | some a => nn_search_dist hist rest (j + 1) (Double.add d (Double.pow2 (Double.sub a t)))

/-- Outer loop of `nn_search`: the list is the part of `histograms` from
position `i` on; `mindist` and `index` are the loop-carried variables.  The
comparison `d < mindist` is false when `d` is not a finite number (`+inf` or
`NaN`). -/
def nn_search_loop (hist : List Double) : List (List Double) → Nat → ℚ → Nat → Except Fault Nat
  | [], _, _, index => .ok index
  | h :: rest, i, mindist, index =>
    match nn_search_dist hist h 0 (some 0) with
    | .error e => .error e
    | .ok d =>
      match Double.sqrt d with
      | none => nn_search_loop hist rest (i + 1) mindist index
      | some d =>
        if d < mindist then nn_search_loop hist rest (i + 1) d i
        else nn_search_loop hist rest (i + 1) mindist index

/-- Perform nearest neighbour search on a test histogram given a set of train
histograms; the result is the index of the nearest train neighbour. -/
def nn_search (hist : List Double) (histograms : List (List Double)) : Except Fault Nat :=
  nn_search_loop hist histograms 0 DBL_MAX 0

/-- The distance that `nn_search` computes between the query `hist` and the
training descriptor `h`: the value of `d` after `d = sqrt(d)`. -/
def nn_distance (hist h : List Double) : Except Fault Double :=
  match nn_search_dist hist h 0 (some 0) with
  | .error e => .error e
  | .ok d => .ok (Double.sqrt d)

/-- Squared Euclidean distance `Σ_k (query[k] - train[k])^2` of two descriptors
of equal length. -/
def sqDist (query train : List ℚ) : ℚ :=
  (List.zipWith (fun a b => (a - b) ^ 2) query train).sum

/-- A finite descriptor as a list of `double`. -/
def finite (v : List ℚ) : List Double := v.map some

/-! ## The C library and OpenCV -/

/-- The functions `sin` and `cos` of the C library on finite arguments. -/
structure Libm where
  sin : ℚ → ℚ
  cos : ℚ → ℚ

/-- What the embedding assumes of `sin` and `cos`: values in `[-1, 1]`. -/
def Libm.bounded (m : Libm) : Prop :=
  ∀ t : ℚ, |m.sin t| ≤ 1 ∧ |m.cos t| ≤ 1

/-- A grayscale `cv::Mat` of `uchar`: `rows` and `cols` are `int` fields, `pix`
gives the sample stored at a row and a column. -/
structure Mat where
  rows : Nat
  cols : Nat
  pix : Nat → Nat → Fin 256
  rows_le : rows ≤ 2147483647
  cols_le : cols ≤ 2147483647

/-- The position (row, col) lies inside the matrix. -/
def Mat.inBounds (image : Mat) (row col : Int) : Prop :=
  0 ≤ row ∧ row < image.rows ∧ 0 ≤ col ∧ col < image.cols

instance (image : Mat) (row col : Int) : Decidable (image.inBounds row col) := by
  unfold Mat.inBounds; infer_instance

/-- The access `(int) image.at<uchar>(row, col)`: no bounds checking is done by
the program, a read outside the matrix is undefined. -/
def Mat.at (image : Mat) (row col : Int) : Except Fault Int :=
  if image.inBounds row col then .ok ((image.pix row.toNat col.toNat).val : Int)
  else .error .undefinedBehaviour

/-! ## `lbp` -/

/-- Offset `dx = sin(i / ((double)p) * 2 * M_PI) * r` of sample point `i`. -/
def lbp_dx (m : Libm) (p : Int) (r : ℚ) (i : Nat) : ℚ :=
  m.sin ((i : ℚ) / (p : ℚ) * 2 * M_PI) * r

/-- Offset `dy = cos(i / ((double)p) * 2 * M_PI) * r` of sample point `i`. -/
def lbp_dy (m : Libm) (p : Int) (r : ℚ) (i : Nat) : ℚ :=
  m.cos ((i : ℚ) / (p : ℚ) * 2 * M_PI) * r

/-- The loop `for (int i = 0; i < p; i++)` of `lbp`: `n` iterations remain, `i`
is the loop counter and `value` the code accumulated so far. -/
def lbp_loop (m : Libm) (image : Mat) (x y p : Int) (r : ℚ) (center : Int) :
    Nat → Nat → Int → Except Fault Int
  | 0, _, value => .ok value
  | n + 1, i, value => do
    let dx := lbp_dx m p r i
    let dy := lbp_dy m p r i
    let row ← checkInt (cround ((y : ℚ) + dy))
    let col ← checkInt (cround ((x : ℚ) + dx))
    let element ← image.at row col
    let value ← toInt ((value : ℚ) + (if element ≥ center then 1 else 0) * (2 : ℚ) ^ i)
    lbp_loop m image x y p r center n (i + 1) value

/-- Compute the LBP value for a single pixel. -/
def lbp (m : Libm) (image : Mat) (x y p : Int) (r : ℚ) : Except Fault Int :=
  if p > 0 ∧ r > 0 then do
    let center ← image.at y x
    lbp_loop m image x y p r center p.toNat 0 0
  else .error .assertFailed

/-- Row `round(y + dy)` of sample point `i`. -/
def sampleRow (m : Libm) (y p : Int) (r : ℚ) (i : Nat) : Int :=
  cround ((y : ℚ) + lbp_dy m p r i)

/-- Column `round(x + dx)` of sample point `i`. -/
def sampleCol (m : Libm) (x p : Int) (r : ℚ) (i : Nat) : Int :=
  cround ((x : ℚ) + lbp_dx m p r i)

/-- Intensity stored at sample point `i` of the pixel `(x, y)`. -/
def sampleAt (m : Libm) (image : Mat) (x y p : Int) (r : ℚ) (i : Nat) : Int :=
  ((image.pix (sampleRow m y p r i).toNat (sampleCol m x p r i).toNat).val : Int)

/-- Bit `i` of the code: 1 when the intensity at sample point `i` is greater
than or equal to the centre intensity, else 0. -/
def lbp_bit (m : Libm) (image : Mat) (x y p : Int) (r : ℚ) (center : Int) (i : Nat) : Int :=
  if sampleAt m image x y p r i ≥ center then 1 else 0

/-- The code of the pixel `(x, y)` with centre intensity `center`:
`Σ_{i < p} bit_i * 2^i`. -/
def lbp_sum (m : Libm) (image : Mat) (x y p : Int) (r : ℚ) (center : Int) : Int :=
  ∑ i in Finset.range p.toNat, lbp_bit m image x y p r center i * 2 ^ i

/-- The LBP code as the specification words it (section 4.1): for `i` in
`[0, P)` the sample point at angle `θ_i = 2π·i/P` is offset from the centre by
`(R·sin θ_i, R·cos θ_i)`, both coordinates are rounded to the nearest integer
pixel, bit `i` is 1 if that intensity is greater than or equal to the centre
intensity, else 0, and the code is `Σ bit_i · 2^i`. -/
def spec_lbp (m : Libm) (image : Mat) (x y p : Int) (r : ℚ) : Int :=
  ∑ i in Finset.range p.toNat,
    (if image.pix (cround ((y : ℚ) + r * m.cos (2 * M_PI * (i : ℚ) / (p : ℚ)))).toNat
          (cround ((x : ℚ) + r * m.sin (2 * M_PI * (i : ℚ) / (p : ℚ)))).toNat
        ≥ image.pix y.toNat x.toNat then 1 else 0) * 2 ^ i

/-! ## `compute_lbp_histogram` -/

/-- A sum `a + b` of two `int`: signed overflow is undefined. -/
def addInt (a b : Int) : Except Fault Int := checkInt (a + b)

/-- The loop `for (int v = start; v < bound; v += STRIDE) body`, run from the
current value `v` of the counter with the state `s`; `fuel` bounds the number
of iterations. -/
def for_stride {σ : Type} (bound : Int) (body : Int → σ → Except Fault σ) :
    Nat → Int → σ → Except Fault σ
  | 0, v, s => if v < bound then .error .outOfFuel else .ok s
  | fuel + 1, v, s =>
    if v < bound then do
      let s ← body v s
      let v ← addInt v STRIDE
      for_stride bound body fuel v s
    else .ok s

/-- The statement `histogram[index] += 1`. -/
def bump (histogram : List ℚ) (index : Int) : Except Fault (List ℚ) :=
  if 0 ≤ index ∧ index < histogram.length then
    .ok (histogram.set index.toNat (histogram.getD index.toNat 0 + 1))
  else .error .undefinedBehaviour

/-- The two nested loops of `compute_lbp_histogram` ("Go through all the
pixels"), started with the histogram `histogram`: the result holds the count
of every LBP value. -/
def lbp_counts (m : Libm) (image : Mat) (p : Int) (r : ℚ) (histogram : List ℚ) :
    Except Fault (List ℚ) := do
  let x0 ← toInt ⌈r⌉
  for_stride ((image.cols : Int) - ⌈r⌉)
    (fun x histogram => do
      let y0 ← toInt ⌈r⌉
      for_stride ((image.rows : Int) - ⌈r⌉)
        (fun y histogram => do
          let index ← lbp m image x y p r
          bump histogram index)
        (((image.rows : Int) - ⌈r⌉ - y0).toNat) y0 histogram)
    (((image.cols : Int) - ⌈r⌉ - x0).toNat) x0 histogram

/-- Compute a histogram of LBP values for an image. -/
def compute_lbp_histogram (m : Libm) (image : Mat) (p : Int) (r : ℚ) :
    Except Fault (List Double) := do
  let size ← toInt ((2 : ℚ) ^ p)
  let histogram ← lbp_counts m image p r (List.replicate size.toNat 0)
  let total := norm histogram
  pure (histogram.map (fun v => Double.div v total))

/-- The pixels `(x, y)` that the loops of `compute_lbp_histogram` go through,
in the order of the visit: the same two loops, recording the counters. -/
def visited (image : Mat) (r : ℚ) : Except Fault (List (Int × Int)) := do
  let x0 ← toInt ⌈r⌉
  for_stride ((image.cols : Int) - ⌈r⌉)
    (fun x acc => do
      let y0 ← toInt ⌈r⌉
      for_stride ((image.rows : Int) - ⌈r⌉)
        (fun y acc => pure (acc ++ [(x, y)]))
        (((image.rows : Int) - ⌈r⌉ - y0).toNat) y0 acc)
    (((image.cols : Int) - ⌈r⌉ - x0).toNat) x0 []

/-- The values `v, v + STRIDE, ...` below `bound` that a loop
`for (; v < bound; v += STRIDE)` takes, at most `fuel` of them. -/
def stridePoints (bound : Int) : Nat → Int → List Int
  | 0, _ => []
  | fuel + 1, v => if v < bound then v :: stridePoints bound fuel (v + STRIDE) else []

/-- The scan region in closed form: columns `x` and rows `y` on the stride, from
`ceil(r)` and below `cols - ceil(r)`, `rows - ceil(r)`; `x` is the outer loop. -/
def pixels (image : Mat) (r : ℚ) : List (Int × Int) :=
  (stridePoints ((image.cols : Int) - ⌈r⌉) (((image.cols : Int) - ⌈r⌉ - ⌈r⌉).toNat) ⌈r⌉).flatMap
    (fun x => (stridePoints ((image.rows : Int) - ⌈r⌉)
      (((image.rows : Int) - ⌈r⌉ - ⌈r⌉).toNat) ⌈r⌉).map (fun y => (x, y)))

/-! ## `LBPClassifier` -/

/-- The fields of `class LBPClassifier` (`lbp.h`). -/
structure LBPClassifier where
  /-- Container information for the train set. -/
  trainimages : List String
  trainlabels : List Int
  /-- Container information for the test set. -/
  testimages : List String
  testlabels : List Int
  /-- The number of neighbouring pixels to compare. -/
  p : Int
  /-- The radius between the center pixel and its neighbours. -/
  r : ℚ
  /-- The number of target classes. -/
  c : Int
  /-- The train histograms (set in the `train()` function). -/
  histograms : List (List Double)

/-- The read `v[i]` of a `std::vector`. -/
def vecGet {α : Type} (v : List α) (i : Nat) : Except Fault α :=
  match v.get? i with
  | some a => .ok a
  | none => .error .undefinedBehaviour

/-- The statement `v[index] += d` on a `vector<double>` indexed by an `int`. -/
def addAt (v : List ℚ) (index : Int) (d : ℚ) : Except Fault (List ℚ) :=
  if 0 ≤ index ∧ index < v.length then
    .ok (v.set index.toNat (v.getD index.toNat 0 + d))
  else .error .undefinedBehaviour

/-- The counters of `test()`: per class, the number of classified samples
(`cclass`) and of correctly classified samples (`ccorrect`). -/
structure Counters where
  cclass : List ℚ
  ccorrect : List ℚ
  deriving DecidableEq

/-- Body of the loop of `test()` for the loop counter `i`. `imread` is OpenCV's
image decoder. -/
def test_step (m : Libm) (imread : String → Mat) (cl : LBPClassifier) (i : Nat)
    (st : Counters) : Except Fault Counters := do
  /- Load the image and compute the LBP histogram. -/
  let path ← vecGet cl.testimages i
  let image := imread path
  let histogram ← compute_lbp_histogram m image cl.p cl.r
  /- Perform NN search on the train histograms. -/
  let nn ← nn_search histogram cl.histograms
  /- Update classification rate. -/
  let label ← vecGet cl.testlabels i
  let cclass ← addAt st.cclass label 1
  let predicted ← vecGet cl.trainlabels nn
  let ccorrect ← addAt st.ccorrect label (if label = predicted then 1 else 0)
  pure ⟨cclass, ccorrect⟩

/-- The loop `for (int i = 0; i < (int) trainimages.size(); i++)` of `test()`:
`n` iterations remain and `i` is the loop counter. -/
def test_loop (m : Libm) (imread : String → Mat) (cl : LBPClassifier) :
    Nat → Nat → Counters → Except Fault Counters
  | 0, _, st => .ok st
  | n + 1, i, st => do
    let st ← test_step m imread cl i st
    test_loop m imread cl n (i + 1) st

/-- Compute the histograms of the test images and perform classification using
the train histograms; the result holds the counters that `test()` prints. -/
def LBPClassifier.test (m : Libm) (imread : String → Mat) (cl : LBPClassifier) :
    Except Fault Counters :=
  if cl.histograms.length > 0 then
    if cl.c < 0 then .error .uncaughtException
    else
      test_loop m imread cl cl.trainimages.length 0
        ⟨List.replicate cl.c.toNat 0, List.replicate cl.c.toNat 0⟩
  else .error .assertFailed

/-! ## Concrete inputs used to instantiate the theorems -/

/-- Taylor polynomial of degree 31 of the sine. -/
def taylorSin (t : ℚ) : ℚ :=
  ((List.range 16).map (fun k => (-1) ^ k * t ^ (2 * k + 1) / (Nat.factorial (2 * k + 1) : ℚ))).sum

/-- Taylor polynomial of degree 30 of the cosine. -/
def taylorCos (t : ℚ) : ℚ :=
  ((List.range 16).map (fun k => (-1) ^ k * t ^ (2 * k) / (Nat.factorial (2 * k) : ℚ))).sum

/-- Restriction of a value to `[-1, 1]`. -/
def clamp (q : ℚ) : ℚ := max (-1) (min 1 q)

/-- An instance of `Libm` with rational values: Taylor polynomials kept within
`[-1, 1]`. -/
def taylorLibm : Libm := ⟨fun t => clamp (taylorSin t), fun t => clamp (taylorCos t)⟩

/-- A constant image of 3 x 3 pixels of intensity 7. -/
def flat3 : Mat := ⟨3, 3, fun _ _ => 7, by decide, by decide⟩

/-- The descriptor of `flat3` for `P = 8`, `R = 1`: all mass in bin 255. -/
def flat3Descriptor : List ℚ := (List.range 256).map (fun k => if k = 255 then 1 else 0)

/-- A classifier as `main` builds it (`P = 8`, `R = 1.0`, `C = 10`) from a train
list of one sample and a test list of two samples, of the labels 0 and 1,
after `train()` on an image decoded as `flat3`. -/
def shortTrain : LBPClassifier :=
  { trainimages := ["train0.png"], trainlabels := [0],
    testimages := ["test0.png", "test1.png"], testlabels := [0, 1],
    p := 8, r := 1, c := 10,
    histograms := [finite flat3Descriptor] }

/-! ## `LBPClassifier::test`: the reported accuracy -/

/-- The ratio `norm(ccorrect) / norm(cclass)` that `test()` prints as the total
classification rate. -/
def accuracy (st : Counters) : Double :=
  Double.div (norm st.ccorrect) (norm st.cclass)

/-- The counters of `test()` before its loop: `vector<double> cclass(c, 0.0)` and
`vector<double> ccorrect(c, 0.0)`. -/
def zeroCounters (c : Int) : Counters :=
  ⟨List.replicate c.toNat 0, List.replicate c.toNat 0⟩

/-! ## `LBPClassifier::train` -/

/-- The loop `for (int i = 0; i < (int) trainimages.size(); i++)` of `train()`:
the first list is the part of `trainimages` from position `i` on, `histograms`
is the field being filled.  `imread` is OpenCV's image decoder. -/
def train_loop (m : Libm) (imread : String → Mat) (p : Int) (r : ℚ) :
    List String → List (List Double) → Except Fault (List (List Double))
  | [], histograms => .ok histograms
  | path :: rest, histograms => do
    let image := imread path
    let histogram ← compute_lbp_histogram m image p r
    train_loop m imread p r rest (histograms ++ [histogram])

/-- Compute the histograms of the train images; the result is the classifier
with the field `histograms` filled. -/
def LBPClassifier.train (m : Libm) (imread : String → Mat) (cl : LBPClassifier) :
    Except Fault LBPClassifier := do
  let histograms ← train_loop m imread cl.p cl.r cl.trainimages cl.histograms
  pure { cl with histograms := histograms }

/-- The classifier of `shortTrain` before `train()`: no train histogram yet. -/
def shortUntrained : LBPClassifier := { shortTrain with histograms := [] }

/-! ## `load_set`: the dataset list -/

/-- An input stream (`std::ifstream`, `std::istringstream`): the characters not
yet extracted, and the state bits `eofbit` and `failbit`. -/
structure IStream where
  buf : List Char
  eofbit : Bool
  failbit : Bool
  deriving DecidableEq, Repr

/-- The stream `std::istringstream lstream(line)`. -/
def istringstream (line : List Char) : IStream := ⟨line, false, false⟩

/-- The stream `std::ifstream imagefile(filename.c_str())`: `fs` gives the
content of the files that can be opened; opening another file sets `failbit`. -/
def ifstream (fs : String → Option (List Char)) (filename : String) : IStream :=
  match fs filename with
  | some content => ⟨content, false, false⟩
  | none => ⟨[], false, true⟩

/-- The extraction loop of `std::getline`: the characters before the first
`delim` are stored, `delim` is extracted and dropped; when the input ends first,
`eofbit` is set.  Returns the characters stored, the characters left and
`eofbit`. -/
def getline_extract (delim : Char) : List Char → List Char × List Char × Bool
  | [] => ([], [], true)
  | c :: cs =>
    if c = delim then ([], cs, false)
    else
      let res := getline_extract delim cs
      (c :: res.1, res.2.1, res.2.2)

/-- The call `getline(is, str, delim)` on the stream `is`, in a string that
holds `str`: the stream and the string after the call.  On a stream with
`eofbit` or `failbit` set nothing is read, `failbit` is set and `str` is kept;
otherwise `str` is replaced, and `failbit` is set when no character could be
extracted. -/
def getline (is : IStream) (str : List Char) (delim : Char) : IStream × List Char :=
  if is.eofbit || is.failbit then ({ is with failbit := true }, str)
  else
    let res := getline_extract delim is.buf
    (⟨res.2.1, res.2.2, decide (is.buf = [])⟩, res.1)

/-- The variables of `load_set`: the locals `line`, `key`, `value` and the two
containers passed by reference. -/
structure LoadState where
  line : List Char
  key : List Char
  value : List Char
  images : List String
  labels : List Int
  deriving DecidableEq, Repr

/-- The body of the loop of `load_set`, run after `line` has been read: add the
label and image location to the lists.  `atoi` is the C library's function, on
the characters of `key.c_str()`. -/
def load_set_body (atoi : List Char → Int) (st : LoadState) : LoadState :=
  let lstream := istringstream st.line
  let r1 := getline lstream st.key ' '
  if r1.1.failbit then { st with key := r1.2 }
  else
    let r2 := getline r1.1 st.value ' '
    if r2.1.failbit then { st with key := r1.2, value := r2.2 }
    else
      { st with key := r1.2, value := r2.2,
                labels := st.labels ++ [atoi r1.2],
                images := st.images ++ [String.mk r2.2] }

/-- The loop `while (getline(imagefile, line))` of `load_set`, at most `fuel`
tests of its condition. -/
def load_set_loop (atoi : List Char → Int) : Nat → IStream → LoadState → Except Fault LoadState
  | 0, _, _ => .error .outOfFuel
  | fuel + 1, imagefile, st =>
    let r := getline imagefile st.line '\n'
    if r.1.failbit then .ok { st with line := r.2 }
    else load_set_loop atoi fuel r.1 (load_set_body atoi { st with line := r.2 })

/-- Load a set specified by a file containing the labels and image locations:
the containers `images` and `labels` after the call.  Every test of the loop
condition but the last extracts a character, so one test more than the file has
characters is enough. -/
def load_set (fs : String → Option (List Char)) (atoi : List Char → Int) (filename : String)
    (images : List String) (labels : List Int) : Except Fault (List String × List Int) := do
  let imagefile := ifstream fs filename
  let st ← load_set_loop atoi (imagefile.buf.length + 1) imagefile ⟨[], [], [], images, labels⟩
  pure (st.images, st.labels)

/-- The function `isspace` of `<ctype.h>` in the "C" locale, on which `atoi`
skips: space (32), `\t` (9), `\n` (10), `\v` (11), `\f` (12), `\r` (13). -/
def isspace (c : Char) : Bool :=
  c.toNat == 32 || (decide (9 ≤ c.toNat) && decide (c.toNat ≤ 13))

/-- The part of a string at which the C library's `atoi` looks for digits:
after the leading white space and one optional sign. -/
def numeral (s : List Char) : List Char :=
  match s.dropWhile isspace with
  | '-' :: cs => cs
  | '+' :: cs => cs
  | cs => cs

/-- The string holds no number for `atoi`: no digit follows the white space and
the sign. -/
def unparseable (s : List Char) : Bool :=
  match numeral s with
  | [] => true
  | c :: _ => !c.isDigit

/-- The value of a string of decimal digits, up to the first other character. -/
def atoi_digits : List Char → Int → Int
  | [], acc => acc
  | c :: cs, acc =>
    if c.isDigit then atoi_digits cs (10 * acc + ((c.toNat : Int) - 48)) else acc

/-- The number that the C standard makes `atoi` (that is `strtol` in base 10)
read in a string: white space, an optional sign, decimal digits up to the first
other character; 0 when there is no digit.  No limit of `int` applies here. -/
def decimalAtoi (s : List Char) : Int :=
  if (s.dropWhile isspace).head? = some '-' then - atoi_digits (numeral s) 0
  else atoi_digits (numeral s) 0

/-- The contract of the C library's `atoi`: the number read is returned whenever
an `int` holds it (otherwise the behaviour is undefined and nothing is
assumed). -/
def conforming (atoi : List Char → Int) : Prop :=
  ∀ s, INT_MIN ≤ decimalAtoi s → decimalAtoi s ≤ INT_MAX → atoi s = decimalAtoi s

/-- The lines of `listFile`: a sample, a line with a label only, a sample with
a label that is no number. -/
def listLines : List (List Char) :=
  ["5 images/cat.png".toList, "7".toList, "x images/dog.png".toList]

/-- A dataset list of three lines, in the file `train.txt`. -/
def listFile : String → Option (List Char) :=
  fun name =>
    if name = "train.txt" then some "5 images/cat.png\n7\nx images/dog.png\n".toList else none

/-! ## The sample points of `main`: `P = 8`, `R = 1.0` -/

/-- Multiplication on `double`: the exact product, rounded. -/
def Double.mul : Double → Double → Double
  | some a, some b => fl (a * b)
  | _, _ => none

/-- Division on `double`: the exact quotient, rounded; not a finite number when
the divisor is zero. -/
def Double.quot : Double → Double → Double
  | some a, some b => if b = 0 then none else fl (a / b)
  | _, _ => none

/-- Conversion of a `double` to `int`: undefined when the value is not finite
or its truncation does not fit. -/
def toInt_fp : Double → Except Fault Int
  | some q => toInt q
  | none => .error .undefinedBehaviour

/-- The argument `i / ((double)p) * 2 * M_PI` of `sin` and `cos`, each operation
rounded; the conversions of the `int`s `i` and `p` to `double` are exact. -/
def lbp_angle_fp (p : Int) (i : Nat) : Double :=
  Double.mul (Double.mul (Double.quot (some (i : ℚ)) (some (p : ℚ))) (some 2)) (some M_PI)

/-- Offset `dx = sin(i / ((double)p) * 2 * M_PI) * r` of sample point `i`, each
operation rounded. -/
def lbp_dx_fp (m : Libm) (p : Int) (r : ℚ) (i : Nat) : Double :=
  Double.mul ((lbp_angle_fp p i).map m.sin) (some r)

/-- Offset `dy = cos(i / ((double)p) * 2 * M_PI) * r` of sample point `i`, each
operation rounded. -/
def lbp_dy_fp (m : Libm) (p : Int) (r : ℚ) (i : Nat) : Double :=
  Double.mul ((lbp_angle_fp p i).map m.cos) (some r)

/-- Row `round(y + dy)` of sample point `i`, the sum `y + dy` rounded to a
`double` before `round`; `none` when the sum is not finite. -/
def sampleRow_fp (m : Libm) (y p : Int) (r : ℚ) (i : Nat) : Option Int :=
  (Double.add (some (y : ℚ)) (lbp_dy_fp m p r i)).map cround

/-- Column `round(x + dx)` of sample point `i`, the sum `x + dx` rounded to a
`double` before `round`; `none` when the sum is not finite. -/
def sampleCol_fp (m : Libm) (x p : Int) (r : ℚ) (i : Nat) : Option Int :=
  (Double.add (some (x : ℚ)) (lbp_dx_fp m p r i)).map cround

/-- A coordinate passed to `image.at<uchar>`: the result of `round` converted to
`int`, undefined when it is not finite or does not fit. -/
def coordinate (c : Option Int) : Except Fault Int :=
  match c with
  | some z => checkInt z
  | none => .error .undefinedBehaviour

/-- The loop `for (int i = 0; i < p; i++)` of `lbp` with the rounding of every
operation on `double`: `n` iterations remain, `i` is the loop counter and
`value` the code accumulated so far.  The update
`value += (element >= center) * pow(2, i)` is computed in `double` and
converted back to `int`. -/
def lbp_loop_fp (m : Libm) (image : Mat) (x y p : Int) (r : ℚ) (center : Int) :
    Nat → Nat → Int → Except Fault Int
  | 0, _, value => .ok value
  | n + 1, i, value => do
    let row ← coordinate (sampleRow_fp m y p r i)
    let col ← coordinate (sampleCol_fp m x p r i)
    let element ← image.at row col
    let value ← toInt_fp
      (Double.add (some (value : ℚ))
        (Double.mul (some (if element ≥ center then 1 else 0)) (fl ((2 : ℚ) ^ i))))
    lbp_loop_fp m image x y p r center n (i + 1) value

/-- Compute the LBP value for a single pixel, with the rounding of every
operation on `double`. -/
def lbp_fp (m : Libm) (image : Mat) (x y p : Int) (r : ℚ) : Except Fault Int :=
  if p > 0 ∧ r > 0 then do
    let center ← image.at y x
    lbp_loop_fp m image x y p r center p.toNat 0 0
  else .error .assertFailed

/-- Intensity stored at sample point `i` of the pixel `(x, y)`, the sample point
computed with rounding (0 when a coordinate is not finite). -/
def sampleAt_fp (m : Libm) (image : Mat) (x y p : Int) (r : ℚ) (i : Nat) : Int :=
  match sampleRow_fp m y p r i, sampleCol_fp m x p r i with
  | some row, some col => ((image.pix row.toNat col.toNat).val : Int)
  | _, _ => 0

/-- Bit `i` of the code: 1 when the intensity at sample point `i` is greater
than or equal to the centre intensity, else 0. -/
def lbp_bit_fp (m : Libm) (image : Mat) (x y p : Int) (r : ℚ) (center : Int) (i : Nat) : Int :=
  if sampleAt_fp m image x y p r i ≥ center then 1 else 0

/-- The code of the pixel `(x, y)` with centre intensity `center`:
`Σ_{i < p} bit_i * 2^i`, the sample points computed with rounding. -/
def lbp_sum_fp (m : Libm) (image : Mat) (x y p : Int) (r : ℚ) (center : Int) : Int :=
  ∑ i in Finset.range p.toNat, lbp_bit_fp m image x y p r center i * 2 ^ i

/-- A `libm` whose cosine is `-(1/2 + 2^-51)` at every argument, the value of
`cos(4 / 6.0 * 2 * M_PI)` in `double`: with it `7 + dy` lies half a spacing below
`6.5`. -/
def halfLibm : Libm := ⟨fun _ => 0, fun _ => -(1 / 2 + 1 / 2251799813685248)⟩

/-! ## Lemmas on rounding to `double` -/

theorem roundEven_ge (t : ℚ) (n : Int) (h : (n : ℚ) ≤ t) : n ≤ roundEven t := by
  have hf : n ≤ ⌊t⌋ := Int.le_floor.2 h
  unfold roundEven
  split_ifs <;> omega

theorem roundEven_le (t : ℚ) (n : Int) (h : t ≤ (n : ℚ)) : roundEven t ≤ n := by
  have hfl : (⌊t⌋ : ℚ) ≤ t := Int.floor_le t
  unfold roundEven
  split_ifs with h1 h2 h3
  · exact Int.cast_le.1 (le_trans hfl h)
  · have : (⌊t⌋ : ℚ) < n := by linarith
    have : ⌊t⌋ < n := by exact_mod_cast this
    omega
  · exact Int.cast_le.1 (le_trans hfl h)
  · have : (⌊t⌋ : ℚ) < n := by
      have : t - ⌊t⌋ = 1 / 2 := le_antisymm (not_lt.1 h2) (not_lt.1 h1)
      linarith
    have : ⌊t⌋ < n := by exact_mod_cast this
    omega

theorem roundEven_intCast (n : Int) : roundEven (n : ℚ) = n :=
  le_antisymm (roundEven_le _ n (le_refl _)) (roundEven_ge _ n (le_refl _))

theorem roundEven_near (t : ℚ) (n : Int) (h : |t - (n : ℚ)| < 1 / 2) : roundEven t = n := by
  obtain ⟨h1, h2⟩ := abs_lt.1 h
  have hlt := Int.lt_floor_add_one t
  have hfl : (⌊t⌋ : ℚ) ≤ t := Int.floor_le t
  unfold roundEven
  split_ifs with h3 h4 h5
  · have a1 : (⌊t⌋ : ℚ) < n + 1 := by linarith
    have a2 : (n : ℚ) - 1 < ⌊t⌋ := by linarith
    have b1 : ⌊t⌋ < n + 1 := by exact_mod_cast a1
    have b2 : n - 1 < ⌊t⌋ := by exact_mod_cast a2
    omega
  · have a1 : (⌊t⌋ : ℚ) < n := by linarith
    have a2 : (n : ℚ) - 2 < ⌊t⌋ := by linarith
    have b1 : ⌊t⌋ < n := by exact_mod_cast a1
    have b2 : n - 2 < ⌊t⌋ := by exact_mod_cast a2
    omega
  · have e : t - ⌊t⌋ = 1 / 2 := le_antisymm (not_lt.1 h4) (not_lt.1 h3)
    have a1 : (⌊t⌋ : ℚ) < n := by linarith
    have a2 : (n : ℚ) - 1 < ⌊t⌋ := by linarith
    have b1 : ⌊t⌋ < n := by exact_mod_cast a1
    have b2 : n - 1 < ⌊t⌋ := by exact_mod_cast a2
    omega
  · have e : t - ⌊t⌋ = 1 / 2 := le_antisymm (not_lt.1 h4) (not_lt.1 h3)
    have a1 : (⌊t⌋ : ℚ) < n := by linarith
    have a2 : (n : ℚ) - 1 < ⌊t⌋ := by linarith
    have b1 : ⌊t⌋ < n := by exact_mod_cast a1
    have b2 : n - 1 < ⌊t⌋ := by exact_mod_cast a2
    omega

theorem two_zpow_pos (e : Int) : (0 : ℚ) < 2 ^ e := zpow_pos (by norm_num) e

/-- The binade of a positive magnitude. -/
theorem log_bounds (a : ℚ) (ha : 0 < a) :
    (2 : ℚ) ^ Int.log 2 a ≤ a ∧ a < 2 ^ (Int.log 2 a + 1) :=
  ⟨Int.zpow_log_le_self (by norm_num) ha, Int.lt_zpow_succ_log_self (by norm_num) a⟩

theorem log_eq (a : ℚ) (e : Int) (h1 : (2 : ℚ) ^ e ≤ a) (h2 : a < 2 ^ (e + 1)) :
    Int.log 2 a = e := by
  have ha : 0 < a := lt_of_lt_of_le (two_zpow_pos e) h1
  have l1 : e ≤ Int.log 2 a := (Int.zpow_le_iff_le_log (by norm_num) ha).1 h1
  have l2 : Int.log 2 a < e + 1 := (Int.lt_zpow_iff_log_lt (by norm_num) ha).1 h2
  omega

theorem ulpExp_eq (a : ℚ) (e : Int) (he : -1022 ≤ e) (h1 : (2 : ℚ) ^ e ≤ a)
    (h2 : a < 2 ^ (e + 1)) : ulpExp a = e - 52 := by
  unfold ulpExp
  rw [log_eq a e h1 h2, max_eq_left he]

theorem ulpExp_ge (a : ℚ) : -1074 ≤ ulpExp a := by
  unfold ulpExp
  have := le_max_right (Int.log 2 a) (-1022)
  omega

theorem ulpExp_mono (a b : ℚ) (ha : 0 < a) (hab : a ≤ b) : ulpExp a ≤ ulpExp b := by
  unfold ulpExp
  have := Int.log_mono_right (b := 2) ha hab
  have h1 := le_max_left (Int.log 2 b) (-1022)
  have h2 := le_max_right (Int.log 2 b) (-1022)
  have h3 : max (Int.log 2 a) (-1022) ≤ max (Int.log 2 b) (-1022) := max_le (by omega) h2
  omega

/-- The magnitude `a` lies below `2^(ulpExp a + 53)`. -/
theorem lt_ulp (a : ℚ) (ha : 0 ≤ a) : a < 2 ^ (ulpExp a + 53) := by
  rcases eq_or_lt_of_le ha with h | h
  · rw [← h]; exact two_zpow_pos _
  · have h1 := (log_bounds a h).2
    have h2 : Int.log 2 a + 1 ≤ ulpExp a + 53 := by
      unfold ulpExp
      have := le_max_left (Int.log 2 a) (-1022)
      omega
    exact lt_of_lt_of_le h1 (zpow_le_zpow_right₀ (by norm_num) h2)

/-- A magnitude whose spacing is above the least one is at least
`2^(ulpExp a + 52)`. -/
theorem ulp_le (a : ℚ) (ha : 0 < a) (h : -1074 < ulpExp a) : (2 : ℚ) ^ (ulpExp a + 52) ≤ a := by
  have h1 := (log_bounds a ha).1
  have h2 : ulpExp a + 52 = Int.log 2 a := by
    unfold ulpExp at h ⊢
    rcases le_total (Int.log 2 a) (-1022) with hl | hl
    · rw [max_eq_right hl] at h; omega
    · rw [max_eq_left hl]; omega
  rw [h2]
  exact h1

theorem zpow_split (u e : Int) (h : u ≤ e) : (2 : ℚ) ^ e = ((2 ^ (e - u).toNat : Int) : ℚ) * 2 ^ u := by
  have e1 : e = ((e - u).toNat : Int) + u := by omega
  conv_lhs => rw [e1]
  rw [zpow_add₀ (by norm_num), zpow_natCast]
  push_cast
  ring

/-- A `double` is a multiple of the spacing of its own magnitude. -/
theorem isDouble_ulpExp (a : ℚ) (h : isDouble a) (ha : a ≠ 0) :
    ∃ e : Int, ulpExp |a| ≤ e ∧ ∃ m : Int, a = (m : ℚ) * 2 ^ e := by
  obtain ⟨m, e, hm, he1, _, rfl⟩ := h
  refine ⟨e, ?_, m, rfl⟩
  have hpos : (0 : ℚ) < |(m : ℚ) * 2 ^ e| := abs_pos.2 ha
  have hlt : |(m : ℚ) * 2 ^ e| < 2 ^ (53 + e) := by
    rw [abs_mul, abs_of_pos (two_zpow_pos e), zpow_add₀ (by norm_num)]
    have : |(m : ℚ)| < 2 ^ (53 : Int) := by
      have h : ((|m| : Int) : ℚ) < ((2 ^ 53 : Int) : ℚ) := by exact_mod_cast hm
      rw [Int.cast_abs] at h
      norm_num at h ⊢
      exact h
    exact mul_lt_mul_of_pos_right this (two_zpow_pos e)
  have hlog : Int.log 2 |(m : ℚ) * 2 ^ e| < 53 + e :=
    (Int.lt_zpow_iff_log_lt (by norm_num) hpos).1 hlt
  unfold ulpExp
  have : max (Int.log 2 |(m : ℚ) * 2 ^ e|) (-1022) ≤ 52 + e := max_le (by omega) (by omega)
  omega

/-- A `double` is a multiple of every spacing that is not above its own. -/
theorem isDouble_multiple (a : ℚ) (h : isDouble a) (u : Int) (hu : a = 0 ∨ u ≤ ulpExp |a|) :
    ∃ N : Int, a = (N : ℚ) * 2 ^ u := by
  by_cases ha : a = 0
  · exact ⟨0, by simp [ha]⟩
  · obtain ⟨e, he, m, hm⟩ := isDouble_ulpExp a h ha
    have hu2 : u ≤ e := by
      rcases hu with h0 | h1
      · exact absurd h0 ha
      · omega
    refine ⟨m * 2 ^ (e - u).toNat, ?_⟩
    rw [hm, zpow_split u e hu2]
    push_cast
    ring

theorem isDouble_le_max (a : ℚ) (h : isDouble a) : |a| ≤ DBL_MAX := by
  obtain ⟨m, e, hm, _, he2, rfl⟩ := h
  have h1 : |(m : ℚ)| ≤ 2 ^ 53 - 1 := by
    have : |m| ≤ 2 ^ 53 - 1 := by omega
    have h : ((|m| : Int) : ℚ) ≤ ((2 ^ 53 - 1 : Int) : ℚ) := by exact_mod_cast this
    rw [Int.cast_abs] at h
    norm_num at h ⊢
    exact h
  have h2 : (2 : ℚ) ^ e ≤ 2 ^ (971 : Int) := zpow_le_zpow_right₀ (by norm_num) he2
  rw [abs_mul, abs_of_pos (two_zpow_pos e)]
  calc |(m : ℚ)| * 2 ^ e ≤ (2 ^ 53 - 1) * 2 ^ (971 : Int) :=
        mul_le_mul h1 h2 (le_of_lt (two_zpow_pos e)) (by norm_num)
    _ = DBL_MAX := by norm_num [DBL_MAX]

/-- The rounded value of `q` before the test of overflow. -/
theorem fl_eq (q v : ℚ) (hv : v = (roundEven (q / 2 ^ ulpExp |q|) : ℚ) * 2 ^ ulpExp |q|)
    (hmax : |v| ≤ DBL_MAX) : fl q = some v := by
  unfold fl
  simp only
  rw [← hv, if_pos hmax]

/-- A `double` is the result of rounding it. -/
theorem fl_exact (a : ℚ) (h : isDouble a) : fl a = some a := by
  obtain ⟨N, hN⟩ := isDouble_multiple a h (ulpExp |a|) (Or.inr (le_refl _))
  apply fl_eq a a _ (isDouble_le_max a h)
  have e : a / 2 ^ ulpExp |a| = (N : ℚ) :=
    div_eq_of_eq_mul (ne_of_gt (two_zpow_pos _)) hN
  rw [e, roundEven_intCast]
  exact hN

/-- Rounding does not cross a `double` below the exact value. -/
theorem round_ge (a q : ℚ) (ha : isDouble a) (h : a ≤ q) :
    a ≤ (roundEven (q / 2 ^ ulpExp |q|) : ℚ) * 2 ^ ulpExp |q| := by
  have hu := two_zpow_pos (ulpExp |q|)
  have multiple : (a = 0 ∨ ulpExp |q| ≤ ulpExp |a|) →
      a ≤ (roundEven (q / 2 ^ ulpExp |q|) : ℚ) * 2 ^ ulpExp |q| := by
    intro hc
    obtain ⟨N, hN⟩ := isDouble_multiple a ha (ulpExp |q|) hc
    have h1 : (N : ℚ) ≤ q / 2 ^ ulpExp |q| := by
      rw [le_div_iff₀ hu, ← hN]; exact h
    have h2 : ((N : Int) : ℚ) ≤ (roundEven (q / 2 ^ ulpExp |q|) : ℚ) := by
      exact_mod_cast roundEven_ge _ N h1
    rw [hN]
    exact mul_le_mul_of_nonneg_right h2 (le_of_lt hu)
  rcases lt_or_le q 0 with hq | hq
  · -- a ≤ q < 0
    have ha0 : a < 0 := lt_of_le_of_lt h hq
    apply multiple
    right
    apply ulpExp_mono _ _ (abs_pos.2 (ne_of_lt hq))
    rw [abs_of_neg hq, abs_of_neg ha0]
    linarith
  · rcases le_or_lt a 0 with ha0 | ha0
    · have h2 : ((0 : Int) : ℚ) ≤ (roundEven (q / 2 ^ ulpExp |q|) : ℚ) := by
        exact_mod_cast roundEven_ge _ 0 (by simpa using div_nonneg hq (le_of_lt hu))
      have : (0 : ℚ) ≤ (roundEven (q / 2 ^ ulpExp |q|) : ℚ) * 2 ^ ulpExp |q| :=
        mul_nonneg (by simpa using h2) (le_of_lt hu)
      linarith
    · rcases le_or_lt (ulpExp |q|) (ulpExp |a|) with hc | hc
      · exact multiple (Or.inr hc)
      · have hq0 : 0 < q := lt_of_lt_of_le ha0 h
        rw [abs_of_pos hq0] at hc hu ⊢
        rw [abs_of_pos ha0] at hc
        have hbig : (2 : ℚ) ^ (ulpExp q + 52) ≤ q :=
          ulp_le q hq0 (lt_of_le_of_lt (ulpExp_ge a) hc)
        have hsmall : a < 2 ^ (ulpExp a + 53) := lt_ulp a (le_of_lt ha0)
        have hle : (2 : ℚ) ^ (ulpExp a + 53) ≤ 2 ^ (ulpExp q + 52) :=
          zpow_le_zpow_right₀ (by norm_num) (by omega)
        have e52 : (2 : ℚ) ^ (ulpExp q + 52) = ((2 ^ 52 : Int) : ℚ) * 2 ^ ulpExp q := by
          rw [zpow_add₀ (by norm_num)]; push_cast; norm_num; ring
        have h1 : ((2 ^ 52 : Int) : ℚ) ≤ q / 2 ^ ulpExp q := by
          rw [le_div_iff₀ hu, ← e52]; exact hbig
        have h2 : ((2 ^ 52 : Int) : ℚ) ≤ (roundEven (q / 2 ^ ulpExp q) : ℚ) := by
          exact_mod_cast roundEven_ge _ _ h1
        have h3 : (2 : ℚ) ^ (ulpExp q + 52) ≤ (roundEven (q / 2 ^ ulpExp q) : ℚ) * 2 ^ ulpExp q := by
          rw [e52]; exact mul_le_mul_of_nonneg_right h2 (le_of_lt hu)
        linarith

/-- Rounding does not cross a `double` above the exact value. -/
theorem round_le (b q : ℚ) (hb : isDouble b) (h : q ≤ b) :
    (roundEven (q / 2 ^ ulpExp |q|) : ℚ) * 2 ^ ulpExp |q| ≤ b := by
  have hu := two_zpow_pos (ulpExp |q|)
  have multiple : (b = 0 ∨ ulpExp |q| ≤ ulpExp |b|) →
      (roundEven (q / 2 ^ ulpExp |q|) : ℚ) * 2 ^ ulpExp |q| ≤ b := by
    intro hc
    obtain ⟨N, hN⟩ := isDouble_multiple b hb (ulpExp |q|) hc
    have h1 : q / 2 ^ ulpExp |q| ≤ (N : ℚ) := by
      rw [div_le_iff₀ hu, ← hN]; exact h
    have h2 : (roundEven (q / 2 ^ ulpExp |q|) : ℚ) ≤ ((N : Int) : ℚ) := by
      exact_mod_cast roundEven_le _ N h1
    rw [hN]
    exact mul_le_mul_of_nonneg_right h2 (le_of_lt hu)
  rcases lt_or_le 0 q with hq | hq
  · -- 0 < q ≤ b
    have hb0 : 0 < b := lt_of_lt_of_le hq h
    apply multiple
    right
    apply ulpExp_mono _ _ (abs_pos.2 (ne_of_gt hq))
    rw [abs_of_pos hq, abs_of_pos hb0]
    exact h
  · rcases le_or_lt 0 b with hb0 | hb0
    · have h2 : (roundEven (q / 2 ^ ulpExp |q|) : ℚ) ≤ ((0 : Int) : ℚ) := by
        exact_mod_cast roundEven_le _ 0 (by simpa using div_nonpos_of_nonpos_of_nonneg hq (le_of_lt hu))
      have : (roundEven (q / 2 ^ ulpExp |q|) : ℚ) * 2 ^ ulpExp |q| ≤ 0 :=
        mul_nonpos_of_nonpos_of_nonneg (by simpa using h2) (le_of_lt hu)
      linarith
    · rcases le_or_lt (ulpExp |q|) (ulpExp |b|) with hc | hc
      · exact multiple (Or.inr hc)
      · have hq0 : q < 0 := lt_of_le_of_lt h hb0
        rw [abs_of_neg hq0] at hc hu ⊢
        rw [abs_of_neg hb0] at hc
        have hbig : (2 : ℚ) ^ (ulpExp (-q) + 52) ≤ -q :=
          ulp_le (-q) (by linarith) (lt_of_le_of_lt (ulpExp_ge (-b)) hc)
        have hsmall : -b < 2 ^ (ulpExp (-b) + 53) := lt_ulp (-b) (by linarith)
        have hle : (2 : ℚ) ^ (ulpExp (-b) + 53) ≤ 2 ^ (ulpExp (-q) + 52) :=
          zpow_le_zpow_right₀ (by norm_num) (by omega)
        have e52 : (2 : ℚ) ^ (ulpExp (-q) + 52) = 4503599627370496 * 2 ^ ulpExp (-q) := by
          rw [zpow_add₀ (by norm_num)]; norm_num; ring
        have h1 : q / 2 ^ ulpExp (-q) ≤ ((-4503599627370496 : Int) : ℚ) := by
          rw [div_le_iff₀ hu]
          push_cast
          linarith
        have h2 : (roundEven (q / 2 ^ ulpExp (-q)) : ℚ) ≤ ((-4503599627370496 : Int) : ℚ) := by
          exact_mod_cast roundEven_le _ _ h1
        have h3 := mul_le_mul_of_nonneg_right h2 (le_of_lt hu)
        push_cast at h3
        linarith

/-- Rounding stays between two `double`s that enclose the exact value: the
operation does not overflow and is monotone. -/
theorem fl_mem (a b q : ℚ) (ha : isDouble a) (hb : isDouble b) (h1 : a ≤ q) (h2 : q ≤ b) :
    ∃ v, fl q = some v ∧ a ≤ v ∧ v ≤ b := by
  have l := round_ge a q ha h1
  have u := round_le b q hb h2
  refine ⟨_, fl_eq q _ rfl ?_, l, u⟩
  have ma := isDouble_le_max a ha
  have mb := isDouble_le_max b hb
  rw [abs_le] at ma mb ⊢
  constructor <;> linarith [ma.1, mb.2]

/-- Overflow: an exact value of `2^1024` or more has no finite result. -/
theorem fl_overflow (q : ℚ) (h : (2 : ℚ) ^ (1024 : Int) ≤ q) : fl q = none := by
  have hq0 : 0 < q := lt_of_lt_of_le (two_zpow_pos 1024) h
  have hlog : (1024 : Int) ≤ Int.log 2 q := (Int.zpow_le_iff_le_log (by norm_num) hq0).1 h
  have hu1 : ulpExp q = Int.log 2 q - 52 := by
    unfold ulpExp; rw [max_eq_left (by omega)]
  have hu := two_zpow_pos (ulpExp q)
  have hbig : (2 : ℚ) ^ (ulpExp q + 52) ≤ q := ulp_le q hq0 (by omega)
  have e52 : (2 : ℚ) ^ (ulpExp q + 52) = ((2 ^ 52 : Int) : ℚ) * 2 ^ ulpExp q := by
    rw [zpow_add₀ (by norm_num)]; push_cast; norm_num; ring
  have h1 : ((2 ^ 52 : Int) : ℚ) ≤ q / 2 ^ ulpExp q := by
    rw [le_div_iff₀ hu, ← e52]; exact hbig
  have h2 : ((2 ^ 52 : Int) : ℚ) ≤ (roundEven (q / 2 ^ ulpExp q) : ℚ) := by
    exact_mod_cast roundEven_ge _ _ h1
  have h3 : (2 : ℚ) ^ (ulpExp q + 52) ≤ (roundEven (q / 2 ^ ulpExp q) : ℚ) * 2 ^ ulpExp q := by
    rw [e52]; exact mul_le_mul_of_nonneg_right h2 (le_of_lt hu)
  have h4 : (2 : ℚ) ^ (1024 : Int) ≤ 2 ^ (ulpExp q + 52) :=
    zpow_le_zpow_right₀ (by norm_num) (by omega)
  have h5 : DBL_MAX < (2 : ℚ) ^ (1024 : Int) := by norm_num [DBL_MAX]
  unfold fl
  simp only
  rw [abs_of_pos hq0, if_neg]
  rw [not_le]
  have : (0 : ℚ) < (roundEven (q / 2 ^ ulpExp q) : ℚ) * 2 ^ ulpExp q := by
    linarith [two_zpow_pos (ulpExp q + 52)]
  rw [abs_of_pos this]
  linarith

/-- Evaluation of a rounding: in the binade `[2^e, 2^(e+1))` the result is the
multiple of `2^(e - 52)` less than half a spacing away. -/
theorem fl_near (q : ℚ) (e n : Int) (he : -1022 ≤ e) (h1 : (2 : ℚ) ^ e ≤ |q|)
    (h2 : |q| < 2 ^ (e + 1)) (hn : |q / 2 ^ (e - 52) - (n : ℚ)| < 1 / 2)
    (hmax : |(n : ℚ) * 2 ^ (e - 52)| ≤ DBL_MAX) : fl q = some ((n : ℚ) * 2 ^ (e - 52)) := by
  apply fl_eq q _ _ hmax
  rw [ulpExp_eq |q| e he h1 h2, roundEven_near _ n hn]

theorem isDouble_int (n : Int) (h : |n| < 2 ^ 53) : isDouble (n : ℚ) :=
  ⟨n, 0, h, by decide, by decide, by simp⟩

theorem isDouble_zero : isDouble 0 := by
  simpa using isDouble_int 0 (by decide)

theorem fl_int (n : Int) (h : |n| < 2 ^ 53) : fl (n : ℚ) = some (n : ℚ) :=
  fl_exact _ (isDouble_int n h)

theorem fsqrt_zero : fsqrt 0 = 0 := by
  unfold fsqrt
  simp

/-- The square root of the square of a `double` with a full significand is that
`double`. -/
theorem fsqrt_sq (m : Nat) (e : Int) (hm1 : 2 ^ 52 ≤ m) (hm2 : m < 2 ^ 53) (he : -1074 ≤ e) :
    fsqrt (((m : ℚ) * 2 ^ e) ^ 2) = (m : ℚ) * 2 ^ e := by
  have hpe := two_zpow_pos e
  have hsq : ((m : ℚ) * 2 ^ e) ^ 2 = ((m : ℚ)) ^ 2 * 2 ^ (2 * e) := by
    rw [mul_pow, ← zpow_natCast ((2 : ℚ) ^ e) 2, ← zpow_mul]
    congr 2
    ring
  have hm1q : (2 : ℚ) ^ (52 : Int) ≤ (m : ℚ) := by
    have : ((2 ^ 52 : Nat) : ℚ) ≤ (m : ℚ) := by exact_mod_cast hm1
    norm_num at this ⊢
    exact this
  have hm2q : (m : ℚ) < 2 ^ (53 : Int) := by
    have : (m : ℚ) < ((2 ^ 53 : Nat) : ℚ) := by exact_mod_cast hm2
    norm_num at this ⊢
    exact this
  have hm0 : (0 : ℚ) ≤ (m : ℚ) := Nat.cast_nonneg m
  have hlow : (2 : ℚ) ^ (104 + 2 * e) ≤ ((m : ℚ) * 2 ^ e) ^ 2 := by
    rw [hsq, zpow_add₀ (by norm_num)]
    apply mul_le_mul_of_nonneg_right _ (le_of_lt (two_zpow_pos _))
    have : (2 : ℚ) ^ (104 : Int) = (2 ^ (52 : Int)) ^ 2 := by norm_num
    rw [this]
    exact pow_le_pow_left₀ (by positivity) hm1q 2
  have hhigh : ((m : ℚ) * 2 ^ e) ^ 2 < 2 ^ (106 + 2 * e) := by
    rw [hsq, zpow_add₀ (by norm_num)]
    apply mul_lt_mul_of_pos_right _ (two_zpow_pos _)
    have : (2 : ℚ) ^ (106 : Int) = (2 ^ (53 : Int)) ^ 2 := by norm_num
    rw [this]
    exact pow_lt_pow_left₀ hm2q hm0 (by norm_num)
  have hpos : (0 : ℚ) < ((m : ℚ) * 2 ^ e) ^ 2 := lt_of_lt_of_le (two_zpow_pos _) hlow
  have l1 : 104 + 2 * e ≤ Int.log 2 (((m : ℚ) * 2 ^ e) ^ 2) :=
    (Int.zpow_le_iff_le_log (by norm_num) hpos).1 hlow
  have l2 : Int.log 2 (((m : ℚ) * 2 ^ e) ^ 2) < 106 + 2 * e :=
    (Int.lt_zpow_iff_log_lt (by norm_num) hpos).1 hhigh
  have hw : max (Int.log 2 (((m : ℚ) * 2 ^ e) ^ 2) / 2) (-1022) - 52 = e := by
    have : Int.log 2 (((m : ℚ) * 2 ^ e) ^ 2) / 2 = 52 + e := by omega
    rw [this, max_eq_left (by omega)]
    ring
  have ht : ((m : ℚ) * 2 ^ e) ^ 2 / 2 ^ (2 * e) = ((m * m : Nat) : ℚ) := by
    rw [hsq, mul_div_assoc, div_self (ne_of_gt (two_zpow_pos _))]
    push_cast
    ring
  have hn : Nat.sqrt ⌊((m * m : Nat) : ℚ)⌋₊ = m := by
    rw [Nat.floor_natCast, Nat.sqrt_eq]
  unfold fsqrt
  simp only
  rw [hw, ht, hn, if_pos]
  push_cast
  nlinarith

/-! ### The operations on `double` at finite arguments -/

theorem Double.sub_some (a b : ℚ) : Double.sub (some a) (some b) = fl (a - b) := rfl

theorem Double.add_some (a b : ℚ) : Double.add (some a) (some b) = fl (a + b) := rfl

theorem Double.add_none (a : Double) : Double.add a none = none := by
  cases a <;> rfl

theorem Double.none_add (a : Double) : Double.add none a = none := rfl

theorem Double.pow2_some (a : ℚ) : Double.pow2 (some a) = fl (a ^ 2) := rfl

theorem Double.pow2_none : Double.pow2 none = none := rfl

theorem Double.sqrt_some (a : ℚ) (h : 0 ≤ a) : Double.sqrt (some a) = some (fsqrt a) := by
  show (if 0 ≤ a then some (fsqrt a) else none) = some (fsqrt a)
  rw [if_pos h]

theorem Double.sqrt_none : Double.sqrt none = none := rfl

theorem Double.mul_some (a b : ℚ) : Double.mul (some a) (some b) = fl (a * b) := rfl

theorem toInt_fp_some (q : ℚ) : toInt_fp (some q) = toInt q := rfl

theorem Double.quot_some (a b : ℚ) (hb : b ≠ 0) :
    Double.quot (some a) (some b) = fl (a / b) := by
  show (if b = 0 then none else fl (a / b)) = fl (a / b)
  rw [if_neg hb]

/-- Evaluation of a rounding whose exact value is a `double`. -/
theorem fl_val (q v : ℚ) (m e : Int) (hm : |m| < 2 ^ 53) (he1 : -1074 ≤ e) (he2 : e ≤ 971)
    (hq : q = (m : ℚ) * 2 ^ e) (hv : q = v) : fl q = some v := by
  rw [← hv]
  exact fl_exact q ⟨m, e, hm, he1, he2, hq⟩

theorem fl_zero : fl 0 = some 0 := fl_exact 0 isDouble_zero

theorem roundEven_tie_odd (t : ℚ) (n : Int) (h : t = (n : ℚ) + 1 / 2) (hodd : n % 2 = 1) :
    roundEven t = n + 1 := by
  have hf : ⌊t⌋ = n := by
    rw [Int.floor_eq_iff, h]
    constructor <;> linarith
  unfold roundEven
  rw [hf, h]
  norm_num
  omega

/-- Evaluation of a rounding at a tie: half-way above an odd multiple of the
spacing, the result is the next multiple. -/
theorem fl_tie_odd (q : ℚ) (e n : Int) (he : -1022 ≤ e) (h1 : (2 : ℚ) ^ e ≤ |q|)
    (h2 : |q| < 2 ^ (e + 1)) (hn : q / 2 ^ (e - 52) = (n : ℚ) + 1 / 2) (hodd : n % 2 = 1)
    (hmax : |((n + 1 : Int) : ℚ) * 2 ^ (e - 52)| ≤ DBL_MAX) :
    fl q = some (((n + 1 : Int) : ℚ) * 2 ^ (e - 52)) := by
  apply fl_eq q _ _ hmax
  rw [ulpExp_eq |q| e he h1 h2, roundEven_tie_odd _ n hn hodd]


/-! ## Lemmas on `nn_search` -/

theorem sqDist_nonneg (query train : List ℚ) : 0 ≤ sqDist query train := by
  unfold sqDist
  apply List.sum_nonneg
  intro x hx
  rcases List.mem_iff_get.1 hx with ⟨n, rfl⟩
  simp only [List.get_eq_getElem, List.getElem_zipWith]
  positivity

/-! ### The index returned for arbitrary `double` entries -/

theorem nn_search_dist_ok (hist : List Double) :
    ∀ (t : List Double) (j : Nat) (d : Double), j + t.length ≤ hist.length →
      ∃ d2, nn_search_dist hist t j d = .ok d2 := by
  intro t
  induction t with
  | nil => intro j d _; exact ⟨d, rfl⟩
  | cons a t ih =>
    intro j d h
    simp only [List.length_cons] at h
    have hj : j < hist.length := by omega
    have hget : hist.get? j = some hist[j] := by
      simp [List.getElem?_eq_getElem hj]
    simp only [nn_search_dist, hget]
    exact ih (j + 1) _ (by omega)

/-- The outer loop of `nn_search` returns `index` or a position of the part of
`histograms` it runs over, whatever the entries (finite or not). -/
theorem nn_search_loop_range (hist : List Double) :
    ∀ (hs : List (List Double)) (i : Nat) (m : ℚ) (idx : Nat),
      (∀ h ∈ hs, h.length ≤ hist.length) →
      ∃ r, nn_search_loop hist hs i m idx = .ok r ∧ (r = idx ∨ (i ≤ r ∧ r < i + hs.length)) := by
  intro hs
  induction hs with
  | nil => intro i m idx _; exact ⟨idx, rfl, Or.inl rfl⟩
  | cons h rest ih =>
    intro i m idx hlen
    have hrest : ∀ t ∈ rest, t.length ≤ hist.length :=
      fun t ht => hlen t (List.mem_cons_of_mem _ ht)
    obtain ⟨d, hd⟩ := nn_search_dist_ok hist h 0 (some 0)
      (by have := hlen h (List.mem_cons_self _ _); omega)
    simp only [nn_search_loop, hd, List.length_cons]
    cases hsq : Double.sqrt d with
    | none =>
      simp only
      obtain ⟨r, hr, hcase⟩ := ih (i + 1) m idx hrest
      exact ⟨r, hr, by omega⟩
    | some dv =>
      simp only
      by_cases hlt : dv < m
      · rw [if_pos hlt]
        obtain ⟨r, hr, hcase⟩ := ih (i + 1) dv i hrest
        exact ⟨r, hr, by omega⟩
      · rw [if_neg hlt]
        obtain ⟨r, hr, hcase⟩ := ih (i + 1) m idx hrest
        exact ⟨r, hr, by omega⟩

/-- On a non-empty training index whose descriptors are not longer than the
query, `nn_search` returns a position of the index. -/
theorem nn_search_index (hist : List Double) (histograms : List (List Double))
    (hne : histograms ≠ []) (hlen : ∀ h ∈ histograms, h.length ≤ hist.length) :
    ∃ i, nn_search hist histograms = .ok i ∧ i < histograms.length := by
  obtain ⟨r, hr, hcase⟩ :=
    nn_search_loop_range hist histograms 0 DBL_MAX 0 hlen
  have hpos : 0 < histograms.length := List.length_pos.2 hne
  exact ⟨r, hr, by omega⟩


/-- With a single training descriptor the search returns index 0. -/
theorem nn_search_singleton (q t : List ℚ) (h : t.length = q.length) :
    nn_search (finite q) [finite t] = .ok 0 := by
  obtain ⟨i, hi, hlt⟩ := nn_search_index (finite q) [finite t] (by simp)
    (by simp [finite, h])
  have : i = 0 := by simpa using hlt
  rw [← this]
  exact hi

/-! ### The distances that `nn_search` computes -/

theorem nn_distance_ok (hist h : List Double) (hlen : h.length ≤ hist.length) :
    ∃ d, nn_distance hist h = .ok d ∧
      ∃ d0, nn_search_dist hist h 0 (some 0) = .ok d0 ∧ d = Double.sqrt d0 := by
  obtain ⟨d0, hd0⟩ := nn_search_dist_ok hist h 0 (some 0) (by omega)
  exact ⟨Double.sqrt d0, by simp [nn_distance, hd0], d0, hd0, rfl⟩

/-- Invariant of the outer loop of `nn_search`.  Either no computed distance is
below `mindist` and `index` is returned unchanged, or the position returned is
the first one whose computed distance is the least of the finite ones. -/
theorem nn_search_loop_min (hist : List Double) :
    ∀ (hs : List (List Double)) (i : Nat) (m : ℚ) (idx : Nat),
      (∀ h ∈ hs, h.length ≤ hist.length) →
      ∃ r, nn_search_loop hist hs i m idx = .ok r ∧
        ((r = idx ∧ ∀ h ∈ hs, ∀ d, nn_distance hist h = .ok (some d) → m ≤ d) ∨
         (∃ k hk dk, r = i + k ∧ hs.get? k = some hk ∧
            nn_distance hist hk = .ok (some dk) ∧ dk < m ∧
            (∀ h ∈ hs, ∀ d, nn_distance hist h = .ok (some d) → dk ≤ d) ∧
            ∀ k2 h2 d2, k2 < k → hs.get? k2 = some h2 →
              nn_distance hist h2 = .ok (some d2) → dk < d2)) := by
  intro hs
  induction hs with
  | nil =>
    intro i m idx _
    exact ⟨idx, by simp [nn_search_loop], Or.inl ⟨rfl, by simp⟩⟩
  | cons h rest ih =>
    intro i m idx hlen
    have hrest : ∀ t ∈ rest, t.length ≤ hist.length :=
      fun t ht => hlen t (List.mem_cons_of_mem _ ht)
    obtain ⟨d0, hd0⟩ := nn_search_dist_ok hist h 0 (some 0)
      (by have := hlen h (List.mem_cons_self _ _); omega)
    have hdist : nn_distance hist h = .ok (Double.sqrt d0) := by simp [nn_distance, hd0]
    simp only [nn_search_loop, hd0]
    cases hsq : Double.sqrt d0 with
    | none =>
      simp only
      rw [hsq] at hdist
      obtain ⟨r, hr, hcase⟩ := ih (i + 1) m idx hrest
      refine ⟨r, hr, ?_⟩
      rcases hcase with ⟨rfl, hall⟩ | ⟨k, tk, dk, rfl, hk, hdk, hlt2, hmin, hfirst⟩
      · refine Or.inl ⟨rfl, ?_⟩
        intro t ht d hd
        rcases List.mem_cons.1 ht with rfl | ht
        · rw [hdist] at hd; exact absurd hd (by simp)
        · exact hall t ht d hd
      · refine Or.inr ⟨k + 1, tk, dk, by omega, by simpa using hk, hdk, hlt2, ?_, ?_⟩
        · intro t ht d hd
          rcases List.mem_cons.1 ht with rfl | ht
          · rw [hdist] at hd; exact absurd hd (by simp)
          · exact hmin t ht d hd
        · intro k2 t2 d2 hk2 hget hd2
          cases k2 with
          | zero =>
            simp only [List.get?_cons_zero, Option.some.injEq] at hget
            subst hget
            rw [hdist] at hd2; exact absurd hd2 (by simp)
          | succ k3 =>
            simp only [List.get?_cons_succ] at hget
            exact hfirst k3 t2 d2 (by omega) hget hd2
    | some dv =>
      simp only
      rw [hsq] at hdist
      have hval : ∀ d, nn_distance hist h = .ok (some d) → d = dv := by
        intro d hd
        rw [hdist] at hd
        injection hd with hd
        injection hd with hd
        exact hd.symm
      by_cases hlt : dv < m
      · rw [if_pos hlt]
        obtain ⟨r, hr, hcase⟩ := ih (i + 1) dv i hrest
        refine ⟨r, hr, Or.inr ?_⟩
        rcases hcase with ⟨rfl, hall⟩ | ⟨k, tk, dk, rfl, hk, hdk, hlt2, hmin, hfirst⟩
        · refine ⟨0, h, dv, rfl, rfl, hdist, hlt, ?_, ?_⟩
          · intro t ht d hd
            rcases List.mem_cons.1 ht with rfl | ht
            · rw [hval d hd]
            · exact hall t ht d hd
          · intro k2 t2 d2 hk2; omega
        · refine ⟨k + 1, tk, dk, by omega, by simpa using hk, hdk, lt_trans hlt2 hlt, ?_, ?_⟩
          · intro t ht d hd
            rcases List.mem_cons.1 ht with rfl | ht
            · rw [hval d hd]; exact le_of_lt hlt2
            · exact hmin t ht d hd
          · intro k2 t2 d2 hk2 hget hd2
            cases k2 with
            | zero =>
              simp only [List.get?_cons_zero, Option.some.injEq] at hget
              subst hget
              rw [hval d2 hd2]; exact hlt2
            | succ k3 =>
              simp only [List.get?_cons_succ] at hget
              exact hfirst k3 t2 d2 (by omega) hget hd2
      · rw [if_neg hlt]
        obtain ⟨r, hr, hcase⟩ := ih (i + 1) m idx hrest
        refine ⟨r, hr, ?_⟩
        rcases hcase with ⟨rfl, hall⟩ | ⟨k, tk, dk, rfl, hk, hdk, hlt2, hmin, hfirst⟩
        · refine Or.inl ⟨rfl, ?_⟩
          intro t ht d hd
          rcases List.mem_cons.1 ht with rfl | ht
          · rw [hval d hd]; exact not_lt.1 hlt
          · exact hall t ht d hd
        · refine Or.inr ⟨k + 1, tk, dk, by omega, by simpa using hk, hdk, hlt2, ?_, ?_⟩
          · intro t ht d hd
            rcases List.mem_cons.1 ht with rfl | ht
            · rw [hval d hd]; exact le_of_lt (lt_of_lt_of_le hlt2 (not_lt.1 hlt))
            · exact hmin t ht d hd
          · intro k2 t2 d2 hk2 hget hd2
            cases k2 with
            | zero =>
              simp only [List.get?_cons_zero, Option.some.injEq] at hget
              subst hget
              rw [hval d2 hd2]; exact lt_of_lt_of_le hlt2 (not_lt.1 hlt)
            | succ k3 =>
              simp only [List.get?_cons_succ] at hget
              exact hfirst k3 t2 d2 (by omega) hget hd2

/-! ### Descriptors longer than the query -/

/-- The inner loop of `nn_search` reads the query past its end when what is left
of the training descriptor is longer than what is left of the query. -/
theorem nn_search_dist_error (hist : List Double) :
    ∀ (t : List Double) (j : Nat) (d : Double), j ≤ hist.length → hist.length < j + t.length →
      nn_search_dist hist t j d = .error .undefinedBehaviour := by
  intro t
  induction t with
  | nil => intro j d h1 h2; simp only [List.length_nil] at h2; omega
  | cons a t ih =>
    intro j d h1 h2
    simp only [List.length_cons] at h2
    rw [nn_search_dist]
    cases hg : hist.get? j with
    | none => rfl
    | some b =>
      simp only
      have hj : j < hist.length := (List.get?_eq_some.1 hg).1
      exact ih (j + 1) _ (by omega) (by omega)

/-- The outer loop of `nn_search` is undefined as soon as one of the training
descriptors it runs over is longer than the query. -/
theorem nn_search_loop_error (hist : List Double) :
    ∀ (hs : List (List Double)) (i : Nat) (m : ℚ) (idx : Nat),
      (∃ h ∈ hs, hist.length < h.length) →
      nn_search_loop hist hs i m idx = .error .undefinedBehaviour := by
  intro hs
  induction hs with
  | nil => intro i m idx h; obtain ⟨h0, hmem, _⟩ := h; simp at hmem
  | cons h rest ih =>
    intro i m idx hex
    by_cases hlong : hist.length < h.length
    · rw [nn_search_loop, nn_search_dist_error hist h 0 (some 0) (Nat.zero_le _) (by omega)]
    · have hrest : ∃ t ∈ rest, hist.length < t.length := by
        obtain ⟨t, ht, hl⟩ := hex
        rcases List.mem_cons.1 ht with rfl | ht
        · exact absurd hl hlong
        · exact ⟨t, ht, hl⟩
      obtain ⟨d, hd⟩ := nn_search_dist_ok hist h 0 (some 0) (by omega)
      rw [nn_search_loop, hd]
      simp only
      cases hsq : Double.sqrt d with
      | none => exact ih (i + 1) m idx hrest
      | some dv =>
        simp only
        split_ifs
        · exact ih (i + 1) dv i hrest
        · exact ih (i + 1) m idx hrest

/-! ## Evaluation of `nn_search` on examples -/

theorem nn_distance_eq (hist h : List Double) (d : Double)
    (hd : nn_distance hist h = .ok d) :
    ∃ d0, nn_search_dist hist h 0 (some 0) = .ok d0 ∧ Double.sqrt d0 = d := by
  unfold nn_distance at hd
  cases h0 : nn_search_dist hist h 0 (some 0) with
  | error e => rw [h0] at hd; exact absurd hd (by simp)
  | ok d0 =>
    rw [h0] at hd
    simp only at hd
    injection hd with hd
    exact ⟨d0, rfl, hd⟩

/-- A step of the outer loop of `nn_search` on a distance that is not finite. -/
theorem nn_search_loop_cons_none (hist h : List Double) (rest : List (List Double)) (i : Nat)
    (m : ℚ) (idx : Nat) (hd : nn_distance hist h = .ok none) :
    nn_search_loop hist (h :: rest) i m idx = nn_search_loop hist rest (i + 1) m idx := by
  obtain ⟨d0, h0, hs⟩ := nn_distance_eq hist h none hd
  rw [nn_search_loop, h0]
  simp only [hs]

/-- A step of the outer loop of `nn_search` on a distance below `mindist`. -/
theorem nn_search_loop_cons_lt (hist h : List Double) (rest : List (List Double)) (i : Nat)
    (m : ℚ) (idx : Nat) (dv : ℚ) (hd : nn_distance hist h = .ok (some dv)) (hlt : dv < m) :
    nn_search_loop hist (h :: rest) i m idx = nn_search_loop hist rest (i + 1) dv i := by
  obtain ⟨d0, h0, hs⟩ := nn_distance_eq hist h _ hd
  rw [nn_search_loop, h0]
  simp only [hs, if_pos hlt]

/-- A step of the outer loop of `nn_search` on a distance not below `mindist`. -/
theorem nn_search_loop_cons_ge (hist h : List Double) (rest : List (List Double)) (i : Nat)
    (m : ℚ) (idx : Nat) (dv : ℚ) (hd : nn_distance hist h = .ok (some dv)) (hge : ¬ dv < m) :
    nn_search_loop hist (h :: rest) i m idx = nn_search_loop hist rest (i + 1) m idx := by
  obtain ⟨d0, h0, hs⟩ := nn_distance_eq hist h _ hd
  rw [nn_search_loop, h0]
  simp only [hs, if_neg hge]

theorem fsqrt_one : fsqrt 1 = 1 := by
  have h := fsqrt_sq (2 ^ 52) (-52) (le_refl _) (by norm_num) (by norm_num)
  have e : ((2 ^ 52 : Nat) : ℚ) * 2 ^ (-52 : Int) = 1 := by norm_num
  rw [e] at h
  simpa using h

theorem fsqrt_four : fsqrt 4 = 2 := by
  have h := fsqrt_sq (2 ^ 52) (-51) (le_refl _) (by norm_num) (by norm_num)
  have e : ((2 ^ 52 : Nat) : ℚ) * 2 ^ (-51 : Int) = 2 := by norm_num
  rw [e] at h
  have e2 : (2 : ℚ) ^ 2 = 4 := by norm_num
  rw [e2] at h
  exact h

/-- The distance computed for descriptors of one bin. -/
theorem nn_distance_one (a x : ℚ) :
    nn_distance (finite [a]) (finite [x])
      = .ok (Double.sqrt (Double.add (some 0) (Double.pow2 (Double.sub (some a) (some x))))) :=
  rfl

/-- The distance computed for descriptors of two bins. -/
theorem nn_distance_two (a b x y : ℚ) :
    nn_distance (finite [a, b]) (finite [x, y])
      = .ok (Double.sqrt (Double.add
          (Double.add (some 0) (Double.pow2 (Double.sub (some a) (some x))))
          (Double.pow2 (Double.sub (some b) (some y))))) :=
  rfl

theorem dist_one_zero :
    nn_distance (finite [0, 0]) (finite [1, 0]) = .ok (some 1) := by
  have e1 : fl (0 - 1) = some (-1) :=
    fl_val _ _ (-1) (0) (by norm_num) (by norm_num) (by norm_num) (by norm_num) (by norm_num)
  have e2 : fl ((-1) ^ 2) = some (1) :=
    fl_val _ _ (1) (0) (by norm_num) (by norm_num) (by norm_num) (by norm_num) (by norm_num)
  have e3 : fl (0 + 1) = some (1) :=
    fl_val _ _ (1) (0) (by norm_num) (by norm_num) (by norm_num) (by norm_num) (by norm_num)
  have e4 : fl (0 - 0) = some (0) :=
    fl_val _ _ (0) (0) (by norm_num) (by norm_num) (by norm_num) (by norm_num) (by norm_num)
  have e5 : fl (0 ^ 2) = some (0) :=
    fl_val _ _ (0) (0) (by norm_num) (by norm_num) (by norm_num) (by norm_num) (by norm_num)
  have e6 : fl (1 + 0) = some (1) :=
    fl_val _ _ (1) (0) (by norm_num) (by norm_num) (by norm_num) (by norm_num) (by norm_num)
  rw [nn_distance_two, Double.sub_some, e1, Double.pow2_some, e2, Double.add_some, e3,
    Double.sub_some, e4, Double.pow2_some, e5, Double.add_some, e6,
    Double.sqrt_some _ (by norm_num), fsqrt_one]

theorem dist_zero_one :
    nn_distance (finite [0, 0]) (finite [0, 1]) = .ok (some 1) := by
  have e1 : fl (0 - 0) = some (0) :=
    fl_val _ _ (0) (0) (by norm_num) (by norm_num) (by norm_num) (by norm_num) (by norm_num)
  have e2 : fl (0 ^ 2) = some (0) :=
    fl_val _ _ (0) (0) (by norm_num) (by norm_num) (by norm_num) (by norm_num) (by norm_num)
  have e3 : fl (0 + 0) = some (0) :=
    fl_val _ _ (0) (0) (by norm_num) (by norm_num) (by norm_num) (by norm_num) (by norm_num)
  have e4 : fl (0 - 1) = some (-1) :=
    fl_val _ _ (-1) (0) (by norm_num) (by norm_num) (by norm_num) (by norm_num) (by norm_num)
  have e5 : fl ((-1) ^ 2) = some (1) :=
    fl_val _ _ (1) (0) (by norm_num) (by norm_num) (by norm_num) (by norm_num) (by norm_num)
  have e6 : fl (0 + 1) = some (1) :=
    fl_val _ _ (1) (0) (by norm_num) (by norm_num) (by norm_num) (by norm_num) (by norm_num)
  rw [nn_distance_two, Double.sub_some, e1, Double.pow2_some, e2, Double.add_some, e3,
    Double.sub_some, e4, Double.pow2_some, e5, Double.add_some, e6,
    Double.sqrt_some _ (by norm_num), fsqrt_one]

theorem dist_two_zero :
    nn_distance (finite [0, 0]) (finite [2, 0]) = .ok (some 2) := by
  have e1 : fl (0 - 2) = some (-2) :=
    fl_val _ _ (-2) (0) (by norm_num) (by norm_num) (by norm_num) (by norm_num) (by norm_num)
  have e2 : fl ((-2) ^ 2) = some (4) :=
    fl_val _ _ (4) (0) (by norm_num) (by norm_num) (by norm_num) (by norm_num) (by norm_num)
  have e3 : fl (0 + 4) = some (4) :=
    fl_val _ _ (4) (0) (by norm_num) (by norm_num) (by norm_num) (by norm_num) (by norm_num)
  have e4 : fl (0 - 0) = some (0) :=
    fl_val _ _ (0) (0) (by norm_num) (by norm_num) (by norm_num) (by norm_num) (by norm_num)
  have e5 : fl (0 ^ 2) = some (0) :=
    fl_val _ _ (0) (0) (by norm_num) (by norm_num) (by norm_num) (by norm_num) (by norm_num)
  have e6 : fl (4 + 0) = some (4) :=
    fl_val _ _ (4) (0) (by norm_num) (by norm_num) (by norm_num) (by norm_num) (by norm_num)
  rw [nn_distance_two, Double.sub_some, e1, Double.pow2_some, e2, Double.add_some, e3,
    Double.sub_some, e4, Double.pow2_some, e5, Double.add_some, e6,
    Double.sqrt_some _ (by norm_num), fsqrt_four]

theorem dist_rounded :
    nn_distance (finite [0, 0]) (finite [1, 1 / 134217728]) = .ok (some 1) := by
  have e1 : fl (0 - 1) = some (-1) :=
    fl_val _ _ (-1) (0) (by norm_num) (by norm_num) (by norm_num) (by norm_num) (by norm_num)
  have e2 : fl ((-1) ^ 2) = some (1) :=
    fl_val _ _ (1) (0) (by norm_num) (by norm_num) (by norm_num) (by norm_num) (by norm_num)
  have e3 : fl (0 + 1) = some (1) :=
    fl_val _ _ (1) (0) (by norm_num) (by norm_num) (by norm_num) (by norm_num) (by norm_num)
  have e4 : fl (0 - 1 / 134217728) = some (-(1 / 134217728)) :=
    fl_val _ _ (-1) (-27) (by norm_num) (by norm_num) (by norm_num) (by norm_num) (by norm_num)
  have e5 : fl ((-(1 / 134217728)) ^ 2) = some (1 / 18014398509481984) :=
    fl_val _ _ (1) (-54) (by norm_num) (by norm_num) (by norm_num) (by norm_num) (by norm_num)
  have e6 : fl (1 + 1 / 18014398509481984) = some 1 := by
    have h := fl_near (1 + 1 / 18014398509481984) 0 (2 ^ 52) (by norm_num)
      (by rw [abs_of_pos (by norm_num)]; norm_num)
      (by rw [abs_of_pos (by norm_num)]; norm_num)
      (by rw [abs_lt]; constructor <;> norm_num)
      (by rw [abs_of_pos (by norm_num)]; norm_num [DBL_MAX])
    rw [h]
    norm_num
  rw [nn_distance_two, Double.sub_some, e1, Double.pow2_some, e2, Double.add_some, e3,
    Double.sub_some, e4, Double.pow2_some, e5, Double.add_some, e6,
    Double.sqrt_some _ (by norm_num), fsqrt_one]

theorem dist_far_zero : nn_distance (finite [2 ^ 600]) (finite [0]) = .ok none := by
  have e1 : fl (2 ^ 600 - 0) = some (2 ^ 600) :=
    fl_val _ _ 1 600 (by norm_num) (by norm_num) (by norm_num) (by norm_num) (by norm_num)
  have e2 : fl ((2 ^ 600) ^ 2) = none := fl_overflow _ (by norm_num)
  rw [nn_distance_one, Double.sub_some, e1, Double.pow2_some, e2, Double.add_none,
    Double.sqrt_none]

theorem dist_far_half : nn_distance (finite [2 ^ 600]) (finite [2 ^ 599]) = .ok none := by
  have e1 : fl (2 ^ 600 - 2 ^ 599) = some (2 ^ 599) :=
    fl_val _ _ 1 599 (by norm_num) (by norm_num) (by norm_num) (by norm_num) (by norm_num)
  have e2 : fl ((2 ^ 599) ^ 2) = none := fl_overflow _ (by norm_num)
  rw [nn_distance_one, Double.sub_some, e1, Double.pow2_some, e2, Double.add_none,
    Double.sqrt_none]

/-- A square that overflows makes the computed distance of a descriptor of two
bins not finite, in whichever bin it occurs. -/
theorem nn_distance_two_overflow (a b x y : ℚ)
    (h : Double.pow2 (Double.sub (some a) (some x)) = none ∨
      Double.pow2 (Double.sub (some b) (some y)) = none) :
    nn_distance (finite [a, b]) (finite [x, y]) = .ok none := by
  rw [nn_distance_two]
  rcases h with h | h
  · rw [h, Double.add_none, Double.none_add, Double.sqrt_none]
  · rw [h, Double.add_none, Double.sqrt_none]

theorem pow2_far : Double.pow2 (Double.sub (some (2 ^ 600)) (some 0)) = none := by
  have e1 : fl (2 ^ 600 - 0) = some (2 ^ 600) :=
    fl_val _ _ 1 600 (by norm_num) (by norm_num) (by norm_num) (by norm_num) (by norm_num)
  have e2 : fl ((2 ^ 600) ^ 2) = none := fl_overflow _ (by norm_num)
  rw [Double.sub_some, e1, Double.pow2_some, e2]

/-- The search on the index `[2, 0]`, `[1, 0]`, `[0, 1]` with the query
`[0, 0]`: the computed distances are 2, 1 and 1, and index 1 is returned. -/
theorem nn_search_three :
    nn_search (finite [0, 0]) [finite [2, 0], finite [1, 0], finite [0, 1]] = .ok 1 := by
  unfold nn_search
  rw [nn_search_loop_cons_lt _ _ _ _ _ _ 2 dist_two_zero (by norm_num [DBL_MAX]),
    nn_search_loop_cons_lt _ _ _ _ _ _ 1 dist_one_zero (by norm_num),
    nn_search_loop_cons_ge _ _ _ _ _ _ 1 dist_zero_one (by norm_num)]
  rfl

/-- The search with the query `[0, 0]` on `[1, 2^-27]`, `[1, 0]`: both computed
distances are 1, and index 0 is returned. -/
theorem nn_search_rounded :
    nn_search (finite [0, 0]) [finite [1, 1 / 134217728], finite [1, 0]] = .ok 0 := by
  unfold nn_search
  rw [nn_search_loop_cons_lt _ _ _ _ _ _ 1 dist_rounded (by norm_num [DBL_MAX]),
    nn_search_loop_cons_ge _ _ _ _ _ _ 1 dist_one_zero (by norm_num)]
  rfl

/-- The search with the query `[2^600]` on `[0]`, `[2^599]`: both squares
overflow, no computed distance is finite, and index 0 is returned. -/
theorem nn_search_far :
    nn_search (finite [2 ^ 600]) [finite [0], finite [2 ^ 599]] = .ok 0 := by
  unfold nn_search
  rw [nn_search_loop_cons_none _ _ _ _ _ _ dist_far_zero,
    nn_search_loop_cons_none _ _ _ _ _ _ dist_far_half]
  rfl

/-- The search with the query `[2^600, 2^600]` on `[0, 0]`, `[0, 2^600]`,
`[2^600, 0]`: a square overflows for each, and index 0 is returned. -/
theorem nn_search_far_tie :
    nn_search (finite [2 ^ 600, 2 ^ 600])
      [finite [0, 0], finite [0, 2 ^ 600], finite [2 ^ 600, 0]] = .ok 0 := by
  unfold nn_search
  rw [nn_search_loop_cons_none _ _ _ _ _ _
      (nn_distance_two_overflow _ _ _ _ (Or.inl pow2_far)),
    nn_search_loop_cons_none _ _ _ _ _ _
      (nn_distance_two_overflow _ _ _ _ (Or.inl pow2_far)),
    nn_search_loop_cons_none _ _ _ _ _ _
      (nn_distance_two_overflow _ _ _ _ (Or.inr pow2_far))]
  rfl

/-! ## Lemmas on `lbp` -/

theorem checkInt_ok {z : Int} (h1 : INT_MIN ≤ z) (h2 : z ≤ INT_MAX) : checkInt z = .ok z := by
  simp [checkInt, h1, h2]

theorem checkInt_error {z : Int} (h : INT_MAX < z) :
    checkInt z = .error .undefinedBehaviour := by
  simp [checkInt, not_le.2 h]

theorem toInt_intCast (z : Int) : toInt (z : ℚ) = checkInt z := by
  unfold toInt
  split_ifs <;> simp

theorem Mat.at_inBounds {image : Mat} {row col : Int} (h : image.inBounds row col) :
    image.at row col = .ok ((image.pix row.toNat col.toNat).val : Int) := by
  simp [Mat.at, h]

theorem Mat.inBounds_int {image : Mat} {row col : Int} (h : image.inBounds row col) :
    INT_MIN ≤ row ∧ row ≤ INT_MAX ∧ INT_MIN ≤ col ∧ col ≤ INT_MAX := by
  have hr := image.rows_le
  have hc := image.cols_le
  unfold Mat.inBounds at h
  simp only [INT_MIN, INT_MAX]
  omega

/-- One iteration of the loop of `lbp` at an in-bounds sample point. -/
theorem lbp_loop_succ (m : Libm) (image : Mat) (x y p : Int) (r : ℚ) (center : Int)
    (n i : Nat) (value : Int)
    (h : image.inBounds (sampleRow m y p r i) (sampleCol m x p r i)) :
    lbp_loop m image x y p r center (n + 1) i value
      = (checkInt (value + lbp_bit m image x y p r center i * 2 ^ i)).bind
          (fun v => lbp_loop m image x y p r center n (i + 1) v) := by
  have hb := Mat.inBounds_int h
  have hcast : ((value : ℚ) + (if sampleAt m image x y p r i ≥ center then 1 else 0) * (2 : ℚ) ^ i)
      = ((value + lbp_bit m image x y p r center i * 2 ^ i : Int) : ℚ) := by
    unfold lbp_bit
    split_ifs <;> push_cast <;> ring
  unfold sampleRow sampleCol at h hb
  rw [lbp_loop]
  simp only [bind, Except.bind, checkInt_ok hb.1 hb.2.1, checkInt_ok hb.2.2.1 hb.2.2.2,
    Mat.at_inBounds h]
  unfold sampleAt sampleRow sampleCol at hcast
  rw [hcast, toInt_intCast]

theorem lbp_bit_nonneg (m : Libm) (image : Mat) (x y p : Int) (r : ℚ) (center : Int) (i : Nat) :
    0 ≤ lbp_bit m image x y p r center i := by
  unfold lbp_bit; split_ifs <;> decide

theorem lbp_bit_le_one (m : Libm) (image : Mat) (x y p : Int) (r : ℚ) (center : Int) (i : Nat) :
    lbp_bit m image x y p r center i ≤ 1 := by
  unfold lbp_bit; split_ifs <;> decide

/-- The loop of `lbp` over in-bounds sample points adds `bit_k * 2^k` for each
remaining `k`, and is undefined as soon as the sum leaves `int`. -/
theorem lbp_loop_spec (m : Libm) (image : Mat) (x y p : Int) (r : ℚ) (center : Int) :
    ∀ (n i : Nat) (value : Int), INT_MIN ≤ value → value ≤ INT_MAX →
      (∀ k, k < n → image.inBounds (sampleRow m y p r (i + k)) (sampleCol m x p r (i + k))) →
      lbp_loop m image x y p r center n i value =
        if value + ∑ k in Finset.range n, lbp_bit m image x y p r center (i + k) * 2 ^ (i + k)
            ≤ INT_MAX
        then .ok (value + ∑ k in Finset.range n,
          lbp_bit m image x y p r center (i + k) * 2 ^ (i + k))
        else .error .undefinedBehaviour := by
  intro n
  induction n with
  | zero =>
    intro i value _ h2 _
    simp [lbp_loop, h2]
  | succ n ih =>
    intro i value h1 h2 hs
    have h0 := hs 0 (Nat.succ_pos n)
    simp only [Nat.add_zero] at h0
    rw [lbp_loop_succ m image x y p r center n i value h0]
    have hsplit : ∑ k in Finset.range (n + 1), lbp_bit m image x y p r center (i + k) * 2 ^ (i + k)
        = lbp_bit m image x y p r center i * 2 ^ i
          + ∑ k in Finset.range n, lbp_bit m image x y p r center (i + 1 + k) * 2 ^ (i + 1 + k) := by
      rw [Finset.sum_range_succ', add_comm]
      simp only [Nat.add_zero]
      congr 1
      apply Finset.sum_congr rfl
      intro k _
      have : i + (k + 1) = i + 1 + k := by omega
      rw [this]
    have hbit : 0 ≤ lbp_bit m image x y p r center i * 2 ^ i :=
      mul_nonneg (lbp_bit_nonneg _ _ _ _ _ _ _ _) (by positivity)
    have hrest : 0 ≤ ∑ k in Finset.range n,
        lbp_bit m image x y p r center (i + 1 + k) * 2 ^ (i + 1 + k) :=
      Finset.sum_nonneg (fun k _ => mul_nonneg (lbp_bit_nonneg _ _ _ _ _ _ _ _) (by positivity))
    rw [hsplit]
    by_cases hv : value + lbp_bit m image x y p r center i * 2 ^ i ≤ INT_MAX
    · rw [checkInt_ok (by linarith) hv]
      simp only [Except.bind]
      rw [ih (i + 1) _ (by linarith) hv (fun k hk => by
        have := hs (k + 1) (by omega)
        have e : i + (k + 1) = i + 1 + k := by omega
        rwa [e] at this)]
      simp only [add_assoc]
    · rw [checkInt_error (not_le.1 hv)]
      simp only [Except.bind]
      rw [if_neg]
      intro hle
      apply hv
      linarith

/-- A sum of bits `b_k * 2^k` over `k < n` stays below `2^n`. -/
theorem bits_sum_lt (b : Nat → Int) (hb1 : ∀ k, b k ≤ 1) :
    ∀ n : Nat, ∑ k in Finset.range n, b k * 2 ^ k < 2 ^ n := by
  intro n
  induction n with
  | zero => simp
  | succ n ih =>
    rw [Finset.sum_range_succ, pow_succ]
    have h2 : (0 : Int) < 2 ^ n := by positivity
    have := mul_le_mul_of_nonneg_right (hb1 n) (le_of_lt h2)
    linarith

theorem lbp_sum_nonneg (m : Libm) (image : Mat) (x y p : Int) (r : ℚ) (center : Int) :
    0 ≤ lbp_sum m image x y p r center :=
  Finset.sum_nonneg (fun k _ => mul_nonneg (lbp_bit_nonneg _ _ _ _ _ _ _ _) (by positivity))

theorem lbp_sum_lt (m : Libm) (image : Mat) (x y p : Int) (r : ℚ) (center : Int) :
    lbp_sum m image x y p r center < 2 ^ p.toNat :=
  bits_sum_lt (fun k => lbp_bit m image x y p r center k)
    (fun _ => lbp_bit_le_one _ _ _ _ _ _ _ _) _

/-- The value of `lbp` at a pixel whose centre and sample points are in-bounds. -/
theorem lbp_eq (m : Libm) (image : Mat) (x y p : Int) (r : ℚ) (hp : 0 < p) (hr : 0 < r)
    (hc : image.inBounds y x)
    (hs : ∀ i, i < p.toNat → image.inBounds (sampleRow m y p r i) (sampleCol m x p r i)) :
    lbp m image x y p r =
      if lbp_sum m image x y p r ((image.pix y.toNat x.toNat).val : Int) ≤ INT_MAX
      then .ok (lbp_sum m image x y p r ((image.pix y.toNat x.toNat).val : Int))
      else .error .undefinedBehaviour := by
  unfold lbp
  rw [if_pos ⟨hp, hr⟩, Mat.at_inBounds hc]
  simp only [bind, Except.bind]
  rw [lbp_loop_spec m image x y p r _ p.toNat 0 0 (by decide) (by decide)
    (fun k hk => by simpa using hs k hk)]
  simp only [zero_add, lbp_sum]

theorem clamp_abs_le (q : ℚ) : |clamp q| ≤ 1 := by
  unfold clamp
  rw [abs_le]
  exact ⟨le_max_left _ _, max_le (by norm_num) (min_le_left _ _)⟩

theorem taylorLibm_bounded : taylorLibm.bounded :=
  fun _ => ⟨clamp_abs_le _, clamp_abs_le _⟩

/-- Rounding keeps a value between the integers that enclose it. -/
theorem cround_mem (a b : Int) (q : ℚ) (ha : (a : ℚ) ≤ q) (hb : q ≤ (b : ℚ)) :
    a ≤ cround q ∧ cround q ≤ b := by
  unfold cround
  split_ifs with h
  · constructor
    · apply Int.le_floor.2; linarith
    · have : ⌊q + 1 / 2⌋ < b + 1 := by
        apply Int.floor_lt.2; push_cast; linarith
      omega
  · constructor
    · have : a - 1 < ⌈q - 1 / 2⌉ := by
        apply Int.lt_ceil.2; push_cast; linarith
      omega
    · apply Int.ceil_le.2; linarith

/-- With `sin` and `cos` in `[-1, 1]`, the sample points of a pixel that keeps a
margin of `ceil(r)` from every edge are in-bounds. -/
theorem sample_inBounds (m : Libm) (hm : m.bounded) (image : Mat) (x y p : Int) (r : ℚ)
    (hr : 0 < r) (hx1 : ⌈r⌉ ≤ x) (hx2 : x < (image.cols : Int) - ⌈r⌉)
    (hy1 : ⌈r⌉ ≤ y) (hy2 : y < (image.rows : Int) - ⌈r⌉) (i : Nat) :
    image.inBounds (sampleRow m y p r i) (sampleCol m x p r i) := by
  have hceil : r ≤ (⌈r⌉ : ℚ) := Int.le_ceil r
  have hdx : |lbp_dx m p r i| ≤ r := by
    unfold lbp_dx
    rw [abs_mul, abs_of_pos hr]
    calc |m.sin ((i : ℚ) / (p : ℚ) * 2 * M_PI)| * r ≤ 1 * r :=
          mul_le_mul_of_nonneg_right (hm _).1 (le_of_lt hr)
      _ = r := one_mul r
  have hdy : |lbp_dy m p r i| ≤ r := by
    unfold lbp_dy
    rw [abs_mul, abs_of_pos hr]
    calc |m.cos ((i : ℚ) / (p : ℚ) * 2 * M_PI)| * r ≤ 1 * r :=
          mul_le_mul_of_nonneg_right (hm _).2 (le_of_lt hr)
      _ = r := one_mul r
  rw [abs_le] at hdx hdy
  have hrow := cround_mem (y - ⌈r⌉) (y + ⌈r⌉) ((y : ℚ) + lbp_dy m p r i)
    (by push_cast; linarith) (by push_cast; linarith)
  have hcol := cround_mem (x - ⌈r⌉) (x + ⌈r⌉) ((x : ℚ) + lbp_dx m p r i)
    (by push_cast; linarith) (by push_cast; linarith)
  unfold Mat.inBounds sampleRow sampleCol
  omega

/-- The centre of a pixel that keeps a margin of `ceil(r)` from every edge is
in-bounds. -/
theorem center_inBounds (image : Mat) (x y : Int) (r : ℚ)
    (hr : 0 < r) (hx1 : ⌈r⌉ ≤ x) (hx2 : x < (image.cols : Int) - ⌈r⌉)
    (hy1 : ⌈r⌉ ≤ y) (hy2 : y < (image.rows : Int) - ⌈r⌉) :
    image.inBounds y x := by
  have : 0 < ⌈r⌉ := Int.ceil_pos.2 hr
  unfold Mat.inBounds
  omega

/-- When every sample is greater than or equal to the centre, all bits are set
and the sum of the bits is `2^p - 1`. -/
theorem lbp_sum_uniform (m : Libm) (image : Mat) (x y p : Int) (r : ℚ) (center : Int)
    (h : ∀ i, i < p.toNat → sampleAt m image x y p r i ≥ center) :
    lbp_sum m image x y p r center = 2 ^ p.toNat - 1 := by
  unfold lbp_sum
  have hone : ∀ i ∈ Finset.range p.toNat,
      lbp_bit m image x y p r center i * 2 ^ i = 2 ^ i := by
    intro i hi
    unfold lbp_bit
    rw [if_pos (h i (Finset.mem_range.1 hi)), one_mul]
  rw [Finset.sum_congr rfl hone]
  generalize p.toNat = n
  induction n with
  | zero => simp
  | succ n ih => rw [Finset.sum_range_succ, ih, pow_succ]; ring

/-- The sum of bits of the source is the code of the specification. -/
theorem lbp_sum_eq_spec (m : Libm) (image : Mat) (x y p : Int) (r : ℚ) :
    lbp_sum m image x y p r ((image.pix y.toNat x.toNat).val : Int) = spec_lbp m image x y p r := by
  unfold lbp_sum spec_lbp
  apply Finset.sum_congr rfl
  intro i _
  have e : (i : ℚ) / (p : ℚ) * 2 * M_PI = 2 * M_PI * (i : ℚ) / (p : ℚ) := by ring
  unfold lbp_bit sampleAt sampleRow sampleCol lbp_dx lbp_dy
  rw [e, mul_comm (m.cos _) r, mul_comm (m.sin _) r]
  congr 1
  simp only [ge_iff_le, Int.ofNat_le, Fin.val_fin_le]

theorem Except.ok_bind {ε α β : Type} (a : α) (f : α → Except ε β) :
    (Except.ok a : Except ε α).bind f = f a := rfl

theorem Except.bind_eq_ok {ε α β : Type} (x : Except ε α) (f : α → Except ε β) (b : β) :
    x.bind f = .ok b ↔ ∃ a, x = .ok a ∧ f a = .ok b := by
  cases x with
  | error e => simp [Except.bind]
  | ok a => simp [Except.bind]

theorem checkInt_eq_ok {z v : Int} (h : checkInt z = .ok v) :
    v = z ∧ INT_MIN ≤ z ∧ z ≤ INT_MAX := by
  unfold checkInt at h
  split_ifs at h with hz
  · injection h with h
    exact ⟨h.symm, hz.1, hz.2⟩

theorem isDouble_two_pow (i : Nat) (hi : i ≤ 971) : isDouble ((2 : ℚ) ^ i) :=
  ⟨1, i, by decide, by omega, by omega, by simp⟩

/-- One iteration of the loop of `lbp_fp` at an in-bounds sample point: up to
`i = 51` the update of `value` is exact. -/
theorem lbp_loop_fp_succ (m : Libm) (image : Mat) (x y p : Int) (r : ℚ) (center : Int)
    (n i : Nat) (value : Int) (row col : Int)
    (hrow : sampleRow_fp m y p r i = some row) (hcol : sampleCol_fp m x p r i = some col)
    (h : image.inBounds row col) (hi : i ≤ 51) (h1 : INT_MIN ≤ value) (h2 : value ≤ INT_MAX) :
    lbp_loop_fp m image x y p r center (n + 1) i value
      = (checkInt (value + lbp_bit_fp m image x y p r center i * 2 ^ i)).bind
          (fun v => lbp_loop_fp m image x y p r center n (i + 1) v) := by
  have hb := Mat.inBounds_int h
  have hpow : fl ((2 : ℚ) ^ i) = some ((2 : ℚ) ^ i) := fl_exact _ (isDouble_two_pow i (by omega))
  have hle : (2 : Int) ^ i ≤ 2 ^ 51 := pow_le_pow_right₀ (by norm_num) hi
  have hbit : lbp_bit_fp m image x y p r center i
      = if ((image.pix row.toNat col.toNat).val : Int) ≥ center then 1 else 0 := by
    unfold lbp_bit_fp sampleAt_fp
    rw [hrow, hcol]
  have hb0 := (show (0 : Int) ≤ if ((image.pix row.toNat col.toNat).val : Int) ≥ center
      then 1 else 0 by split_ifs <;> decide)
  have hb1 := (show (if ((image.pix row.toNat col.toNat).val : Int) ≥ center
      then (1 : Int) else 0) ≤ 1 by split_ifs <;> decide)
  have hprod : fl ((if ((image.pix row.toNat col.toNat).val : Int) ≥ center then 1 else 0)
        * (2 : ℚ) ^ i)
      = some (((lbp_bit_fp m image x y p r center i * 2 ^ i : Int) : ℚ)) := by
    rw [hbit]
    split_ifs
    · rw [one_mul, hpow]; push_cast; ring_nf
    · rw [zero_mul]; simpa using fl_int 0 (by decide)
  have hsum : fl ((value : ℚ) + ((lbp_bit_fp m image x y p r center i * 2 ^ i : Int) : ℚ))
      = some (((value + lbp_bit_fp m image x y p r center i * 2 ^ i : Int) : ℚ)) := by
    have hnn : 0 ≤ lbp_bit_fp m image x y p r center i * 2 ^ i := by
      rw [hbit]; exact mul_nonneg hb0 (by positivity)
    have hup : lbp_bit_fp m image x y p r center i * 2 ^ i ≤ 2 ^ 51 := by
      rw [hbit]
      calc (if ((image.pix row.toNat col.toNat).val : Int) ≥ center then 1 else 0) * 2 ^ i
          ≤ 1 * 2 ^ i := mul_le_mul_of_nonneg_right hb1 (by positivity)
        _ ≤ 2 ^ 51 := by rw [one_mul]; exact hle
    have := fl_int (value + lbp_bit_fp m image x y p r center i * 2 ^ i) (by
      simp only [INT_MIN, INT_MAX] at h1 h2
      rw [abs_lt]
      constructor <;> omega)
    rw [← this]
    push_cast
    rfl
  rw [lbp_loop_fp]
  simp only [bind, Except.bind, hrow, hcol, coordinate, checkInt_ok hb.1 hb.2.1,
    checkInt_ok hb.2.2.1 hb.2.2.2, Mat.at_inBounds h]
  rw [hpow, Double.mul_some, hprod, Double.add_some, hsum, toInt_fp_some, toInt_intCast]

theorem lbp_bit_fp_nonneg (m : Libm) (image : Mat) (x y p : Int) (r : ℚ) (center : Int)
    (i : Nat) : 0 ≤ lbp_bit_fp m image x y p r center i := by
  unfold lbp_bit_fp; split_ifs <;> decide

theorem lbp_bit_fp_le_one (m : Libm) (image : Mat) (x y p : Int) (r : ℚ) (center : Int)
    (i : Nat) : lbp_bit_fp m image x y p r center i ≤ 1 := by
  unfold lbp_bit_fp; split_ifs <;> decide

/-- The loop of `lbp_fp` over in-bounds sample points, up to bit 51, adds
`bit_k * 2^k` for each remaining `k`, and is undefined as soon as the sum leaves
`int`. -/
theorem lbp_loop_fp_spec (m : Libm) (image : Mat) (x y p : Int) (r : ℚ) (center : Int) :
    ∀ (n i : Nat) (value : Int), INT_MIN ≤ value → value ≤ INT_MAX → i + n ≤ 52 →
      (∀ k, k < n → ∃ row col, sampleRow_fp m y p r (i + k) = some row ∧
        sampleCol_fp m x p r (i + k) = some col ∧ image.inBounds row col) →
      lbp_loop_fp m image x y p r center n i value =
        if value + ∑ k in Finset.range n,
            lbp_bit_fp m image x y p r center (i + k) * 2 ^ (i + k) ≤ INT_MAX
        then .ok (value + ∑ k in Finset.range n,
          lbp_bit_fp m image x y p r center (i + k) * 2 ^ (i + k))
        else .error .undefinedBehaviour := by
  intro n
  induction n with
  | zero =>
    intro i value _ h2 _ _
    simp [lbp_loop_fp, h2]
  | succ n ih =>
    intro i value h1 h2 hin hs
    obtain ⟨row, col, hrow, hcol, h0⟩ := hs 0 (Nat.succ_pos n)
    simp only [Nat.add_zero] at hrow hcol
    rw [lbp_loop_fp_succ m image x y p r center n i value row col hrow hcol h0 (by omega) h1 h2]
    have hsplit : ∑ k in Finset.range (n + 1),
          lbp_bit_fp m image x y p r center (i + k) * 2 ^ (i + k)
        = lbp_bit_fp m image x y p r center i * 2 ^ i
          + ∑ k in Finset.range n,
              lbp_bit_fp m image x y p r center (i + 1 + k) * 2 ^ (i + 1 + k) := by
      rw [Finset.sum_range_succ', add_comm]
      simp only [Nat.add_zero]
      congr 1
      apply Finset.sum_congr rfl
      intro k _
      have : i + (k + 1) = i + 1 + k := by omega
      rw [this]
    have hbit : 0 ≤ lbp_bit_fp m image x y p r center i * 2 ^ i :=
      mul_nonneg (lbp_bit_fp_nonneg _ _ _ _ _ _ _ _) (by positivity)
    have hrest : 0 ≤ ∑ k in Finset.range n,
        lbp_bit_fp m image x y p r center (i + 1 + k) * 2 ^ (i + 1 + k) :=
      Finset.sum_nonneg
        (fun k _ => mul_nonneg (lbp_bit_fp_nonneg _ _ _ _ _ _ _ _) (by positivity))
    rw [hsplit]
    by_cases hv : value + lbp_bit_fp m image x y p r center i * 2 ^ i ≤ INT_MAX
    · rw [checkInt_ok (by linarith) hv]
      simp only [Except.bind]
      rw [ih (i + 1) _ (by linarith) hv (by omega) (fun k hk => by
        have := hs (k + 1) (by omega)
        have e : i + (k + 1) = i + 1 + k := by omega
        rwa [e] at this)]
      simp only [add_assoc]
    · rw [checkInt_error (not_le.1 hv)]
      simp only [Except.bind]
      rw [if_neg]
      intro hle
      apply hv
      linarith

theorem lbp_sum_fp_lt (m : Libm) (image : Mat) (x y p : Int) (r : ℚ) (center : Int) :
    lbp_sum_fp m image x y p r center < 2 ^ p.toNat :=
  bits_sum_lt (fun k => lbp_bit_fp m image x y p r center k)
    (fun _ => lbp_bit_fp_le_one _ _ _ _ _ _ _ _) _

/-- The value of `lbp_fp` at a pixel whose centre and sample points are
in-bounds, for `p ≤ 52`. -/
theorem lbp_fp_eq (m : Libm) (image : Mat) (x y p : Int) (r : ℚ) (hp : 0 < p) (hp52 : p ≤ 52)
    (hr : 0 < r) (hc : image.inBounds y x)
    (hs : ∀ i, i < p.toNat → ∃ row col, sampleRow_fp m y p r i = some row ∧
      sampleCol_fp m x p r i = some col ∧ image.inBounds row col) :
    lbp_fp m image x y p r =
      if lbp_sum_fp m image x y p r ((image.pix y.toNat x.toNat).val : Int) ≤ INT_MAX
      then .ok (lbp_sum_fp m image x y p r ((image.pix y.toNat x.toNat).val : Int))
      else .error .undefinedBehaviour := by
  unfold lbp_fp
  rw [if_pos ⟨hp, hr⟩, Mat.at_inBounds hc]
  simp only [bind, Except.bind]
  rw [lbp_loop_fp_spec m image x y p r _ p.toNat 0 0 (by decide) (by decide) (by omega)
    (fun k hk => by simpa using hs k hk)]
  simp only [zero_add, lbp_sum_fp]

/-! ### Sample points computed with rounding -/

/-- A value rounded between two integers of magnitude below `2^53`. -/
theorem fl_mem_int (a b : Int) (q : ℚ) (ha : |a| < 2 ^ 53) (hb : |b| < 2 ^ 53)
    (h1 : (a : ℚ) ≤ q) (h2 : q ≤ (b : ℚ)) : ∃ v, fl q = some v ∧ (a : ℚ) ≤ v ∧ v ≤ (b : ℚ) :=
  fl_mem a b q (isDouble_int a ha) (isDouble_int b hb) h1 h2

/-- The argument of `sin` and `cos` is a finite number for `0 ≤ i < p`. -/
theorem lbp_angle_fp_some (p : Int) (i : Nat) (hi : (i : Int) < p) :
    ∃ t, lbp_angle_fp p i = some t := by
  have hp : (0 : ℚ) < (p : ℚ) := by
    have : (0 : Int) < p := by omega
    exact_mod_cast this
  have hq1 : (0 : ℚ) ≤ (i : ℚ) / (p : ℚ) := div_nonneg (Nat.cast_nonneg i) (le_of_lt hp)
  have hq2 : (i : ℚ) / (p : ℚ) ≤ 1 := by
    rw [div_le_one hp]
    have : (i : Int) ≤ p := by omega
    exact_mod_cast this
  obtain ⟨q, hq, hqa, hqb⟩ := fl_mem_int 0 1 ((i : ℚ) / (p : ℚ)) (by decide) (by decide)
    (by simpa using hq1) (by simpa using hq2)
  obtain ⟨d, hd, hda, hdb⟩ := fl_mem_int 0 2 (q * 2) (by decide) (by decide)
    (by push_cast at hqa ⊢; linarith) (by push_cast at hqb ⊢; linarith)
  have hpi0 : (0 : ℚ) < M_PI := by norm_num [M_PI]
  have hpi4 : M_PI ≤ 4 := by norm_num [M_PI]
  obtain ⟨t, ht, _, _⟩ := fl_mem_int 0 8 (d * M_PI) (by decide) (by decide)
    (by push_cast at hda ⊢; exact mul_nonneg hda (le_of_lt hpi0))
    (by push_cast at hda hdb ⊢; nlinarith)
  refine ⟨t, ?_⟩
  unfold lbp_angle_fp
  rw [Double.quot_some _ _ (ne_of_gt hp), hq, Double.mul_some, hd, Double.mul_some, ht]

/-- A product `s * r` with `|s| ≤ 1`, rounded, stays within `ceil(r)`. -/
theorem offset_fp_bound (s r : ℚ) (hs : |s| ≤ 1) (hr : 0 < r) (hc : ⌈r⌉ ≤ INT_MAX) :
    ∃ d, fl (s * r) = some d ∧ -(⌈r⌉ : ℚ) ≤ d ∧ d ≤ (⌈r⌉ : ℚ) := by
  have hceil : r ≤ (⌈r⌉ : ℚ) := Int.le_ceil r
  have hpos : 0 < ⌈r⌉ := Int.ceil_pos.2 hr
  rw [abs_le] at hs
  have h1 : -(⌈r⌉ : ℚ) ≤ s * r := by nlinarith [hs.1, hs.2]
  have h2 : s * r ≤ (⌈r⌉ : ℚ) := by nlinarith [hs.1, hs.2]
  have hb : |⌈r⌉| < 2 ^ 53 := by
    simp only [INT_MAX] at hc
    rw [abs_lt]; constructor <;> omega
  obtain ⟨d, hd, hda, hdb⟩ := fl_mem_int (-⌈r⌉) ⌈r⌉ (s * r) (by rwa [abs_neg]) hb
    (by push_cast; exact h1) h2
  exact ⟨d, hd, by push_cast at hda; exact hda, hdb⟩

/-- A coordinate `round(c + d)` with the sum rounded stays within `k` of `c`. -/
theorem coordinate_fp_bound (c : Int) (d : ℚ) (k : Int) (hk : 0 ≤ k) (hkmax : k ≤ INT_MAX)
    (hc1 : k ≤ c) (hc2 : c ≤ INT_MAX) (hd1 : -(k : ℚ) ≤ d) (hd2 : d ≤ (k : ℚ)) :
    ∃ z, (Double.add (some (c : ℚ)) (some d)).map cround = some z ∧ c - k ≤ z ∧ z ≤ c + k := by
  simp only [INT_MAX] at hkmax hc2
  obtain ⟨v, hv, hva, hvb⟩ := fl_mem_int (c - k) (c + k) ((c : ℚ) + d)
    (by rw [abs_lt]; constructor <;> omega) (by rw [abs_lt]; constructor <;> omega)
    (by push_cast; linarith) (by push_cast; linarith)
  have := cround_mem (c - k) (c + k) v hva hvb
  exact ⟨cround v, by rw [Double.add_some, hv]; rfl, this.1, this.2⟩

/-- With `sin` and `cos` in `[-1, 1]`, the sample points computed with rounding
of a pixel that keeps a margin of `ceil(r)` from every edge are in-bounds. -/
theorem sample_fp_inBounds (m : Libm) (hm : m.bounded) (image : Mat) (x y p : Int) (r : ℚ)
    (hr : 0 < r) (hx1 : ⌈r⌉ ≤ x) (hx2 : x < (image.cols : Int) - ⌈r⌉)
    (hy1 : ⌈r⌉ ≤ y) (hy2 : y < (image.rows : Int) - ⌈r⌉) (i : Nat) (hi : (i : Int) < p) :
    ∃ row col, sampleRow_fp m y p r i = some row ∧ sampleCol_fp m x p r i = some col ∧
      image.inBounds row col := by
  have hcols := image.cols_le
  have hrows := image.rows_le
  have hpos : 0 < ⌈r⌉ := Int.ceil_pos.2 hr
  have hcmax : ⌈r⌉ ≤ INT_MAX := by simp only [INT_MAX]; omega
  obtain ⟨t, ht⟩ := lbp_angle_fp_some p i hi
  obtain ⟨dx, hdx, hdx1, hdx2⟩ := offset_fp_bound (m.sin t) r (hm t).1 hr hcmax
  obtain ⟨dy, hdy, hdy1, hdy2⟩ := offset_fp_bound (m.cos t) r (hm t).2 hr hcmax
  have ex : lbp_dx_fp m p r i = some dx := by
    unfold lbp_dx_fp; rw [ht, Option.map_some', Double.mul_some, hdx]
  have ey : lbp_dy_fp m p r i = some dy := by
    unfold lbp_dy_fp; rw [ht, Option.map_some', Double.mul_some, hdy]
  obtain ⟨row, hrow, hr1, hr2⟩ := coordinate_fp_bound y dy ⌈r⌉ (le_of_lt hpos) hcmax hy1
    (by simp only [INT_MAX]; omega) hdy1 hdy2
  obtain ⟨col, hcol, hc1, hc2⟩ := coordinate_fp_bound x dx ⌈r⌉ (le_of_lt hpos) hcmax hx1
    (by simp only [INT_MAX]; omega) hdx1 hdx2
  refine ⟨row, col, by unfold sampleRow_fp; rw [ey]; exact hrow,
    by unfold sampleCol_fp; rw [ex]; exact hcol, ?_⟩
  unfold Mat.inBounds
  omega

/-- When every sample is greater than or equal to the centre, all bits are set
and the sum of the bits is `2^p - 1`. -/
theorem lbp_sum_fp_uniform (m : Libm) (image : Mat) (x y p : Int) (r : ℚ) (center : Int)
    (h : ∀ i, i < p.toNat → sampleAt_fp m image x y p r i ≥ center) :
    lbp_sum_fp m image x y p r center = 2 ^ p.toNat - 1 := by
  unfold lbp_sum_fp
  have hone : ∀ i ∈ Finset.range p.toNat,
      lbp_bit_fp m image x y p r center i * 2 ^ i = 2 ^ i := by
    intro i hi
    unfold lbp_bit_fp
    rw [if_pos (h i (Finset.mem_range.1 hi)), one_mul]
  rw [Finset.sum_congr rfl hone]
  generalize p.toNat = n
  induction n with
  | zero => simp
  | succ n ih => rw [Finset.sum_range_succ, ih, pow_succ]; ring

/-! ### The constant 3 x 3 image -/

theorem flat3_samples_fp (p : Int) (i : Nat) (hi : (i : Int) < p) :
    ∃ row col, sampleRow_fp taylorLibm 1 p 1 i = some row ∧
      sampleCol_fp taylorLibm 1 p 1 i = some col ∧ flat3.inBounds row col :=
  sample_fp_inBounds taylorLibm taylorLibm_bounded flat3 1 1 p 1 (by norm_num)
    (by rw [Int.ceil_one]) (by rw [Int.ceil_one]; decide)
    (by rw [Int.ceil_one]) (by rw [Int.ceil_one]; decide) i hi

theorem flat3_sum_fp (p : Int) :
    lbp_sum_fp taylorLibm flat3 1 1 p 1 ((flat3.pix (1 : Int).toNat (1 : Int).toNat).val : Int)
      = 2 ^ p.toNat - 1 := by
  apply lbp_sum_fp_uniform
  intro i hi
  obtain ⟨row, col, hrow, hcol, _⟩ := flat3_samples_fp p i (by omega)
  unfold sampleAt_fp
  rw [hrow, hcol]
  exact le_refl _

/-- On the constant image `lbp_fp` overflows its `int` accumulator for `p` from
32 to 52. -/
theorem lbp_fp_flat3_overflow (p : Int) (hp : 32 ≤ p) (hp52 : p ≤ 52) :
    lbp_fp taylorLibm flat3 1 1 p 1 = .error .undefinedBehaviour := by
  have hpow : (2 : Int) ^ 32 ≤ 2 ^ p.toNat := pow_le_pow_right₀ (by norm_num) (by omega)
  rw [lbp_fp_eq taylorLibm flat3 1 1 p 1 (by omega) hp52 (by norm_num) (by decide)
    (fun i hi => flat3_samples_fp p i (by omega)), flat3_sum_fp, if_neg]
  simp only [INT_MAX]
  omega

/-- The rounding of the sum `y + dy`: with `dy = -(1/2 + 2^-51)` and `y = 7` the
exact sum lies half a spacing below `6.5`, the `double` sum is `6.5` and `round`
gives row 7, where the exact sum would give row 6. -/
theorem sampleRow_fp_half :
    sampleRow_fp halfLibm 7 6 1 4 = some 7 ∧ sampleRow halfLibm 7 6 1 4 = 6 := by
  constructor
  · obtain ⟨t, ht⟩ := lbp_angle_fp_some 6 4 (by decide)
    have e1 : fl (-(1 / 2 + 1 / 2251799813685248) * 1) = some (-(1 / 2 + 1 / 2251799813685248)) :=
      fl_val _ _ (-1125899906842625) (-51) (by norm_num) (by norm_num) (by norm_num)
        (by norm_num) (by norm_num)
    have e2 : fl (((7 : Int) : ℚ) + -(1 / 2 + 1 / 2251799813685248)) = some (13 / 2) := by
      have h := fl_tie_odd (((7 : Int) : ℚ) + -(1 / 2 + 1 / 2251799813685248)) 2
        7318349394477055 (by norm_num)
        (by rw [abs_of_pos (by norm_num)]; norm_num)
        (by rw [abs_of_pos (by norm_num)]; norm_num)
        (by norm_num) (by norm_num)
        (by rw [abs_of_pos (by norm_num)]; norm_num [DBL_MAX])
      rw [h]
      norm_num
    unfold sampleRow_fp lbp_dy_fp
    rw [ht]
    simp only [Option.map_some', halfLibm, Double.mul_some, e1, Double.add_some, e2]
    norm_num [cround]
  · unfold sampleRow lbp_dy
    simp only [halfLibm]
    norm_num [cround]

/-! ## Lemmas on `compute_lbp_histogram` -/

theorem stridePoints_mem (bound : Int) :
    ∀ (fuel : Nat) (v u : Int), u ∈ stridePoints bound fuel v →
      v ≤ u ∧ u < bound ∧ (u - v) % 3 = 0 := by
  intro fuel
  induction fuel with
  | zero => intro v u h; simp [stridePoints] at h
  | succ fuel ih =>
    intro v u h
    rw [stridePoints] at h
    split_ifs at h with hv
    · rcases List.mem_cons.1 h with rfl | h
      · exact ⟨le_refl _, hv, by simp⟩
      · have := ih (v + STRIDE) u h
        simp only [STRIDE] at this
        omega
    · simp at h

/-- A stride loop whose counter cannot overflow is a fold of its body over the
points of the stride. -/
theorem for_stride_eq {σ : Type} (bound : Int) (body : Int → σ → Except Fault σ)
    (g : σ → Int → Except Fault σ) (hg : ∀ u s, body u s = g s u) :
    ∀ (fuel : Nat) (v : Int) (s : σ), (bound - v).toNat ≤ fuel →
      (∀ u ∈ stridePoints bound fuel v, INT_MIN ≤ u + STRIDE ∧ u + STRIDE ≤ INT_MAX) →
      for_stride bound body fuel v s = (stridePoints bound fuel v).foldlM g s := by
  intro fuel
  induction fuel with
  | zero =>
    intro v s hf _
    have : ¬ v < bound := by omega
    simp [for_stride, stridePoints, this, pure, Except.pure]
  | succ fuel ih =>
    intro v s hf hov
    rw [for_stride, stridePoints]
    by_cases hv : v < bound
    · rw [if_pos hv, if_pos hv, List.foldlM_cons, hg]
      have hmem : v ∈ stridePoints bound (fuel + 1) v := by
        rw [stridePoints, if_pos hv]; exact List.mem_cons_self _ _
      have hadd := hov v hmem
      simp only [addInt, checkInt_ok hadd.1 hadd.2, bind, Except.bind]
      cases hgv : g s v with
      | error e => rfl
      | ok s2 =>
        simp only
        apply ih
        · simp only [STRIDE]; omega
        · intro u hu
          apply hov
          rw [stridePoints, if_pos hv]
          exact List.mem_cons_of_mem _ hu
    · rw [if_neg hv, if_neg hv]
      rfl

/-- A fold over the columns of a fold over the rows is a fold over the pairs. -/
theorem foldlM_pairs {σ : Type} (g : σ → Int × Int → Except Fault σ) (ys : List Int) :
    ∀ (xs : List Int) (s : σ),
      xs.foldlM (fun s x => ys.foldlM (fun s y => g s (x, y)) s) s
        = (xs.flatMap (fun x => ys.map (fun y => (x, y)))).foldlM g s := by
  intro xs
  induction xs with
  | nil => intro s; rfl
  | cons x xs ih =>
    intro s
    rw [List.foldlM_cons, List.flatMap_cons, List.foldlM_append, List.foldlM_map]
    congr 1
    funext s2
    exact ih s2

theorem foldlM_collect {α : Type} :
    ∀ (l acc : List α),
      l.foldlM (fun acc q => (pure (acc ++ [q]) : Except Fault (List α))) acc = .ok (acc ++ l) := by
  intro l
  induction l with
  | nil => intro acc; simp [pure, Except.pure]
  | cons a l ih =>
    intro acc
    rw [List.foldlM_cons]
    simp only [pure, Except.pure, bind, Except.bind] at ih ⊢
    rw [ih]
    simp

theorem toInt_ceil (r : ℚ) (hr : 0 < r) (hc : ⌈r⌉ ≤ INT_MAX) : toInt ⌈r⌉ = .ok ⌈r⌉ := by
  have : 0 < ⌈r⌉ := Int.ceil_pos.2 hr
  rw [toInt_intCast, checkInt_ok _ hc]
  simp only [INT_MIN]; omega

theorem toInt_ceil_error (r : ℚ) (hc : INT_MAX < ⌈r⌉) :
    toInt ⌈r⌉ = .error .undefinedBehaviour := by
  rw [toInt_intCast, checkInt_error hc]

/-- The counter of a scan loop that starts at `ceil(r) ≥ 1` never overflows. -/
theorem stride_no_overflow (n : Nat) (hn : n ≤ 2147483647) (c : Int) (hc : 0 < c) (fuel : Nat) :
    ∀ u ∈ stridePoints ((n : Int) - c) fuel c, INT_MIN ≤ u + STRIDE ∧ u + STRIDE ≤ INT_MAX := by
  intro u hu
  have := stridePoints_mem _ _ _ _ hu
  simp only [INT_MIN, INT_MAX, STRIDE]
  omega

/-- The two nested loops are a fold over the pixels of the scan region. -/
theorem nested_stride_eq {σ : Type} (image : Mat) (r : ℚ) (hr : 0 < r) (hc : ⌈r⌉ ≤ INT_MAX)
    (g : σ → Int × Int → Except Fault σ) (s : σ) :
    (do
      let x0 ← toInt ⌈r⌉
      for_stride ((image.cols : Int) - ⌈r⌉)
        (fun x s => do
          let y0 ← toInt ⌈r⌉
          for_stride ((image.rows : Int) - ⌈r⌉) (fun y s => g s (x, y))
            (((image.rows : Int) - ⌈r⌉ - y0).toNat) y0 s)
        (((image.cols : Int) - ⌈r⌉ - x0).toNat) x0 s)
      = (pixels image r).foldlM g s := by
  have hpos : 0 < ⌈r⌉ := Int.ceil_pos.2 hr
  simp only [toInt_ceil r hr hc, bind, Except.bind]
  rw [for_stride_eq _ _
    (fun s x => (stridePoints ((image.rows : Int) - ⌈r⌉)
      (((image.rows : Int) - ⌈r⌉ - ⌈r⌉).toNat) ⌈r⌉).foldlM (fun s y => g s (x, y)) s)
    (fun u s => for_stride_eq _ _ (fun s y => g s (u, y)) (fun _ _ => rfl) _ _ _ (le_refl _)
      (stride_no_overflow image.rows image.rows_le ⌈r⌉ hpos _))
    _ _ _ (le_refl _) (stride_no_overflow image.cols image.cols_le ⌈r⌉ hpos _)]
  rw [foldlM_pairs]
  rfl

theorem lbp_counts_eq (m : Libm) (image : Mat) (p : Int) (r : ℚ) (hr : 0 < r)
    (hc : ⌈r⌉ ≤ INT_MAX) (histogram : List ℚ) :
    lbp_counts m image p r histogram
      = (pixels image r).foldlM
          (fun h q => (lbp m image q.1 q.2 p r).bind (fun index => bump h index)) histogram :=
  nested_stride_eq image r hr hc
    (fun h q => (lbp m image q.1 q.2 p r).bind (fun index => bump h index)) histogram

/-- The pixels visited are those of the scan region, in closed form. -/
theorem visited_eq (image : Mat) (r : ℚ) (hr : 0 < r) (hc : ⌈r⌉ ≤ INT_MAX) :
    visited image r = .ok (pixels image r) := by
  have h := nested_stride_eq image r hr hc
    (fun acc q => (pure (acc ++ [q]) : Except Fault (List (Int × Int)))) []
  rw [foldlM_collect] at h
  simpa [visited] using h

theorem visited_error (image : Mat) (r : ℚ) (hc : INT_MAX < ⌈r⌉) :
    visited image r = .error .undefinedBehaviour := by
  simp [visited, toInt_ceil_error r hc, bind, Except.bind]

/-- When `visited` returns, it returns the scan region and `ceil(r)` fits `int`. -/
theorem visited_ok (image : Mat) (r : ℚ) (hr : 0 < r) (pxs : List (Int × Int))
    (h : visited image r = .ok pxs) : ⌈r⌉ ≤ INT_MAX ∧ pxs = pixels image r := by
  by_cases hc : ⌈r⌉ ≤ INT_MAX
  · rw [visited_eq image r hr hc] at h
    injection h with h
    exact ⟨hc, h.symm⟩
  · rw [visited_error image r (not_le.1 hc)] at h
    exact absurd h (by simp)

theorem pixels_mem (image : Mat) (r : ℚ) (q : Int × Int) (h : q ∈ pixels image r) :
    ⌈r⌉ ≤ q.1 ∧ q.1 < (image.cols : Int) - ⌈r⌉ ∧ ⌈r⌉ ≤ q.2 ∧ q.2 < (image.rows : Int) - ⌈r⌉ := by
  unfold pixels at h
  rw [List.mem_flatMap] at h
  obtain ⟨x, hx, hq⟩ := h
  rw [List.mem_map] at hq
  obtain ⟨y, hy, rfl⟩ := hq
  have h1 := stridePoints_mem _ _ _ _ hx
  have h2 := stridePoints_mem _ _ _ _ hy
  exact ⟨h1.1, h1.2.1, h2.1, h2.2.1⟩

theorem norm_eq_sum (l : List ℚ) : norm l = l.sum := by
  unfold norm
  rw [List.sum_eq_foldl]

theorem sum_map_range (f : Nat → ℚ) (n : Nat) :
    ((List.range n).map f).sum = ∑ k in Finset.range n, f k := by
  induction n with
  | zero => simp
  | succ n ih =>
    rw [List.range_succ, List.map_append, List.sum_append, ih, Finset.sum_range_succ]
    simp

/-- The statement `histogram[index] += 1` on a histogram given bin by bin. -/
theorem bump_range (n : Nat) (f : Nat → ℚ) (c : Int) (h0 : 0 ≤ c) (h1 : c < n) :
    bump ((List.range n).map f) c
      = .ok ((List.range n).map (fun k => f k + if (k : Int) = c then 1 else 0)) := by
  have hlt : c.toNat < n := by omega
  unfold bump
  rw [if_pos ⟨h0, by simpa using h1⟩]
  congr 1
  apply List.ext_getElem
  · simp
  · intro j hj1 hj2
    simp only [List.length_map, List.length_range] at hj2
    rw [List.getElem_set]
    simp only [List.getElem_map, List.getElem_range]
    by_cases hcj : c.toNat = j
    · have e : (j : Int) = c := by omega
      rw [if_pos hcj, if_pos e]
      subst hcj
      simp [List.getD_eq_getElem?_getD, List.getElem?_eq_getElem, hlt]
    · have e : ¬ (j : Int) = c := by omega
      rw [if_neg hcj, if_neg e, add_zero]

/-- Counting: folding `histogram[code] += 1` over a list of items whose codes
are in range adds to every bin the number of items with that code. -/
theorem foldlM_bump {α : Type} (cell : α → Except Fault Int) (c : α → Int) (n : Nat) :
    ∀ (l : List α) (f : Nat → ℚ),
      (∀ q ∈ l, cell q = .ok (c q) ∧ 0 ≤ c q ∧ c q < n) →
      l.foldlM (fun h q => (cell q).bind (fun index => bump h index)) ((List.range n).map f)
        = .ok ((List.range n).map
            (fun k => f k + ((l.countP (fun q => decide (c q = (k : Int))) : Nat) : ℚ))) := by
  intro l
  induction l with
  | nil => intro f _; simp [pure, Except.pure]
  | cons a l ih =>
    intro f h
    have ha := h a (List.mem_cons_self _ _)
    rw [List.foldlM_cons, ha.1]
    simp only [bind, Except.ok_bind]
    rw [bump_range n f (c a) ha.2.1 ha.2.2]
    simp only [Except.ok_bind]
    rw [ih _ (fun q hq => h q (List.mem_cons_of_mem _ hq))]
    congr 1
    apply List.map_congr_left
    intro k _
    rw [List.countP_cons]
    by_cases hk : c a = (k : Int)
    · rw [if_pos hk.symm, if_pos (decide_eq_true hk)]
      push_cast; ring
    · rw [if_neg (fun e => hk e.symm), if_neg (by simpa using hk)]
      push_cast; ring

/-- Every item has exactly one code in range: the counts add up to the number
of items. -/
theorem sum_countP {α : Type} (c : α → Int) (n : Nat) :
    ∀ (l : List α), (∀ q ∈ l, 0 ≤ c q ∧ c q < n) →
      ∑ k in Finset.range n, ((l.countP (fun q => decide (c q = (k : Int))) : Nat) : ℚ)
        = (l.length : ℚ) := by
  intro l
  induction l with
  | nil => intro _; simp
  | cons a l ih =>
    intro h
    have ha := h a (List.mem_cons_self _ _)
    have hone : ∑ k in Finset.range n, (if c a = (k : Int) then (1 : ℚ) else 0) = 1 := by
      rw [Finset.sum_eq_single (c a).toNat]
      · rw [if_pos]; omega
      · intro b _ hb
        rw [if_neg]; omega
      · intro hn
        exfalso; apply hn; rw [Finset.mem_range]; omega
    have hsplit : ∀ k ∈ Finset.range n,
        (((a :: l).countP (fun q => decide (c q = (k : Int))) : Nat) : ℚ)
          = ((l.countP (fun q => decide (c q = (k : Int))) : Nat) : ℚ)
            + (if c a = (k : Int) then (1 : ℚ) else 0) := by
      intro k _
      rw [List.countP_cons]
      by_cases hk : c a = (k : Int) <;> simp [hk]
    rw [Finset.sum_congr rfl hsplit, Finset.sum_add_distrib,
      ih (fun q hq => h q (List.mem_cons_of_mem _ hq)), hone]
    simp

theorem two_zpow_cast (p : Int) (hp : 0 ≤ p) : ((2 : ℚ) ^ p) = (((2 : Int) ^ p.toNat : Int) : ℚ) := by
  have e : p = (p.toNat : Int) := (Int.toNat_of_nonneg hp).symm
  conv_lhs => rw [e]
  rw [zpow_natCast]
  push_cast
  rfl

/-- The size `(int) pow(2, p)` of the histogram for `0 ≤ p ≤ 30`. -/
theorem toInt_two_pow (p : Int) (hp : 0 ≤ p) (hp30 : p ≤ 30) :
    toInt ((2 : ℚ) ^ p) = .ok ((2 : Int) ^ p.toNat) := by
  have hpow : (2 : Int) ^ p.toNat ≤ 2 ^ 30 := pow_le_pow_right₀ (by norm_num) (by omega)
  have hpos : (0 : Int) < 2 ^ p.toNat := by positivity
  rw [two_zpow_cast p hp, toInt_intCast, checkInt_ok]
  · simp only [INT_MIN]; omega
  · simp only [INT_MAX]; omega

/-- The size `(int) pow(2, p)` does not fit `int` from `p = 31` on. -/
theorem toInt_two_pow_error (p : Int) (hp31 : 31 ≤ p) :
    toInt ((2 : ℚ) ^ p) = .error .undefinedBehaviour := by
  have hpow : (2 : Int) ^ 31 ≤ 2 ^ p.toNat := pow_le_pow_right₀ (by norm_num) (by omega)
  rw [two_zpow_cast p (by omega), toInt_intCast, checkInt_error]
  simp only [INT_MAX]; omega

theorem two_pow_toNat (n : Nat) : ((2 : Int) ^ n).toNat = 2 ^ n := by
  have : ((2 : Int) ^ n) = ((2 ^ n : Nat) : Int) := by push_cast; rfl
  rw [this, Int.toNat_natCast]

theorem replicate_zero_eq (n : Nat) :
    List.replicate n (0 : ℚ) = (List.range n).map (fun _ => (0 : ℚ)) := by
  apply List.ext_getElem <;> simp

/-- At a pixel of the scan region `lbp` returns the code of the specification
(for `p ≤ 31` and `sin`, `cos` in `[-1, 1]`). -/
theorem lbp_at_pixel (m : Libm) (hm : m.bounded) (image : Mat) (p : Int) (r : ℚ)
    (hp : 0 < p) (hp31 : p ≤ 31) (hr : 0 < r) (q : Int × Int) (hq : q ∈ pixels image r) :
    lbp m image q.1 q.2 p r = .ok (spec_lbp m image q.1 q.2 p r) ∧
      0 ≤ spec_lbp m image q.1 q.2 p r ∧ spec_lbp m image q.1 q.2 p r < 2 ^ p.toNat := by
  obtain ⟨hx1, hx2, hy1, hy2⟩ := pixels_mem image r q hq
  have hc := center_inBounds image q.1 q.2 r hr hx1 hx2 hy1 hy2
  have hs := fun i (_ : i < p.toNat) =>
    sample_inBounds m hm image q.1 q.2 p r hr hx1 hx2 hy1 hy2 i
  have hlt := lbp_sum_lt m image q.1 q.2 p r ((image.pix q.2.toNat q.1.toNat).val : Int)
  have hnn := lbp_sum_nonneg m image q.1 q.2 p r ((image.pix q.2.toNat q.1.toNat).val : Int)
  have hpow : (2 : Int) ^ p.toNat ≤ 2 ^ 31 := pow_le_pow_right₀ (by norm_num) (by omega)
  rw [lbp_eq m image q.1 q.2 p r hp hr hc hs, if_pos (by simp only [INT_MAX]; omega)]
  rw [lbp_sum_eq_spec] at hlt hnn ⊢
  exact ⟨rfl, hnn, hlt⟩

/-- The descriptor computed for `0 < p ≤ 30` and `0 < r`, `ceil(r)` an `int`:
bin `k` is the number of pixels of the scan region with code `k`, divided by
the number of pixels of the scan region. -/
theorem compute_lbp_histogram_eq (m : Libm) (hm : m.bounded) (image : Mat) (p : Int) (r : ℚ)
    (hp : 0 < p) (hp30 : p ≤ 30) (hr : 0 < r) (hc : ⌈r⌉ ≤ INT_MAX) :
    compute_lbp_histogram m image p r
      = .ok ((List.range (2 ^ p.toNat)).map (fun k : Nat =>
          Double.div
            (((pixels image r).countP
              (fun q => decide (spec_lbp m image q.1 q.2 p r = (k : Int))) : Nat) : ℚ)
            ((pixels image r).length : ℚ))) := by
  unfold compute_lbp_histogram
  rw [toInt_two_pow p (le_of_lt hp) hp30]
  simp only [bind, Except.ok_bind, two_pow_toNat]
  rw [lbp_counts_eq m image p r hr hc, replicate_zero_eq]
  rw [foldlM_bump (fun q : Int × Int => lbp m image q.1 q.2 p r)
    (fun q => spec_lbp m image q.1 q.2 p r) (2 ^ p.toNat) (pixels image r) (fun _ => 0)
    (fun q hq => by
      have := lbp_at_pixel m hm image p r hp (by omega) hr q hq
      exact ⟨this.1, this.2.1, by exact_mod_cast this.2.2⟩)]
  simp only [Except.ok_bind, pure, Except.pure, zero_add]
  rw [norm_eq_sum, sum_map_range,
    sum_countP (fun q : Int × Int => spec_lbp m image q.1 q.2 p r) (2 ^ p.toNat) (pixels image r)
      (fun q hq => by
        have := lbp_at_pixel m hm image p r hp (by omega) hr q hq
        exact ⟨this.2.1, by exact_mod_cast this.2.2⟩)]
  rw [List.map_map]
  rfl

/-- Uniform neighbourhoods: every code is `2^p - 1` and all the mass of the
descriptor is in the top bin. -/
theorem uniform_codes (m : Libm) (hm : m.bounded) (image : Mat) (p : Int) (r : ℚ)
    (hp : 0 < p) (hp30 : p ≤ 30) (hr : 0 < r) (pxs : List (Int × Int))
    (hv : visited image r = .ok pxs) (hne : pxs ≠ [])
    (hu : ∀ q ∈ pxs, ∀ i : Nat, i < p.toNat →
      image.pix (sampleRow m q.2 p r i).toNat (sampleCol m q.1 p r i).toNat
        ≥ image.pix q.2.toNat q.1.toNat) :
    (∀ q ∈ pxs, lbp m image q.1 q.2 p r = .ok (2 ^ p.toNat - 1)) ∧
    compute_lbp_histogram m image p r
      = .ok ((List.range (2 ^ p.toNat)).map (fun k : Nat =>
          some (if k = 2 ^ p.toNat - 1 then (1 : ℚ) else 0))) := by
  obtain ⟨hc, rfl⟩ := visited_ok image r hr pxs hv
  have hlen : ((pixels image r).length : ℚ) ≠ 0 := by
    have : (pixels image r).length ≠ 0 := fun h => hne (List.length_eq_zero.1 h)
    exact_mod_cast this
  have hcode : ∀ q ∈ pixels image r, spec_lbp m image q.1 q.2 p r = 2 ^ p.toNat - 1 := by
    intro q hq
    rw [← lbp_sum_eq_spec]
    apply lbp_sum_uniform
    intro i hi
    have := hu q hq i hi
    unfold sampleAt
    exact Int.ofNat_le.2 (Fin.le_def.1 this)
  constructor
  · intro q hq
    rw [(lbp_at_pixel m hm image p r hp (by omega) hr q hq).1, hcode q hq]
  · rw [compute_lbp_histogram_eq m hm image p r hp hp30 hr hc]
    congr 1
    apply List.map_congr_left
    intro k _
    have hpos : 1 ≤ 2 ^ p.toNat := Nat.one_le_two_pow
    have hcast : (((2 ^ p.toNat - 1 : Nat) : Int)) = (2 : Int) ^ p.toNat - 1 := by
      rw [Nat.cast_sub hpos]; push_cast; rfl
    by_cases hk : k = 2 ^ p.toNat - 1
    · rw [if_pos hk]
      have hall : (pixels image r).countP
          (fun q => decide (spec_lbp m image q.1 q.2 p r = (k : Int))) = (pixels image r).length := by
        rw [List.countP_eq_length]
        intro q hq
        rw [hcode q hq, hk, hcast]
        simp
      rw [hall, Double.div, if_neg hlen, div_self hlen]
    · rw [if_neg hk]
      have hnone : (pixels image r).countP
          (fun q => decide (spec_lbp m image q.1 q.2 p r = (k : Int))) = 0 := by
        rw [List.countP_eq_zero]
        intro q hq
        rw [hcode q hq]
        simp only [decide_eq_true_eq]
        intro h
        apply hk
        have : (k : Int) = ((2 ^ p.toNat - 1 : Nat) : Int) := by rw [hcast]; exact h.symm
        exact_mod_cast this
      rw [hnone, Double.div, if_neg hlen]
      simp

/-! ## The constant 3 x 3 image: its scan region -/

theorem pixels_flat3 : pixels flat3 1 = [(1, 1)] := by
  simp only [pixels, flat3, Int.ceil_one]
  decide

theorem visited_flat3 : visited flat3 1 = .ok [(1, 1)] := by
  rw [visited_eq flat3 1 (by norm_num) (by rw [Int.ceil_one]; decide), pixels_flat3]

theorem compute_overflow (m : Libm) (image : Mat) (p : Int) (r : ℚ) (hp : 31 ≤ p) :
    compute_lbp_histogram m image p r = .error .undefinedBehaviour := by
  unfold compute_lbp_histogram
  rw [toInt_two_pow_error p hp]
  rfl

theorem compute_flat3 :
    compute_lbp_histogram taylorLibm flat3 8 1 = .ok (finite flat3Descriptor) := by
  rw [(uniform_codes taylorLibm taylorLibm_bounded flat3 8 1 (by decide) (by decide)
    (by norm_num) [(1, 1)] visited_flat3 (by simp) (fun _ _ _ _ => le_refl _)).2]
  simp only [finite, flat3Descriptor, List.map_map]
  rfl

/-- The scan is undefined when `ceil(r)` does not fit `int`. -/
theorem lbp_counts_error (m : Libm) (image : Mat) (p : Int) (r : ℚ) (hc : INT_MAX < ⌈r⌉)
    (histogram : List ℚ) :
    lbp_counts m image p r histogram = .error .undefinedBehaviour := by
  unfold lbp_counts
  rw [toInt_ceil_error r hc]
  rfl

/-! ## The iteration bounds of the model are never exhausted -/

theorem Except.bind_eq_error {ε α β : Type} (x : Except ε α) (f : α → Except ε β) (e : ε) :
    x.bind f = .error e ↔ x = .error e ∨ ∃ a, x = .ok a ∧ f a = .error e := by
  cases x with
  | error e2 => simp [Except.bind]
  | ok a => simp [Except.bind]

theorem checkInt_fuel (z : Int) : checkInt z ≠ .error .outOfFuel := by
  unfold checkInt; split_ifs <;> simp

theorem toInt_fuel (q : ℚ) : toInt q ≠ .error .outOfFuel := checkInt_fuel _

theorem Mat.at_fuel (image : Mat) (row col : Int) : image.at row col ≠ .error .outOfFuel := by
  unfold Mat.at; split_ifs <;> simp

theorem bump_fuel (histogram : List ℚ) (index : Int) :
    bump histogram index ≠ .error .outOfFuel := by
  unfold bump; split_ifs <;> simp

theorem lbp_loop_fuel (m : Libm) (image : Mat) (x y p : Int) (r : ℚ) (center : Int) :
    ∀ (n i : Nat) (value : Int),
      lbp_loop m image x y p r center n i value ≠ .error .outOfFuel := by
  intro n
  induction n with
  | zero => intro i value; simp [lbp_loop]
  | succ n ih =>
    intro i value h
    rw [lbp_loop] at h
    simp only [bind] at h
    rcases (Except.bind_eq_error _ _ _).1 h with h | ⟨row, _, h⟩
    · exact checkInt_fuel _ h
    rcases (Except.bind_eq_error _ _ _).1 h with h | ⟨col, _, h⟩
    · exact checkInt_fuel _ h
    rcases (Except.bind_eq_error _ _ _).1 h with h | ⟨element, _, h⟩
    · exact Mat.at_fuel _ _ _ h
    rcases (Except.bind_eq_error _ _ _).1 h with h | ⟨value2, _, h⟩
    · exact toInt_fuel _ h
    exact ih _ _ h

theorem lbp_fuel (m : Libm) (image : Mat) (x y p : Int) (r : ℚ) :
    lbp m image x y p r ≠ .error .outOfFuel := by
  unfold lbp
  split_ifs
  · intro h
    simp only [bind] at h
    rcases (Except.bind_eq_error _ _ _).1 h with h | ⟨center, _, h⟩
    · exact Mat.at_fuel _ _ _ h
    · exact lbp_loop_fuel _ _ _ _ _ _ _ _ _ _ h
  · simp

/-- A stride loop given `bound - v` iterations never runs out of them. -/
theorem for_stride_fuel {σ : Type} (bound : Int) (body : Int → σ → Except Fault σ)
    (hbody : ∀ u s, body u s ≠ .error .outOfFuel) :
    ∀ (fuel : Nat) (v : Int) (s : σ), (bound - v).toNat ≤ fuel →
      for_stride bound body fuel v s ≠ .error .outOfFuel := by
  intro fuel
  induction fuel with
  | zero =>
    intro v s hf
    have : ¬ v < bound := by omega
    simp [for_stride, this]
  | succ fuel ih =>
    intro v s hf
    rw [for_stride]
    split_ifs with hv
    · intro h
      simp only [bind] at h
      rcases (Except.bind_eq_error _ _ _).1 h with h | ⟨s2, _, h⟩
      · exact hbody _ _ h
      rcases (Except.bind_eq_error _ _ _).1 h with h | ⟨v2, hv2, h⟩
      · exact checkInt_fuel _ h
      have := (checkInt_eq_ok hv2).1
      subst this
      exact ih _ _ (by simp only [STRIDE]; omega) h
    · simp

/-- The scan of `compute_lbp_histogram` never exhausts its iteration bounds. -/
theorem lbp_counts_fuel (m : Libm) (image : Mat) (p : Int) (r : ℚ) (histogram : List ℚ) :
    lbp_counts m image p r histogram ≠ .error .outOfFuel := by
  unfold lbp_counts
  intro h
  simp only [bind] at h
  rcases (Except.bind_eq_error _ _ _).1 h with h | ⟨x0, hx0, h⟩
  · exact toInt_fuel _ h
  rw [toInt_intCast] at hx0
  have hx := (checkInt_eq_ok hx0).1
  subst hx
  refine for_stride_fuel _ _ ?_ _ _ _ (le_refl _) h
  intro x s hx
  rcases (Except.bind_eq_error _ _ _).1 hx with hx | ⟨y0, hy0, hx⟩
  · exact toInt_fuel _ hx
  rw [toInt_intCast] at hy0
  have hy := (checkInt_eq_ok hy0).1
  subst hy
  refine for_stride_fuel _ _ ?_ _ _ _ (le_refl _) hx
  intro y s2 hy
  rcases (Except.bind_eq_error _ _ _).1 hy with hy | ⟨index, _, hy⟩
  · exact lbp_fuel _ _ _ _ _ _ hy
  · exact bump_fuel _ _ hy

theorem compute_lbp_histogram_fuel (m : Libm) (image : Mat) (p : Int) (r : ℚ) :
    compute_lbp_histogram m image p r ≠ .error .outOfFuel := by
  unfold compute_lbp_histogram
  intro h
  simp only [bind] at h
  rcases (Except.bind_eq_error _ _ _).1 h with h | ⟨size, _, h⟩
  · exact toInt_fuel _ h
  rcases (Except.bind_eq_error _ _ _).1 h with h | ⟨histogram, _, h⟩
  · exact lbp_counts_fuel _ _ _ _ _ h
  · simp [pure, Except.pure] at h

/-! ## Lemmas on `LBPClassifier::test` -/

theorem sum_set_add (d : ℚ) :
    ∀ (l : List ℚ) (i : Nat), i < l.length → (l.set i (l.getD i 0 + d)).sum = l.sum + d := by
  intro l
  induction l with
  | nil => intro i h; simp at h
  | cons a l ih =>
    intro i h
    cases i with
    | zero => simp; ring
    | succ i =>
      simp only [List.length_cons, Nat.succ_lt_succ_iff] at h
      simp only [List.set_cons_succ, List.sum_cons, List.getD_cons_succ]
      rw [ih i h]; ring

/-- The statement `v[index] += d` adds `d` to the sum of the vector and keeps
its length. -/
theorem addAt_ok (v w : List ℚ) (index : Int) (d : ℚ) (h : addAt v index d = .ok w) :
    norm w = norm v + d ∧ w.length = v.length := by
  unfold addAt at h
  split_ifs at h with hi
  injection h with h
  subst h
  rw [norm_eq_sum, norm_eq_sum, sum_set_add d v index.toNat (by omega)]
  simp

/-- Each iteration of the loop of `test()` counts one sample. -/
theorem test_step_total (m : Libm) (imread : String → Mat) (cl : LBPClassifier) (i : Nat)
    (st st2 : Counters) (h : test_step m imread cl i st = .ok st2) :
    norm st2.cclass = norm st.cclass + 1 := by
  unfold test_step at h
  simp only [bind] at h
  obtain ⟨path, _, h⟩ := (Except.bind_eq_ok _ _ _).1 h
  obtain ⟨histogram, _, h⟩ := (Except.bind_eq_ok _ _ _).1 h
  obtain ⟨nn, _, h⟩ := (Except.bind_eq_ok _ _ _).1 h
  obtain ⟨label, _, h⟩ := (Except.bind_eq_ok _ _ _).1 h
  obtain ⟨cclass, hcc, h⟩ := (Except.bind_eq_ok _ _ _).1 h
  obtain ⟨predicted, _, h⟩ := (Except.bind_eq_ok _ _ _).1 h
  obtain ⟨ccorrect, _, h⟩ := (Except.bind_eq_ok _ _ _).1 h
  simp only [pure, Except.pure, Except.ok.injEq] at h
  subst h
  exact (addAt_ok _ _ _ _ hcc).1

theorem test_loop_total (m : Libm) (imread : String → Mat) (cl : LBPClassifier) :
    ∀ (n i : Nat) (st res : Counters), test_loop m imread cl n i st = .ok res →
      norm res.cclass = norm st.cclass + n := by
  intro n
  induction n with
  | zero =>
    intro i st res h
    simp only [test_loop, Except.ok.injEq] at h
    subst h; simp
  | succ n ih =>
    intro i st res h
    rw [test_loop] at h
    simp only [bind] at h
    obtain ⟨st2, hstep, h⟩ := (Except.bind_eq_ok _ _ _).1 h
    rw [ih (i + 1) st2 res h, test_step_total m imread cl i st st2 hstep]
    push_cast; ring

/-- Whenever `test()` returns, the classified samples it counted are as many as
the train set has samples, whatever the size of the test set. -/
theorem test_total (m : Libm) (imread : String → Mat) (cl : LBPClassifier) (res : Counters)
    (h : cl.test m imread = .ok res) : norm res.cclass = (cl.trainimages.length : ℚ) := by
  unfold LBPClassifier.test at h
  split_ifs at h
  rw [test_loop_total m imread cl _ 0 _ res h, norm_eq_sum]
  simp

/-! ## More lemmas on `LBPClassifier::test` -/

theorem getD_set_add (d : ℚ) (v : List ℚ) (i : Nat) (hi : i < v.length) (k : Nat) :
    (v.set i (v.getD i 0 + d)).getD k 0 = v.getD k 0 + (if k = i then d else 0) := by
  simp only [List.getD_eq_getElem?_getD, List.getElem?_set]
  by_cases hk : i = k
  · subst hk
    simp [hi]
  · have hk2 : ¬ k = i := fun e => hk e.symm
    simp [hk, hk2]

/-- What a successful `v[index] += d` does to every position. -/
theorem addAt_getD (v w : List ℚ) (index : Int) (d : ℚ) (h : addAt v index d = .ok w) :
    (0 ≤ index ∧ index < v.length) ∧ w.length = v.length ∧
      ∀ k : Nat, w.getD k 0 = v.getD k 0 + (if (k : Int) = index then d else 0) := by
  unfold addAt at h
  split_ifs at h with hi
  injection h with h
  subst h
  refine ⟨hi, by simp, ?_⟩
  intro k
  rw [getD_set_add d v index.toNat (by omega) k]
  by_cases hk : (k : Int) = index
  · rw [if_pos hk, if_pos (by omega)]
  · rw [if_neg hk, if_neg (by omega)]

/-- The statement `v[index] += d` succeeds for an index in range. -/
theorem addAt_inRange (v : List ℚ) (index : Int) (d : ℚ) (h0 : 0 ≤ index)
    (h1 : index < v.length) : ∃ w, addAt v index d = .ok w :=
  ⟨_, by unfold addAt; rw [if_pos ⟨h0, h1⟩]⟩

theorem vecGet_eq {α : Type} (v : List α) (i : Nat) (a : α) (h : v.get? i = some a) :
    vecGet v i = .ok a := by
  unfold vecGet
  rw [h]

theorem vecGet_ok {α : Type} (v : List α) (i : Nat) (a : α) (h : vecGet v i = .ok a) :
    v.get? i = some a := by
  unfold vecGet at h
  cases hg : v.get? i with
  | none => rw [hg] at h; exact absurd h (by simp)
  | some b => rw [hg] at h; simp only [Except.ok.injEq] at h; rw [h]

/-- The pieces of a successful iteration of the loop of `test()`. -/
theorem test_step_ok (m : Libm) (imread : String → Mat) (cl : LBPClassifier) (i : Nat)
    (st st2 : Counters) (h : test_step m imread cl i st = .ok st2) :
    ∃ path d nn t pred,
      cl.testimages.get? i = some path ∧
      compute_lbp_histogram m (imread path) cl.p cl.r = .ok d ∧
      nn_search d cl.histograms = .ok nn ∧
      cl.testlabels.get? i = some t ∧
      cl.trainlabels.get? nn = some pred ∧
      addAt st.cclass t 1 = .ok st2.cclass ∧
      addAt st.ccorrect t (if t = pred then 1 else 0) = .ok st2.ccorrect := by
  unfold test_step at h
  simp only [bind] at h
  obtain ⟨path, hpath, h⟩ := (Except.bind_eq_ok _ _ _).1 h
  obtain ⟨d, hd, h⟩ := (Except.bind_eq_ok _ _ _).1 h
  obtain ⟨nn, hnn, h⟩ := (Except.bind_eq_ok _ _ _).1 h
  obtain ⟨t, ht, h⟩ := (Except.bind_eq_ok _ _ _).1 h
  obtain ⟨cclass, hcc, h⟩ := (Except.bind_eq_ok _ _ _).1 h
  obtain ⟨pred, hpred, h⟩ := (Except.bind_eq_ok _ _ _).1 h
  obtain ⟨ccorrect, hco, h⟩ := (Except.bind_eq_ok _ _ _).1 h
  simp only [pure, Except.pure, Except.ok.injEq] at h
  subst h
  exact ⟨path, d, nn, t, pred, vecGet_ok _ _ _ hpath, hd, hnn, vecGet_ok _ _ _ ht,
    vecGet_ok _ _ _ hpred, hcc, hco⟩

/-- An iteration of the loop of `test()` on a sample that is there, with a
descriptor, a nearest neighbour with a label, and counters that have a place
for the label of the sample. -/
theorem test_step_eq (m : Libm) (imread : String → Mat) (cl : LBPClassifier) (i : Nat)
    (st : Counters) (path : String) (d : List Double) (nn : Nat) (t pred : Int)
    (hpath : cl.testimages.get? i = some path)
    (hd : compute_lbp_histogram m (imread path) cl.p cl.r = .ok d)
    (hnn : nn_search d cl.histograms = .ok nn)
    (ht : cl.testlabels.get? i = some t)
    (hpred : cl.trainlabels.get? nn = some pred)
    (cclass ccorrect : List ℚ)
    (hcc : addAt st.cclass t 1 = .ok cclass)
    (hco : addAt st.ccorrect t (if t = pred then 1 else 0) = .ok ccorrect) :
    test_step m imread cl i st = .ok ⟨cclass, ccorrect⟩ := by
  unfold test_step
  simp only [bind, vecGet_eq _ _ _ hpath, vecGet_eq _ _ _ ht, vecGet_eq _ _ _ hpred, hd, hnn,
    hcc, hco, Except.ok_bind, pure, Except.pure]

/-- What the loop of `test()` keeps true of its counters: they have the same
length, and in every class the correct count is between 0 and the total. -/
theorem test_step_inv (m : Libm) (imread : String → Mat) (cl : LBPClassifier) (i : Nat)
    (st st2 : Counters) (h : test_step m imread cl i st = .ok st2)
    (hinv : ∀ k : Nat, 0 ≤ st.ccorrect.getD k 0 ∧ st.ccorrect.getD k 0 ≤ st.cclass.getD k 0)
    (hsum : 0 ≤ norm st.ccorrect ∧ norm st.ccorrect ≤ norm st.cclass) :
    (∀ k : Nat, 0 ≤ st2.ccorrect.getD k 0 ∧ st2.ccorrect.getD k 0 ≤ st2.cclass.getD k 0) ∧
    (0 ≤ norm st2.ccorrect ∧ norm st2.ccorrect ≤ norm st2.cclass) ∧
    norm st2.cclass = norm st.cclass + 1 := by
  obtain ⟨path, d, nn, t, pred, _, _, _, _, _, hcc, hco⟩ := test_step_ok m imread cl i st st2 h
  have h1 := addAt_getD _ _ _ _ hcc
  have h2 := addAt_getD _ _ _ _ hco
  have s1 := addAt_ok _ _ _ _ hcc
  have s2 := addAt_ok _ _ _ _ hco
  have hb : (0 : ℚ) ≤ (if t = pred then 1 else 0) ∧ (if t = pred then (1 : ℚ) else 0) ≤ 1 := by
    split_ifs <;> norm_num
  refine ⟨?_, ⟨?_, ?_⟩, s1.1⟩
  · intro k
    rw [h1.2.2 k, h2.2.2 k]
    have := hinv k
    by_cases hk : (k : Int) = t
    · rw [if_pos hk, if_pos hk]
      exact ⟨by linarith [hb.1], by linarith [hb.2]⟩
    · rw [if_neg hk, if_neg hk]
      simpa using this
  · rw [s2.1]; linarith [hb.1]
  · rw [s2.1, s1.1]; linarith [hb.2]

theorem norm_replicate_zero (n : Nat) : norm (List.replicate n (0 : ℚ)) = 0 := by
  rw [norm_eq_sum]
  simp

theorem getD_replicate_zero (n k : Nat) : (List.replicate n (0 : ℚ)).getD k 0 = 0 := by
  rw [List.getD_eq_getElem?_getD]
  by_cases hk : k < n
  · simp [List.getElem?_replicate, hk]
  · simp [List.getElem?_replicate, hk]

/-- The invariant of the loop of `test()`, from any state that satisfies it. -/
theorem test_loop_inv (m : Libm) (imread : String → Mat) (cl : LBPClassifier) :
    ∀ (n i : Nat) (st res : Counters), test_loop m imread cl n i st = .ok res →
      (∀ k : Nat, 0 ≤ st.ccorrect.getD k 0 ∧ st.ccorrect.getD k 0 ≤ st.cclass.getD k 0) →
      (0 ≤ norm st.ccorrect ∧ norm st.ccorrect ≤ norm st.cclass) →
      (∀ k : Nat, 0 ≤ res.ccorrect.getD k 0 ∧ res.ccorrect.getD k 0 ≤ res.cclass.getD k 0) ∧
      (0 ≤ norm res.ccorrect ∧ norm res.ccorrect ≤ norm res.cclass) := by
  intro n
  induction n with
  | zero =>
    intro i st res h hinv hsum
    simp only [test_loop, Except.ok.injEq] at h
    subst h
    exact ⟨hinv, hsum⟩
  | succ n ih =>
    intro i st res h hinv hsum
    rw [test_loop] at h
    simp only [bind] at h
    obtain ⟨st2, hstep, h⟩ := (Except.bind_eq_ok _ _ _).1 h
    have hs := test_step_inv m imread cl i st st2 hstep hinv hsum
    exact ih (i + 1) st2 res h hs.1 hs.2.1

/-- A run of `j + k` iterations passes through the state after `j` iterations. -/
theorem test_loop_add (m : Libm) (imread : String → Mat) (cl : LBPClassifier) :
    ∀ (j k i : Nat) (st : Counters),
      test_loop m imread cl (j + k) i st
        = (test_loop m imread cl j i st).bind (fun s => test_loop m imread cl k (i + j) s) := by
  intro j
  induction j with
  | zero => intro k i st; simp [test_loop, Except.bind]
  | succ j ih =>
    intro k i st
    have e : j + 1 + k = (j + k) + 1 := by omega
    rw [e, test_loop, test_loop]
    simp only [bind]
    cases hs : test_step m imread cl i st with
    | error e => rfl
    | ok s2 =>
      simp only [Except.ok_bind]
      rw [ih k (i + 1) s2]
      have e2 : i + 1 + j = i + (j + 1) := by omega
      rw [e2]

/-- The run of `test()` that returns has run its loop `trainimages.size()`
times from the zero counters. -/
theorem test_ok (m : Libm) (imread : String → Mat) (cl : LBPClassifier) (res : Counters)
    (h : cl.test m imread = .ok res) :
    test_loop m imread cl cl.trainimages.length 0 (zeroCounters cl.c) = .ok res := by
  unfold LBPClassifier.test at h
  split_ifs at h
  exact h

theorem shortTrain_run :
    shortTrain.test taylorLibm (fun _ => flat3)
      = .ok ⟨[1, 0, 0, 0, 0, 0, 0, 0, 0, 0], [1, 0, 0, 0, 0, 0, 0, 0, 0, 0]⟩ := by
  have hnn : nn_search (finite flat3Descriptor) [finite flat3Descriptor] = .ok 0 :=
    nn_search_singleton flat3Descriptor flat3Descriptor rfl
  have h10 : (10 : Int).toNat = 10 := rfl
  simp only [LBPClassifier.test, shortTrain, test_loop, test_step, List.length_cons,
    List.length_nil, vecGet, List.get?, compute_flat3, hnn, bind, Except.ok_bind, pure,
    Except.pure, addAt]
  norm_num [Except.bind, h10, List.replicate]

/-! ## Lemmas on `LBPClassifier::train` -/

/-- What the loop of `train()` returns: the histograms it started with, followed
by one descriptor per remaining train image, in the order of the images. -/
theorem train_loop_ok (m : Libm) (imread : String → Mat) (p : Int) (r : ℚ) :
    ∀ (paths : List String) (hs res : List (List Double)),
      train_loop m imread p r paths hs = .ok res →
      ∃ ds : List (List Double), res = hs ++ ds ∧ ds.length = paths.length ∧
        ∀ i path, paths.get? i = some path →
          ∃ d, ds.get? i = some d ∧ compute_lbp_histogram m (imread path) p r = .ok d := by
  intro paths
  induction paths with
  | nil =>
    intro hs res h
    simp only [train_loop, Except.ok.injEq] at h
    exact ⟨[], by simp [h], rfl, fun i path hi => by simp at hi⟩
  | cons path rest ih =>
    intro hs res h
    rw [train_loop] at h
    simp only [bind] at h
    obtain ⟨d0, hd0, h⟩ := (Except.bind_eq_ok _ _ _).1 h
    obtain ⟨ds, hres, hlen, hall⟩ := ih (hs ++ [d0]) res h
    refine ⟨d0 :: ds, by simp [hres], by simp [hlen], ?_⟩
    intro i q hi
    cases i with
    | zero =>
      simp only [List.get?_cons_zero, Option.some.injEq] at hi
      subst hi
      exact ⟨d0, rfl, hd0⟩
    | succ i =>
      simp only [List.get?_cons_succ] at hi
      obtain ⟨d, hd, hc⟩ := hall i q hi
      exact ⟨d, by simpa using hd, hc⟩

/-- The loop of `train()` returns when every train image gets a descriptor. -/
theorem train_loop_total (m : Libm) (imread : String → Mat) (p : Int) (r : ℚ) :
    ∀ (paths : List String) (hs : List (List Double)),
      (∀ path ∈ paths, ∃ d, compute_lbp_histogram m (imread path) p r = .ok d) →
      ∃ res, train_loop m imread p r paths hs = .ok res := by
  intro paths
  induction paths with
  | nil => intro hs _; exact ⟨hs, rfl⟩
  | cons path rest ih =>
    intro hs h
    obtain ⟨d, hd⟩ := h path (List.mem_cons_self _ _)
    obtain ⟨res, hres⟩ := ih (hs ++ [d]) (fun q hq => h q (List.mem_cons_of_mem _ hq))
    refine ⟨res, ?_⟩
    rw [train_loop]
    simp only [bind, hd, Except.ok_bind]
    exact hres

/-! ## The scan region of `compute_lbp_histogram` -/

theorem stridePoints_nil (bound : Int) (fuel : Nat) (v : Int) (h : ¬ v < bound) :
    stridePoints bound fuel v = [] := by
  cases fuel with
  | zero => rfl
  | succ f => rw [stridePoints, if_neg h]

/-- With enough iterations the points of a stride are exactly the values
`v + 3 a` below the bound. -/
theorem stridePoints_mem_iff (bound : Int) :
    ∀ (fuel : Nat) (v u : Int), (bound - v).toNat ≤ fuel →
      (u ∈ stridePoints bound fuel v ↔ ∃ a : Nat, u = v + 3 * (a : Int) ∧ u < bound) := by
  intro fuel v u hf
  constructor
  · intro h
    have := stridePoints_mem bound fuel v u h
    exact ⟨((u - v) / 3).toNat, by omega, this.2.1⟩
  · rintro ⟨a, rfl, hlt⟩
    induction a generalizing fuel v with
    | zero =>
      cases fuel with
      | zero => simp only [CharP.cast_eq_zero, mul_zero, add_zero] at hlt; omega
      | succ f =>
        simp only [CharP.cast_eq_zero, mul_zero, add_zero] at hlt ⊢
        rw [stridePoints, if_pos hlt]
        exact List.mem_cons_self _ _
    | succ a ih =>
      have hv : v < bound := by push_cast at hlt; omega
      cases fuel with
      | zero => omega
      | succ f =>
        rw [stridePoints, if_pos hv]
        apply List.mem_cons_of_mem
        have e : v + 3 * ((a + 1 : Nat) : Int) = (v + STRIDE) + 3 * (a : Int) := by
          simp only [STRIDE]; push_cast; ring
        rw [e]
        apply ih f (v + STRIDE)
        · simp only [STRIDE]; omega
        · rw [← e]; exact hlt

theorem stridePoints_nodup (bound : Int) :
    ∀ (fuel : Nat) (v : Int), (stridePoints bound fuel v).Nodup := by
  intro fuel
  induction fuel with
  | zero => intro v; simp [stridePoints]
  | succ f ih =>
    intro v
    rw [stridePoints]
    split_ifs
    · rw [List.nodup_cons]
      refine ⟨?_, ih _⟩
      intro hmem
      have := stridePoints_mem bound f (v + STRIDE) v hmem
      simp only [STRIDE] at this
      omega
    · exact List.nodup_nil

/-- With enough iterations a stride from `v` below `bound` has
`⌈(bound - v) / 3⌉` points (none when `bound ≤ v`). -/
theorem stridePoints_length (bound : Int) :
    ∀ (fuel : Nat) (v : Int), (bound - v).toNat ≤ fuel →
      (stridePoints bound fuel v).length = ((bound - v + 2) / 3).toNat := by
  intro fuel
  induction fuel with
  | zero => intro v hf; simp only [stridePoints, List.length_nil]; omega
  | succ f ih =>
    intro v hf
    rw [stridePoints]
    split_ifs with hv
    · rw [List.length_cons, ih (v + STRIDE) (by simp only [STRIDE]; omega)]
      simp only [STRIDE]
      omega
    · simp only [List.length_nil]; omega

/-- The integer quotient `(n + 2) / 3` is the ceiling of `n / 3`. -/
theorem ceil_div_three (n : Int) : ⌈((n : ℚ) / 3)⌉ = (n + 2) / 3 := by
  rw [Int.ceil_eq_iff]
  have h1 : (n + 2) % 3 < 3 := Int.emod_lt_of_pos _ (by norm_num)
  have h2 : 0 ≤ (n + 2) % 3 := Int.emod_nonneg _ (by norm_num)
  have h3 : n + 2 = 3 * ((n + 2) / 3) + (n + 2) % 3 := (Int.ediv_add_emod _ _).symm
  have h4 : ((n : ℚ) + 2) = 3 * (((n + 2) / 3 : Int) : ℚ) + (((n + 2) % 3 : Int) : ℚ) := by
    exact_mod_cast h3
  have h1b : (n + 2) % 3 ≤ 2 := by omega
  have h5 : (((n + 2) % 3 : Int) : ℚ) ≤ 2 := by exact_mod_cast h1b
  have h6 : (0 : ℚ) ≤ (((n + 2) % 3 : Int) : ℚ) := by exact_mod_cast h2
  constructor <;> linarith

/-- The scan region is empty when the image is narrower or lower than
`2 ceil(r) + 1`. -/
theorem pixels_empty (image : Mat) (r : ℚ)
    (h : (image.cols : Int) < 2 * ⌈r⌉ + 1 ∨ (image.rows : Int) < 2 * ⌈r⌉ + 1) :
    pixels image r = [] := by
  unfold pixels
  rcases h with h | h
  · rw [stridePoints_nil _ _ _ (by omega)]
    rfl
  · rw [stridePoints_nil ((image.rows : Int) - ⌈r⌉) _ _ (by omega)]
    simp

/-- On an empty scan region the loops leave the histogram as it is. -/
theorem lbp_counts_empty (m : Libm) (image : Mat) (p : Int) (r : ℚ) (hr : 0 < r)
    (hc : ⌈r⌉ ≤ INT_MAX)
    (h : (image.cols : Int) < 2 * ⌈r⌉ + 1 ∨ (image.rows : Int) < 2 * ⌈r⌉ + 1)
    (histogram : List ℚ) :
    lbp_counts m image p r histogram = .ok histogram := by
  rw [lbp_counts_eq m image p r hr hc, pixels_empty image r h]
  rfl

/-- The size `(int) pow(2, p)` of the histogram for a negative `p`. -/
theorem toInt_two_pow_neg (p : Int) (hp : p < 0) : toInt ((2 : ℚ) ^ p) = .ok 0 := by
  have h0 : (0 : ℚ) < (2 : ℚ) ^ p := zpow_pos (by norm_num) p
  have h1 : (2 : ℚ) ^ p < 1 := zpow_lt_one_of_neg₀ (by norm_num) hp
  have hfl : ⌊(2 : ℚ) ^ p⌋ = 0 := Int.floor_eq_zero_iff.2 ⟨le_of_lt h0, h1⟩
  unfold toInt
  rw [if_pos (le_of_lt h0), hfl]
  rfl

/-- The size `(int) pow(2, p)` of the histogram fits `int` up to `p = 30`. -/
theorem toInt_two_pow_ok (p : Int) (hp30 : p ≤ 30) :
    ∃ size : Int, toInt ((2 : ℚ) ^ p) = .ok size ∧ 0 ≤ size := by
  by_cases hp : 0 ≤ p
  · exact ⟨_, toInt_two_pow p hp hp30, by positivity⟩
  · exact ⟨0, toInt_two_pow_neg p (by omega), le_refl _⟩

/-- A zero total turns every bin into a value that is not finite. -/
theorem map_div_zero (n : Nat) :
    (List.replicate n (0 : ℚ)).map (fun v => Double.div v 0) = List.replicate n none := by
  simp [Double.div]

/-- On an empty scan region `compute_lbp_histogram` divides zero counts by a
zero total. -/
theorem compute_empty (m : Libm) (image : Mat) (p : Int) (r : ℚ) (hr : 0 < r)
    (hc : ⌈r⌉ ≤ INT_MAX)
    (h : (image.cols : Int) < 2 * ⌈r⌉ + 1 ∨ (image.rows : Int) < 2 * ⌈r⌉ + 1)
    (size : Int) (hsize : toInt ((2 : ℚ) ^ p) = .ok size) :
    compute_lbp_histogram m image p r = .ok (List.replicate size.toNat none) := by
  unfold compute_lbp_histogram
  rw [hsize]
  simp only [bind, Except.ok_bind, lbp_counts_empty m image p r hr hc h, pure, Except.pure,
    norm_replicate_zero, map_div_zero]

/-- With `p ≤ 0` or `r ≤ 0` the `assert` of `lbp` fails. -/
theorem lbp_assert (m : Libm) (image : Mat) (x y p : Int) (r : ℚ) (h : p ≤ 0 ∨ r ≤ 0) :
    lbp m image x y p r = .error .assertFailed := by
  unfold lbp
  rw [if_neg]
  rintro ⟨hp, hr⟩
  rcases h with h | h
  · omega
  · exact absurd hr (not_lt.2 h)

/-- With `p ≤ 0` or `r ≤ 0` the scan aborts at the first pixel, when there is
one. -/
theorem lbp_counts_assert (m : Libm) (image : Mat) (p : Int) (r : ℚ) (h : p ≤ 0 ∨ r ≤ 0)
    (hmin : INT_MIN ≤ ⌈r⌉) (hmax : ⌈r⌉ ≤ INT_MAX)
    (hx : ⌈r⌉ < (image.cols : Int) - ⌈r⌉) (hy : ⌈r⌉ < (image.rows : Int) - ⌈r⌉)
    (histogram : List ℚ) :
    lbp_counts m image p r histogram = .error .assertFailed := by
  have hto : toInt ⌈r⌉ = .ok ⌈r⌉ := by rw [toInt_intCast, checkInt_ok hmin hmax]
  obtain ⟨fx, hfx⟩ : ∃ f, ((image.cols : Int) - ⌈r⌉ - ⌈r⌉).toNat = f + 1 :=
    ⟨((image.cols : Int) - ⌈r⌉ - ⌈r⌉).toNat - 1, by omega⟩
  obtain ⟨fy, hfy⟩ : ∃ f, ((image.rows : Int) - ⌈r⌉ - ⌈r⌉).toNat = f + 1 :=
    ⟨((image.rows : Int) - ⌈r⌉ - ⌈r⌉).toNat - 1, by omega⟩
  unfold lbp_counts
  simp only [hto, bind, Except.ok_bind, hfx, hfy]
  rw [for_stride, if_pos hx]
  simp only [bind, Except.ok_bind]
  rw [for_stride, if_pos hy]
  simp only [bind, lbp_assert m image _ _ p r h]
  rfl

/-- The scan region is the product of the columns and the rows on the stride. -/
theorem pixels_eq_product (image : Mat) (r : ℚ) :
    pixels image r
      = (stridePoints ((image.cols : Int) - ⌈r⌉) (((image.cols : Int) - ⌈r⌉ - ⌈r⌉).toNat) ⌈r⌉)
          ×ˢ (stridePoints ((image.rows : Int) - ⌈r⌉)
            (((image.rows : Int) - ⌈r⌉ - ⌈r⌉).toNat) ⌈r⌉) :=
  rfl

theorem pixels_mem_iff (image : Mat) (r : ℚ) (x y : Int) :
    (x, y) ∈ pixels image r ↔
      ∃ a b : Nat, x = ⌈r⌉ + 3 * (a : Int) ∧ y = ⌈r⌉ + 3 * (b : Int) ∧
        ⌈r⌉ + 3 * (a : Int) < (image.cols : Int) - ⌈r⌉ ∧
        ⌈r⌉ + 3 * (b : Int) < (image.rows : Int) - ⌈r⌉ := by
  rw [pixels_eq_product, List.mem_product,
    stridePoints_mem_iff _ _ _ _ (le_refl _), stridePoints_mem_iff _ _ _ _ (le_refl _)]
  constructor
  · rintro ⟨⟨a, ha, hax⟩, ⟨b, hb, hby⟩⟩
    exact ⟨a, b, ha, hb, ha ▸ hax, hb ▸ hby⟩
  · rintro ⟨a, b, ha, hb, hax, hby⟩
    exact ⟨⟨a, ha, ha ▸ hax⟩, ⟨b, hb, hb ▸ hby⟩⟩

theorem pixels_nodup (image : Mat) (r : ℚ) : (pixels image r).Nodup := by
  rw [pixels_eq_product]
  exact List.Nodup.product (stridePoints_nodup _ _ _) (stridePoints_nodup _ _ _)

theorem pixels_length (image : Mat) (r : ℚ) :
    (pixels image r).length
      = (((image.cols : Int) - 2 * ⌈r⌉ + 2) / 3).toNat
        * (((image.rows : Int) - 2 * ⌈r⌉ + 2) / 3).toNat := by
  rw [pixels_eq_product, List.length_product,
    stridePoints_length _ _ _ (le_refl _), stridePoints_length _ _ _ (le_refl _)]
  have e1 : (image.cols : Int) - ⌈r⌉ - ⌈r⌉ + 2 = (image.cols : Int) - 2 * ⌈r⌉ + 2 := by ring
  have e2 : (image.rows : Int) - ⌈r⌉ - ⌈r⌉ + 2 = (image.rows : Int) - 2 * ⌈r⌉ + 2 := by ring
  rw [e1, e2]

/-! ## `load_set` -/

theorem getline_extract_delim (delim : Char) (a b : List Char) (ha : delim ∉ a) :
    getline_extract delim (a ++ delim :: b) = (a, b, false) := by
  induction a with
  | nil => simp [getline_extract]
  | cons c cs ih =>
    have hc : c ≠ delim := fun h => ha (h ▸ List.mem_cons_self _ _)
    have hcs : delim ∉ cs := fun h => ha (List.mem_cons_of_mem _ h)
    simp only [List.cons_append, getline_extract, if_neg hc, List.append_eq, ih hcs]

theorem getline_extract_end (delim : Char) (a : List Char) (ha : delim ∉ a) :
    getline_extract delim a = (a, [], true) := by
  induction a with
  | nil => rfl
  | cons c cs ih =>
    have hc : c ≠ delim := fun h => ha (h ▸ List.mem_cons_self _ _)
    have hcs : delim ∉ cs := fun h => ha (List.mem_cons_of_mem _ h)
    simp only [getline_extract, if_neg hc, ih hcs]

/-- A call of `getline` on a good stream whose input holds the delimiter. -/
theorem getline_delim (delim : Char) (a b str : List Char) (ha : delim ∉ a) :
    getline ⟨a ++ delim :: b, false, false⟩ str delim = (⟨b, false, false⟩, a) := by
  simp [getline, getline_extract_delim delim a b ha]

/-- A call of `getline` on a good stream whose input ends before a delimiter. -/
theorem getline_end (delim : Char) (a str : List Char) (ha : delim ∉ a) :
    getline ⟨a, false, false⟩ str delim = (⟨[], true, decide (a = [])⟩, a) := by
  simp [getline, getline_extract_end delim a ha]

/-- A call of `getline` on a stream that met the end of its input. -/
theorem getline_eof (delim : Char) (buf str : List Char) (f : Bool) :
    getline ⟨buf, true, f⟩ str delim = (⟨buf, true, true⟩, str) := by
  simp [getline]

/-- A line `key value rest`: the sample `(atoi(key), value)` is added. -/
theorem load_set_body_sample (atoi : List Char → Int) (st : LoadState)
    (key value rest : List Char) (hk : ' ' ∉ key) (hv : value ≠ []) (hvs : ' ' ∉ value)
    (hrest : rest = [] ∨ ∃ t, rest = ' ' :: t) :
    (load_set_body atoi { st with line := key ++ ' ' :: (value ++ rest) }).images
        = st.images ++ [String.mk value] ∧
    (load_set_body atoi { st with line := key ++ ' ' :: (value ++ rest) }).labels
        = st.labels ++ [atoi key] := by
  unfold load_set_body
  simp only [istringstream, getline_delim ' ' key (value ++ rest) st.key hk]
  rcases hrest with rfl | ⟨t, rfl⟩
  · simp [List.append_nil, getline_end ' ' value st.value hvs, hv]
  · simp [getline_delim ' ' value t st.value hvs]

/-- A line without a second field: nothing is added. -/
theorem load_set_body_skip (atoi : List Char → Int) (st : LoadState) (key : List Char)
    (hk : ' ' ∉ key) :
    (load_set_body atoi { st with line := key }).images = st.images ∧
    (load_set_body atoi { st with line := key }).labels = st.labels ∧
    (load_set_body atoi { st with line := key ++ [' '] }).images = st.images ∧
    (load_set_body atoi { st with line := key ++ [' '] }).labels = st.labels := by
  unfold load_set_body
  simp only [istringstream, getline_delim ' ' key [] st.key hk, getline_end ' ' key st.key hk]
  by_cases hkey : key = []
  · subst hkey
    simp [getline]
  · simp [hkey, getline_eof, getline, getline_extract]

theorem load_set_body_line (atoi : List Char → Int) (st : LoadState) :
    (load_set_body atoi st).line = st.line := by
  unfold load_set_body
  dsimp only
  split_ifs <;> rfl

/-- The body of the loop adds one sample to the two containers, or none. -/
theorem load_set_body_cases (atoi : List Char → Int) (st : LoadState) :
    (∃ (v : String) (k : Int), (load_set_body atoi st).images = st.images ++ [v] ∧
      (load_set_body atoi st).labels = st.labels ++ [k]) ∨
    ((load_set_body atoi st).images = st.images ∧ (load_set_body atoi st).labels = st.labels) := by
  unfold load_set_body
  dsimp only
  split_ifs
  · exact Or.inr ⟨rfl, rfl⟩
  · exact Or.inr ⟨rfl, rfl⟩
  · exact Or.inl ⟨_, _, rfl, rfl⟩

/-- Running the body over a list of lines adds samples at the end of the two
containers, as many to `images` as to `labels`. -/
theorem load_set_fold (atoi : List Char → Int) (lines : List (List Char)) :
    ∀ st : LoadState, ∃ samples : List (String × Int),
      (lines.foldl (fun st l => load_set_body atoi { st with line := l }) st).images
        = st.images ++ samples.map Prod.fst ∧
      (lines.foldl (fun st l => load_set_body atoi { st with line := l }) st).labels
        = st.labels ++ samples.map Prod.snd ∧
      samples.length ≤ lines.length := by
  induction lines with
  | nil => intro st; exact ⟨[], by simp, by simp, le_refl _⟩
  | cons l ls ih =>
    intro st
    obtain ⟨samples, h1, h2, h3⟩ := ih (load_set_body atoi { st with line := l })
    rw [List.foldl_cons, h1, h2]
    rcases load_set_body_cases atoi { st with line := l } with ⟨v, k, e1, e2⟩ | ⟨e1, e2⟩
    · exact ⟨(v, k) :: samples, by rw [e1]; simp, by rw [e2]; simp, by simp; omega⟩
    · exact ⟨samples, by rw [e1], by rw [e2], by simp; omega⟩

/-- The loop of `load_set` runs the body on the lines of the file, in order. -/
theorem load_set_loop_eq (atoi : List Char → Int) (last : List Char) (hlast : '\n' ∉ last) :
    ∀ (ls : List (List Char)) (fuel : Nat) (st : LoadState), (∀ l ∈ ls, '\n' ∉ l) →
      (ls.flatMap (fun l => l ++ ['\n']) ++ last).length + 1 ≤ fuel →
      ∃ line : List Char,
        load_set_loop atoi fuel ⟨ls.flatMap (fun l => l ++ ['\n']) ++ last, false, false⟩ st
          = .ok { (ls ++ if last = [] then [] else [last]).foldl
                    (fun st l => load_set_body atoi { st with line := l }) st
                  with line := line } := by
  intro ls
  induction ls with
  | nil =>
    intro fuel st _ hf
    simp only [List.flatMap_nil, List.nil_append] at hf ⊢
    obtain ⟨f, rfl⟩ : ∃ f, fuel = f + 1 := ⟨fuel - 1, by omega⟩
    by_cases hl : last = []
    · subst hl
      exact ⟨[], by simp [load_set_loop, getline, getline_extract]⟩
    · have hlen : 0 < last.length := List.length_pos.2 hl
      obtain ⟨g, rfl⟩ : ∃ g, f = g + 1 := ⟨f - 1, by omega⟩
      refine ⟨last, ?_⟩
      rw [load_set_loop]
      simp only [getline_end '\n' last st.line hlast, hl, decide_False, if_neg, Bool.false_eq_true,
        not_false_eq_true]
      rw [load_set_loop]
      simp only [getline_eof, if_true, List.nil_append, List.foldl_cons, List.foldl_nil,
        load_set_body_line]
  | cons l ls ih =>
    intro fuel st hls hf
    have hl : '\n' ∉ l := hls l (List.mem_cons_self _ _)
    obtain ⟨f, rfl⟩ : ∃ f, fuel = f + 1 := ⟨fuel - 1, by omega⟩
    have e : (l :: ls).flatMap (fun l => l ++ ['\n']) ++ last
        = l ++ '\n' :: (ls.flatMap (fun l => l ++ ['\n']) ++ last) := by
      simp [List.flatMap_cons]
    rw [e] at hf ⊢
    rw [load_set_loop]
    simp only [getline_delim '\n' l _ st.line hl, Bool.false_eq_true, if_false, List.cons_append,
      List.foldl_cons]
    apply ih f _ (fun l hl => hls l (List.mem_cons_of_mem _ hl))
    simp only [List.length_append, List.length_cons] at hf ⊢
    omega

theorem atoi_digits_none (s : List Char) (h : ∀ c ∈ s.head?, c.isDigit = false) :
    atoi_digits s 0 = 0 := by
  cases s with
  | nil => rfl
  | cons c cs =>
    have : c.isDigit = false := h c (by simp)
    simp [atoi_digits, this]

/-- A string that holds no number reads as 0. -/
theorem decimalAtoi_unparseable (s : List Char) (hs : unparseable s = true) :
    decimalAtoi s = 0 := by
  have key : atoi_digits (numeral s) 0 = 0 := by
    apply atoi_digits_none
    unfold unparseable at hs
    cases h : numeral s with
    | nil => simp
    | cons c cs => rw [h] at hs; simpa using hs
  unfold decimalAtoi
  rw [key]
  simp

/-- An `atoi` that follows the contract returns 0 on a string that holds no
number. -/
theorem conforming_unparseable (atoi : List Char → Int) (h : conforming atoi) (s : List Char)
    (hs : unparseable s = true) : atoi s = 0 := by
  have e := decimalAtoi_unparseable s hs
  rw [h s (by rw [e]; decide) (by rw [e]; decide), e]

/-- The number read is an `atoi` that follows the contract. -/
theorem decimalAtoi_conforming : conforming decimalAtoi := fun _ _ _ => rfl

/-- Every file content is a list of lines ended by a newline, followed by a
last line without newline (possibly empty). -/
theorem lines_decompose (content : List Char) :
    ∃ (ls : List (List Char)) (last : List Char),
      content = ls.flatMap (fun l => l ++ ['\n']) ++ last ∧
      (∀ l ∈ ls, '\n' ∉ l) ∧ '\n' ∉ last := by
  induction content with
  | nil => exact ⟨[], [], rfl, by simp, by simp⟩
  | cons c cs ih =>
    obtain ⟨ls, last, e, h1, h2⟩ := ih
    by_cases hc : c = '\n'
    · refine ⟨[] :: ls, last, ?_, ?_, h2⟩
      · rw [e, hc]; simp [List.flatMap_cons]
      · intro l hl
        rcases List.mem_cons.1 hl with rfl | hl
        · simp
        · exact h1 l hl
    · cases ls with
      | nil =>
        refine ⟨[], c :: last, ?_, by simp, ?_⟩
        · rw [e]; simp
        · intro h
          rcases List.mem_cons.1 h with h | h
          · exact hc h.symm
          · exact h2 h
      | cons l t =>
        refine ⟨(c :: l) :: t, last, ?_, ?_, h2⟩
        · rw [e]; simp [List.flatMap_cons]
        · intro l2 hl
          rcases List.mem_cons.1 hl with rfl | hl
          · intro h
            rcases List.mem_cons.1 h with h | h
            · exact hc h.symm
            · exact h1 l (List.mem_cons_self _ _) h
          · exact h1 l2 (List.mem_cons_of_mem _ hl)

/-- The run of `load_set` on a file that opens: the body is run on the lines,
in order. -/
theorem load_set_eq (fs : String → Option (List Char)) (atoi : List Char → Int)
    (filename : String) (images : List String) (labels : List Int)
    (ls : List (List Char)) (last : List Char)
    (hfile : fs filename = some (ls.flatMap (fun l => l ++ ['\n']) ++ last))
    (hls : ∀ l ∈ ls, '\n' ∉ l) (hlast : '\n' ∉ last) :
    load_set fs atoi filename images labels
      = .ok (((ls ++ if last = [] then [] else [last]).foldl
                (fun st l => load_set_body atoi { st with line := l })
                ⟨[], [], [], images, labels⟩).images,
             ((ls ++ if last = [] then [] else [last]).foldl
                (fun st l => load_set_body atoi { st with line := l })
                ⟨[], [], [], images, labels⟩).labels) := by
  unfold load_set ifstream
  rw [hfile]
  obtain ⟨line, hline⟩ := load_set_loop_eq atoi last hlast ls
    ((ls.flatMap (fun l => l ++ ['\n']) ++ last).length + 1) ⟨[], [], [], images, labels⟩
    hls (le_refl _)
  simp only [bind, Except.bind, pure, Except.pure, hline]

/-- The run of `load_set` on a file that does not open: nothing is added. -/
theorem load_set_unopened (fs : String → Option (List Char)) (atoi : List Char → Int)
    (filename : String) (images : List String) (labels : List Int)
    (hfile : fs filename = none) :
    load_set fs atoi filename images labels = .ok (images, labels) := by
  unfold load_set ifstream
  rw [hfile]
  rfl

/-- Every run of `load_set` returns, with samples added at the end of the two
containers. -/
theorem load_set_appends (fs : String → Option (List Char)) (atoi : List Char → Int)
    (filename : String) (images : List String) (labels : List Int) :
    ∃ samples : List (String × Int),
      load_set fs atoi filename images labels
        = .ok (images ++ samples.map Prod.fst, labels ++ samples.map Prod.snd) := by
  cases hfile : fs filename with
  | none => exact ⟨[], by rw [load_set_unopened fs atoi filename images labels hfile]; simp⟩
  | some content =>
    obtain ⟨ls, last, e, h1, h2⟩ := lines_decompose content
    rw [e] at hfile
    obtain ⟨samples, e1, e2, _⟩ := load_set_fold atoi (ls ++ if last = [] then [] else [last])
      ⟨[], [], [], images, labels⟩
    exact ⟨samples, by rw [load_set_eq fs atoi filename images labels ls last hfile h1 h2, e1, e2]⟩

/-! ## The eight sample points for `P = 8`, `R = 1` -/

/-- C1 (as stated, refuted): two runs in which `nn_search` returns index 0
although the training descriptor at index 1 is strictly closer to the query in
Euclidean distance.  With the query `[0, 0]` and the index `[1, 2^-27]`, `[1, 0]`
the sum `1 + 2^-54` rounds to 1, both computed distances are 1 and the
comparison `d < mindist` keeps index 0.  With the query `[2^600]` and the index
`[0]`, `[2^599]` both squares overflow, no computed distance is finite, and
index 0 is kept although index 1 is at distance `2^599`, below `DBL_MAX`. -/
theorem nn_search_rounded_counterexample :
    (nn_search (finite [0, 0]) [finite [1, 1 / 134217728], finite [1, 0]] = .ok 0 ∧
      Real.sqrt (sqDist [0, 0] [1, 0]) < Real.sqrt (sqDist [0, 0] [1, 1 / 134217728])) ∧
    (nn_search (finite [2 ^ 600]) [finite [0], finite [2 ^ 599]] = .ok 0 ∧
      Real.sqrt (sqDist [2 ^ 600] [2 ^ 599]) < Real.sqrt (sqDist [2 ^ 600] [0]) ∧
      Real.sqrt (sqDist [2 ^ 600] [2 ^ 599]) < (DBL_MAX : ℝ)) := by
  refine ⟨⟨nn_search_rounded, ?_⟩, nn_search_far, ?_, ?_⟩
  · apply Real.sqrt_lt_sqrt
    · exact_mod_cast sqDist_nonneg _ _
    · have h : sqDist [0, 0] [1, 0] < sqDist [0, 0] [1, 1 / 134217728] := by
        norm_num [sqDist]
      exact_mod_cast h
  · apply Real.sqrt_lt_sqrt
    · exact Rat.cast_nonneg.2 (sqDist_nonneg _ _)
    · have h : sqDist [2 ^ 600] [2 ^ 599] < sqDist [2 ^ 600] [0] := by
        norm_num [sqDist]
      exact Rat.cast_lt.2 h
  · have hpos : (0 : ℝ) < (DBL_MAX : ℝ) := by
      have : (0 : ℚ) < DBL_MAX := by norm_num [DBL_MAX]
      exact_mod_cast this
    rw [Real.sqrt_lt' hpos]
    have h : sqDist [2 ^ 600] [2 ^ 599] < DBL_MAX ^ 2 := by
      norm_num [sqDist, DBL_MAX]
    have h2 : ((sqDist [2 ^ 600] [2 ^ 599] : ℚ) : ℝ) < ((DBL_MAX ^ 2 : ℚ) : ℝ) :=
      Rat.cast_lt.2 h
    rw [Rat.cast_pow] at h2
    exact h2

/-- C1 (amended): for every non-empty training index whose descriptors all have
the length of the query, `nn_search` returns an index `i` in
`[0, |TrainingIndex|)` and computes a distance for every training descriptor,
in `double` arithmetic: every subtraction, square and sum rounded to the
nearest `double`, overflow to a value that is not finite, and the square root
rounded.  When at least one computed distance is below `DBL_MAX`, the computed
distance of descriptor `i` is below `DBL_MAX` and less than or equal to every
computed distance that is a finite number; when none is, `i` is 0. -/
theorem nn_search_nearest (hist : List Double) (histograms : List (List Double))
    (hne : histograms ≠ []) (hlen : ∀ h ∈ histograms, h.length = hist.length) :
    ∃ i hi, nn_search hist histograms = .ok i ∧ histograms.get? i = some hi ∧
      (∀ h ∈ histograms, ∃ d, nn_distance hist h = .ok d) ∧
      ((∃ h ∈ histograms, ∃ d, nn_distance hist h = .ok (some d) ∧ d < DBL_MAX) →
        ∃ di, nn_distance hist hi = .ok (some di) ∧ di < DBL_MAX ∧
          ∀ h ∈ histograms, ∀ d, nn_distance hist h = .ok (some d) → di ≤ d) ∧
      ((∀ h ∈ histograms, ∀ d, nn_distance hist h = .ok (some d) → DBL_MAX ≤ d) → i = 0) := by
  have hle : ∀ h ∈ histograms, h.length ≤ hist.length := fun h hh => le_of_eq (hlen h hh)
  have hall : ∀ h ∈ histograms, ∃ d, nn_distance hist h = .ok d := by
    intro h hh
    obtain ⟨d, hd, _⟩ := nn_distance_ok hist h (hle h hh)
    exact ⟨d, hd⟩
  obtain ⟨r, hr, hcase⟩ := nn_search_loop_min hist histograms 0 DBL_MAX 0 hle
  rcases hcase with ⟨rfl, hfar⟩ | ⟨k, hk, dk, rfl, hget, hdk, hlt, hmin, _⟩
  · cases histograms with
    | nil => exact absurd rfl hne
    | cons h0 rest =>
      refine ⟨0, h0, hr, rfl, hall, ?_, fun _ => rfl⟩
      rintro ⟨h, hh, d, hd, hlt⟩
      exact absurd hlt (not_lt.2 (hfar h hh d hd))
  · refine ⟨0 + k, hk, hr, by simpa using hget, hall, fun _ => ⟨dk, hdk, hlt, hmin⟩, ?_⟩
    intro hfar
    have hmem : hk ∈ histograms := List.get?_mem hget
    exact absurd hlt (not_lt.2 (hfar hk hmem dk hdk))

/-- Witness of C1 (amended): the query `[0, 0]` and the index `[2, 0]`, `[1, 0]`,
`[0, 1]`, with computed distances 2, 1 and 1: the index returned is 1, at the
least computed distance 1. -/
theorem nn_search_nearest_witness :
    nn_search (finite [0, 0]) [finite [2, 0], finite [1, 0], finite [0, 1]] = .ok 1 ∧
    ∃ i hi, nn_search (finite [0, 0]) [finite [2, 0], finite [1, 0], finite [0, 1]] = .ok i ∧
      [finite [2, 0], finite [1, 0], finite [0, 1]].get? i = some hi ∧
      ∃ di, nn_distance (finite [0, 0]) hi = .ok (some di) ∧ di < DBL_MAX ∧
        ∀ h ∈ [finite [2, 0], finite [1, 0], finite [0, 1]], ∀ d,
          nn_distance (finite [0, 0]) h = .ok (some d) → di ≤ d := by
  obtain ⟨i, hi, h1, h2, _, h4, _⟩ :=
    nn_search_nearest (finite [0, 0]) [finite [2, 0], finite [1, 0], finite [0, 1]]
      (by simp) (by simp [finite])
  exact ⟨nn_search_three, i, hi, h1, h2,
    h4 ⟨finite [1, 0], by simp, 1, dist_one_zero, by norm_num [DBL_MAX]⟩⟩

/-- C2 (as stated, refuted): with the query `[2^600, 2^600]` the training
descriptors `[0, 2^600]` (index 1) and `[2^600, 0]` (index 2) are tied at the
minimum Euclidean distance `2^600` and `[0, 0]` (index 0) is strictly farther;
a square overflows in each computed distance, none is finite, and `nn_search`
returns index 0, not the lowest index among the tied minimum. -/
theorem nn_search_tie_counterexample :
    nn_search (finite [2 ^ 600, 2 ^ 600])
      [finite [0, 0], finite [0, 2 ^ 600], finite [2 ^ 600, 0]] = .ok 0 ∧
    sqDist [2 ^ 600, 2 ^ 600] [0, 2 ^ 600] = sqDist [2 ^ 600, 2 ^ 600] [2 ^ 600, 0] ∧
    (∀ t ∈ [[0, 0], [0, 2 ^ 600], [2 ^ 600, (0 : ℚ)]],
      Real.sqrt (sqDist [2 ^ 600, 2 ^ 600] [0, 2 ^ 600])
        ≤ Real.sqrt (sqDist [2 ^ 600, 2 ^ 600] t)) ∧
    Real.sqrt (sqDist [2 ^ 600, 2 ^ 600] [0, 2 ^ 600])
      < Real.sqrt (sqDist [2 ^ 600, 2 ^ 600] [0, 0]) := by
  have hlt : sqDist [2 ^ 600, 2 ^ 600] [0, 2 ^ 600] < sqDist [2 ^ 600, 2 ^ 600] [0, 0] := by
    norm_num [sqDist]
  have heq : sqDist [2 ^ 600, 2 ^ 600] [0, 2 ^ 600]
      = sqDist [2 ^ 600, 2 ^ 600] [2 ^ 600, 0] := by
    norm_num [sqDist]
  refine ⟨nn_search_far_tie, heq, ?_, ?_⟩
  · intro t ht
    apply Real.sqrt_le_sqrt
    simp only [List.mem_cons, List.mem_singleton, List.not_mem_nil, or_false] at ht
    rcases ht with rfl | rfl | rfl
    · exact Rat.cast_le.2 (le_of_lt hlt)
    · exact le_refl _
    · exact Rat.cast_le.2 (le_of_eq heq)
  · apply Real.sqrt_lt_sqrt
    · exact Rat.cast_nonneg.2 (sqDist_nonneg _ _)
    · exact Rat.cast_lt.2 hlt

/-- C2 (amended): for every non-empty training index and query of equal
descriptor length, `nn_search` returns an index `r` such that every smaller
index whose computed distance is a finite number has a strictly larger computed
distance (distances computed in `double` arithmetic, see C1); and when at least
one computed distance is below `DBL_MAX`, the computed distance of `r` is the
least of the finite ones and no smaller index has a computed distance equal to
it: `r` is the lowest index among the descriptors tied at the minimum computed
distance. -/
theorem nn_search_first_minimum (hist : List Double) (histograms : List (List Double))
    (hne : histograms ≠ []) (hlen : ∀ h ∈ histograms, h.length = hist.length) :
    ∃ r hr, nn_search hist histograms = .ok r ∧ histograms.get? r = some hr ∧
      (∀ j hj dj, j < r → histograms.get? j = some hj →
        nn_distance hist hj = .ok (some dj) →
        ∃ dr, nn_distance hist hr = .ok (some dr) ∧ dr < dj) ∧
      ((∃ h ∈ histograms, ∃ d, nn_distance hist h = .ok (some d) ∧ d < DBL_MAX) →
        ∃ dr, nn_distance hist hr = .ok (some dr) ∧
          (∀ h ∈ histograms, ∀ d, nn_distance hist h = .ok (some d) → dr ≤ d) ∧
          ∀ j hj, j < r → histograms.get? j = some hj →
            nn_distance hist hj ≠ .ok (some dr)) := by
  have hle : ∀ h ∈ histograms, h.length ≤ hist.length := fun h hh => le_of_eq (hlen h hh)
  obtain ⟨r, hr, hcase⟩ := nn_search_loop_min hist histograms 0 DBL_MAX 0 hle
  rcases hcase with ⟨rfl, hfar⟩ | ⟨k, hk, dk, rfl, hget, hdk, hlt, hmin, hfirst⟩
  · cases histograms with
    | nil => exact absurd rfl hne
    | cons h0 rest =>
      refine ⟨0, h0, hr, rfl, fun j hj dj hlt0 => absurd hlt0 (Nat.not_lt_zero j), ?_⟩
      rintro ⟨h, hh, d, hd, hlt⟩
      exact absurd hlt (not_lt.2 (hfar h hh d hd))
  · refine ⟨0 + k, hk, hr, by simpa using hget, ?_, fun _ => ⟨dk, hdk, hmin, ?_⟩⟩
    · intro j hj dj hjk hgetj hdj
      exact ⟨dk, hdk, hfirst j hj dj (by omega) hgetj hdj⟩
    · intro j hj hjk hgetj hdj
      exact absurd (hfirst j hj dk (by omega) hgetj hdj) (lt_irrefl _)

/-- Witness of C2 (amended): a three-entry index in which entries 1 and 2 are
tied at the minimum computed distance 1; the earlier of the two (index 1) is
returned. -/
theorem nn_search_first_minimum_witness :
    nn_search (finite [0, 0]) [finite [2, 0], finite [1, 0], finite [0, 1]] = .ok 1 ∧
    nn_distance (finite [0, 0]) (finite [1, 0]) = .ok (some 1) ∧
    nn_distance (finite [0, 0]) (finite [0, 1]) = .ok (some 1) ∧
    ∃ r hr, nn_search (finite [0, 0]) [finite [2, 0], finite [1, 0], finite [0, 1]] = .ok r ∧
      [finite [2, 0], finite [1, 0], finite [0, 1]].get? r = some hr ∧
      ∃ dr, nn_distance (finite [0, 0]) hr = .ok (some dr) ∧
        (∀ h ∈ [finite [2, 0], finite [1, 0], finite [0, 1]], ∀ d,
          nn_distance (finite [0, 0]) h = .ok (some d) → dr ≤ d) ∧
        ∀ j hj, j < r → [finite [2, 0], finite [1, 0], finite [0, 1]].get? j = some hj →
          nn_distance (finite [0, 0]) hj ≠ .ok (some dr) := by
  obtain ⟨r, hr, h1, h2, _, h4⟩ :=
    nn_search_first_minimum (finite [0, 0]) [finite [2, 0], finite [1, 0], finite [0, 1]]
      (by simp) (by simp [finite])
  exact ⟨nn_search_three, dist_one_zero, dist_zero_one, r, hr, h1, h2,
    h4 ⟨finite [1, 0], by simp, 1, dist_one_zero, by norm_num [DBL_MAX]⟩⟩

/-! ## Claims on `lbp` -/

/-- C3 (as stated, refuted): on the constant 3 x 3 image, at the centre pixel
`(1, 1)` with `P = 32` and `R = 1`, the centre and all 32 sample points are
in-bounds and the sum `Σ bit_i * 2^i` is `2^32 - 1`, which no `int` holds: the
accumulation in `lbp` overflows and no code is returned. -/
theorem lbp_code_counterexample :
    flat3.inBounds 1 1 ∧
    (∀ i : Nat, i < 32 → ∃ row col, sampleRow_fp taylorLibm 1 32 1 i = some row ∧
      sampleCol_fp taylorLibm 1 32 1 i = some col ∧ flat3.inBounds row col) ∧
    lbp_sum_fp taylorLibm flat3 1 1 32 1 ((flat3.pix 1 1).val : Int) = 2 ^ 32 - 1 ∧
    lbp_fp taylorLibm flat3 1 1 32 1 = .error .undefinedBehaviour :=
  ⟨by decide, fun i hi => flat3_samples_fp 32 i (by omega), flat3_sum_fp 32,
    lbp_fp_flat3_overflow 32 (by decide) (by decide)⟩

/-- C3 (amended): for every pixel buffer, every in-bounds centre `(x, y)` whose
sample points are all in-bounds, every `P` with `0 < P ≤ 31` and every `R > 0`,
the code returned by `lbp` is `Σ_{i < P} bit_i * 2^i`, where `bit_i` is 1
exactly when the intensity at the `i`-th sample point is greater than or equal
to the centre intensity, and 0 otherwise; the sample point is the one the
program computes in `double` arithmetic, row `round(y + cos(i/P * 2 * M_PI) * R)`
and column `round(x + sin(i/P * 2 * M_PI) * R)` with the quotient, the products
and the sum each rounded to the nearest `double` before `round`. -/
theorem lbp_code (m : Libm) (image : Mat) (x y p : Int) (r : ℚ)
    (hp : 0 < p) (hp31 : p ≤ 31) (hr : 0 < r) (hc : image.inBounds y x)
    (hs : ∀ i : Nat, i < p.toNat → ∃ row col,
      (Double.add (some (y : ℚ))
        (Double.mul ((Double.mul (Double.mul (Double.quot (some (i : ℚ)) (some (p : ℚ)))
          (some 2)) (some M_PI)).map m.cos) (some r))).map cround = some row ∧
      (Double.add (some (x : ℚ))
        (Double.mul ((Double.mul (Double.mul (Double.quot (some (i : ℚ)) (some (p : ℚ)))
          (some 2)) (some M_PI)).map m.sin) (some r))).map cround = some col ∧
      image.inBounds row col) :
    lbp_fp m image x y p r
      = .ok (∑ i in Finset.range p.toNat,
          lbp_bit_fp m image x y p r ((image.pix y.toNat x.toNat).val : Int) i * 2 ^ i) ∧
    ∀ i : Nat, i < p.toNat → ∃ row col,
      sampleRow_fp m y p r i = some row ∧ sampleCol_fp m x p r i = some col ∧
      (lbp_bit_fp m image x y p r ((image.pix y.toNat x.toNat).val : Int) i = 1 ↔
        (image.pix row.toNat col.toNat).val ≥ (image.pix y.toNat x.toNat).val) ∧
      (lbp_bit_fp m image x y p r ((image.pix y.toNat x.toNat).val : Int) i = 0 ↔
        (image.pix row.toNat col.toNat).val < (image.pix y.toNat x.toNat).val) := by
  have hs2 : ∀ i, i < p.toNat → ∃ row col, sampleRow_fp m y p r i = some row ∧
      sampleCol_fp m x p r i = some col ∧ image.inBounds row col := hs
  constructor
  · rw [lbp_fp_eq m image x y p r hp (by omega) hr hc hs2]
    have hlt := lbp_sum_fp_lt m image x y p r ((image.pix y.toNat x.toNat).val : Int)
    have hpow : (2 : Int) ^ p.toNat ≤ 2 ^ 31 :=
      pow_le_pow_right₀ (by norm_num) (by omega)
    rw [if_pos (by simp only [INT_MAX]; omega)]
    rfl
  · intro i hi
    obtain ⟨row, col, hrow, hcol, _⟩ := hs2 i hi
    refine ⟨row, col, hrow, hcol, ?_, ?_⟩
    · unfold lbp_bit_fp sampleAt_fp
      rw [hrow, hcol]
      simp only [ge_iff_le, Int.ofNat_le, Fin.val_fin_le]
      split_ifs with h <;> simp [h]
    · unfold lbp_bit_fp sampleAt_fp
      rw [hrow, hcol]
      simp only [ge_iff_le, Int.ofNat_le, Fin.val_fin_le]
      split_ifs with h
      · simp [h]
      · simp [not_le.1 h]

/-- Witness of C3 (amended): the centre pixel of the constant 3 x 3 image with
`P = 8`, `R = 1`: every bit is set and the code is 255. -/
theorem lbp_code_witness :
    lbp_fp taylorLibm flat3 1 1 8 1 = .ok 255 ∧
    lbp_fp taylorLibm flat3 1 1 8 1
      = .ok (∑ i in Finset.range (8 : Int).toNat,
          lbp_bit_fp taylorLibm flat3 1 1 8 1
            ((flat3.pix (1 : Int).toNat (1 : Int).toNat).val : Int) i * 2 ^ i) := by
  have h := (lbp_code taylorLibm flat3 1 1 8 1 (by decide) (by decide) (by norm_num)
    (by decide) (fun i hi => flat3_samples_fp 8 i (by omega))).1
  refine ⟨?_, h⟩
  rw [h]
  have e := flat3_sum_fp 8
  unfold lbp_sum_fp at e
  rw [e]
  rfl

/-- C6 (as stated, refuted): the constant 3 x 3 image contributes a sampled
pixel, but with `P = 31`, `R = 1` no descriptor is returned, so there are no
bins that sum to 1. -/
theorem histogram_sum_counterexample :
    visited flat3 1 = .ok [(1, 1)] ∧
    ¬ ∃ bins : List ℚ, compute_lbp_histogram taylorLibm flat3 31 1 = .ok (finite bins) ∧
      (∀ b ∈ bins, 0 ≤ b) ∧ bins.sum = 1 := by
  refine ⟨visited_flat3, ?_⟩
  rintro ⟨bins, h, _⟩
  rw [compute_overflow taylorLibm flat3 31 1 (by decide)] at h
  exact absurd h (by simp)

/-- C6 (amended): for every image contributing at least one sampled pixel,
every `P` with `0 < P ≤ 30` and every `R > 0` (`sin`, `cos` in `[-1, 1]`), the
bins of the descriptor returned by `compute_lbp_histogram` are finite, all
non-negative and sum to exactly 1. -/
theorem histogram_sum (m : Libm) (hm : m.bounded) (image : Mat) (p : Int) (r : ℚ)
    (hp : 0 < p) (hp30 : p ≤ 30) (hr : 0 < r) (pxs : List (Int × Int))
    (hv : visited image r = .ok pxs) (hne : pxs ≠ []) :
    ∃ bins : List ℚ, compute_lbp_histogram m image p r = .ok (finite bins) ∧
      (∀ b ∈ bins, 0 ≤ b) ∧ bins.sum = 1 := by
  obtain ⟨hc, rfl⟩ := visited_ok image r hr pxs hv
  have hlen : ((pixels image r).length : ℚ) ≠ 0 := by
    have : (pixels image r).length ≠ 0 := fun h => hne (List.length_eq_zero.1 h)
    exact_mod_cast this
  refine ⟨(List.range (2 ^ p.toNat)).map (fun k : Nat =>
      (((pixels image r).countP
        (fun q => decide (spec_lbp m image q.1 q.2 p r = (k : Int))) : Nat) : ℚ)
        / ((pixels image r).length : ℚ)), ?_, ?_, ?_⟩
  · rw [compute_lbp_histogram_eq m hm image p r hp hp30 hr hc, finite, List.map_map]
    congr 1
    apply List.map_congr_left
    intro k _
    simp [Double.div, hlen]
  · intro b hb
    rw [List.mem_map] at hb
    obtain ⟨k, _, rfl⟩ := hb
    positivity
  · rw [sum_map_range, ← Finset.sum_div,
      sum_countP (fun q : Int × Int => spec_lbp m image q.1 q.2 p r) (2 ^ p.toNat)
        (pixels image r)
        (fun q hq => by
          have := lbp_at_pixel m hm image p r hp (by omega) hr q hq
          exact ⟨this.2.1, by exact_mod_cast this.2.2⟩)]
    exact div_self hlen

/-- Witness of C6 (amended): the constant 3 x 3 image with `P = 8`, `R = 1`. -/
theorem histogram_sum_witness :
    ∃ bins : List ℚ, compute_lbp_histogram taylorLibm flat3 8 1 = .ok (finite bins) ∧
      (∀ b ∈ bins, 0 ≤ b) ∧ bins.sum = 1 :=
  histogram_sum taylorLibm taylorLibm_bounded flat3 8 1 (by decide) (by decide) (by norm_num)
    [(1, 1)] visited_flat3 (by simp)

/-- C7 (as stated, refuted): with `P = 31` and `R = 1` the constant 3 x 3 image
gets no descriptor of length `2^31`, as the size `(int) pow(2, 31)` does not
fit `int`; and with `P = 8` and `R = 2^31` it gets no descriptor of length
`2^8`, as the loop counter `int x = ceil(r)` does not fit `int`. -/
theorem histogram_length_counterexample :
    (¬ ∃ h : List Double, compute_lbp_histogram taylorLibm flat3 31 1 = .ok h ∧
      h.length = 2 ^ 31) ∧
    (¬ ∃ h : List Double, compute_lbp_histogram taylorLibm flat3 8 (2 ^ 31) = .ok h ∧
      h.length = 2 ^ 8) := by
  constructor
  · rintro ⟨h, hh, _⟩
    rw [compute_overflow taylorLibm flat3 31 1 (by decide)] at hh
    exact absurd hh (by simp)
  · rintro ⟨h, hh, _⟩
    have hceil : INT_MAX < ⌈((2 : ℚ) ^ 31)⌉ := by
      have e : ((2 : ℚ) ^ 31) = ((2147483648 : Int) : ℚ) := by norm_num
      rw [e, Int.ceil_intCast]
      decide
    unfold compute_lbp_histogram at hh
    rw [toInt_two_pow 8 (by decide) (by decide)] at hh
    simp only [bind, Except.ok_bind] at hh
    rw [lbp_counts_error taylorLibm flat3 8 (2 ^ 31) hceil] at hh
    exact absurd hh (by simp [Except.bind])

/-- C7 (amended): for every image, every `P` with `0 < P ≤ 30` and every
`R > 0` whose ceiling fits `int` (`sin`, `cos` in `[-1, 1]`), the descriptor
returned by `compute_lbp_histogram` has length exactly `2^P`. -/
theorem histogram_length (m : Libm) (hm : m.bounded) (image : Mat) (p : Int) (r : ℚ)
    (hp : 0 < p) (hp30 : p ≤ 30) (hr : 0 < r) (hc : ⌈r⌉ ≤ INT_MAX) :
    ∃ h : List Double, compute_lbp_histogram m image p r = .ok h ∧
      h.length = 2 ^ p.toNat :=
  ⟨_, compute_lbp_histogram_eq m hm image p r hp hp30 hr hc, by simp⟩

/-- Witness of C7 (amended): the constant 3 x 3 image with `P = 8`, `R = 1` gets
a descriptor of length `2^8`. -/
theorem histogram_length_witness :
    ∃ h : List Double, compute_lbp_histogram taylorLibm flat3 8 1 = .ok h ∧
      h.length = 2 ^ (8 : Int).toNat :=
  histogram_length taylorLibm taylorLibm_bounded flat3 8 1 (by decide) (by decide)
    (by norm_num) (by rw [Int.ceil_one]; decide)

/-- C10 (the code at a failing input): a trained classifier with one train
sample and the two test samples of labels 0 and 1, all labels in `[0, C)` with
`C = 10`, every image decoded as the constant 3 x 3 image (whose descriptor is
the stored train histogram).  The loop of `test()` runs `trainimages.size() = 1`
times: only the first test sample is counted, `total = [1, 0, ..., 0]` although
one test sample has the true label 1, and the sum of `total` is 1, not the
size 2 of the test set. -/
theorem test_short_train :
    shortTrain.testimages.length = 2 ∧
    (∀ l ∈ shortTrain.testlabels, 0 ≤ l ∧ l < shortTrain.c) ∧
    shortTrain.testlabels.count 1 = 1 ∧
    compute_lbp_histogram taylorLibm flat3 shortTrain.p shortTrain.r
      = .ok (finite flat3Descriptor) ∧
    shortTrain.test taylorLibm (fun _ => flat3)
      = .ok ⟨[1, 0, 0, 0, 0, 0, 0, 0, 0, 0], [1, 0, 0, 0, 0, 0, 0, 0, 0, 0]⟩ ∧
    norm [1, 0, 0, 0, 0, 0, 0, 0, 0, 0] = 1 := by
  refine ⟨rfl, by decide, by decide, compute_flat3, ?_, by norm_num [norm]⟩
  have hnn : nn_search (finite flat3Descriptor) [finite flat3Descriptor] = .ok 0 :=
    nn_search_singleton flat3Descriptor flat3Descriptor rfl
  have h10 : (10 : Int).toNat = 10 := rfl
  simp only [LBPClassifier.test, shortTrain, test_loop, test_step, List.length_cons,
    List.length_nil, vecGet, List.get?, compute_flat3, hnn, bind, Except.ok_bind, pure,
    Except.pure, addAt]
  norm_num [Except.bind, h10, List.replicate]

/-! ## Claims on the counters of `LBPClassifier::test` -/

/-- C11: processing in `test()` one test sample with true label `t` in `[0, C)`
and descriptor `d` increments `total[t]` by exactly 1, increments `correct[t]`
by 1 if and only if `trainlabels[nn_search(d, histograms)] == t` (and leaves it
as it is otherwise), and leaves the total and correct counters of every other
class unchanged. -/
theorem test_step_frame (m : Libm) (imread : String → Mat) (cl : LBPClassifier) (i : Nat)
    (st : Counters) (path : String) (d : List Double) (nn : Nat) (t pred : Int)
    (hpath : cl.testimages.get? i = some path)
    (hd : compute_lbp_histogram m (imread path) cl.p cl.r = .ok d)
    (ht : cl.testlabels.get? i = some t) (ht0 : 0 ≤ t) (htc : t < cl.c)
    (hnn : nn_search d cl.histograms = .ok nn)
    (hpred : cl.trainlabels.get? nn = some pred)
    (hl1 : st.cclass.length = cl.c.toNat) (hl2 : st.ccorrect.length = cl.c.toNat) :
    ∃ st2, test_step m imread cl i st = .ok st2 ∧
      st2.cclass.getD t.toNat 0 = st.cclass.getD t.toNat 0 + 1 ∧
      (st2.ccorrect.getD t.toNat 0 = st.ccorrect.getD t.toNat 0 + 1 ↔ pred = t) ∧
      (pred ≠ t → st2.ccorrect.getD t.toNat 0 = st.ccorrect.getD t.toNat 0) ∧
      (∀ k : Nat, (k : Int) ≠ t →
        st2.cclass.getD k 0 = st.cclass.getD k 0 ∧
        st2.ccorrect.getD k 0 = st.ccorrect.getD k 0) ∧
      st2.cclass.length = st.cclass.length ∧ st2.ccorrect.length = st.ccorrect.length := by
  obtain ⟨cclass, hcc⟩ := addAt_inRange st.cclass t 1 ht0 (by rw [hl1]; omega)
  obtain ⟨ccorrect, hco⟩ := addAt_inRange st.ccorrect t (if t = pred then 1 else 0) ht0
    (by rw [hl2]; omega)
  have h1 := addAt_getD _ _ _ _ hcc
  have h2 := addAt_getD _ _ _ _ hco
  have htt : ((t.toNat : Nat) : Int) = t := Int.toNat_of_nonneg ht0
  refine ⟨⟨cclass, ccorrect⟩,
    test_step_eq m imread cl i st path d nn t pred hpath hd hnn ht hpred cclass ccorrect hcc hco,
    ?_, ?_, ?_, ?_, h1.2.1, h2.2.1⟩
  · rw [h1.2.2 t.toNat, if_pos htt]
  · rw [h2.2.2 t.toNat, if_pos htt]
    constructor
    · intro h
      by_contra hne
      rw [if_neg (fun e => hne e.symm)] at h
      linarith
    · intro h
      rw [if_pos h.symm]
  · intro hne
    rw [h2.2.2 t.toNat, if_pos htt, if_neg (fun e => hne e.symm), add_zero]
  · intro k hk
    rw [h1.2.2 k, h2.2.2 k, if_neg hk, if_neg hk, add_zero, add_zero]
    exact ⟨rfl, rfl⟩

/-- Witness of C11: the first test sample of `shortTrain` (true label 0,
predicted label 0) processed from the zero counters. -/
theorem test_step_frame_witness :
    ∃ st2, test_step taylorLibm (fun _ => flat3) shortTrain 0 (zeroCounters 10) = .ok st2 ∧
      st2.cclass.getD (0 : Int).toNat 0 = (zeroCounters 10).cclass.getD (0 : Int).toNat 0 + 1 ∧
      (st2.ccorrect.getD (0 : Int).toNat 0
          = (zeroCounters 10).ccorrect.getD (0 : Int).toNat 0 + 1 ↔ (0 : Int) = 0) ∧
      ((0 : Int) ≠ 0 → st2.ccorrect.getD (0 : Int).toNat 0
          = (zeroCounters 10).ccorrect.getD (0 : Int).toNat 0) ∧
      (∀ k : Nat, (k : Int) ≠ 0 →
        st2.cclass.getD k 0 = (zeroCounters 10).cclass.getD k 0 ∧
        st2.ccorrect.getD k 0 = (zeroCounters 10).ccorrect.getD k 0) ∧
      st2.cclass.length = (zeroCounters 10).cclass.length ∧
      st2.ccorrect.length = (zeroCounters 10).ccorrect.length :=
  test_step_frame taylorLibm (fun _ => flat3) shortTrain 0 (zeroCounters 10) "test0.png"
    (finite flat3Descriptor) 0 0 0 rfl compute_flat3 rfl (by decide) (by decide)
    (nn_search_singleton flat3Descriptor flat3Descriptor rfl) rfl rfl rfl

/-- C12: for every run of `test()` in which at least one sample is counted,
`correct[c] ≤ total[c]` (and `0 ≤ correct[c]`) holds for every class `c` after
every processed sample, and the reported overall accuracy
`sum(correct) / sum(total)` has a non-zero denominator and lies in `[0, 1]`. -/
theorem test_accuracy (m : Libm) (imread : String → Mat) (cl : LBPClassifier) (res : Counters)
    (h : cl.test m imread = .ok res) (hcount : 0 < norm res.cclass) :
    (∀ j : Nat, j ≤ cl.trainimages.length →
      ∃ st, test_loop m imread cl j 0 (zeroCounters cl.c) = .ok st ∧
        ∀ k : Nat, 0 ≤ st.ccorrect.getD k 0 ∧ st.ccorrect.getD k 0 ≤ st.cclass.getD k 0) ∧
    norm res.cclass ≠ 0 ∧
    ∃ a : ℚ, accuracy res = some a ∧ 0 ≤ a ∧ a ≤ 1 := by
  have hrun := test_ok m imread cl res h
  have hinit : ∀ k : Nat, 0 ≤ (zeroCounters cl.c).ccorrect.getD k 0 ∧
      (zeroCounters cl.c).ccorrect.getD k 0 ≤ (zeroCounters cl.c).cclass.getD k 0 := by
    intro k
    simp only [zeroCounters, getD_replicate_zero, le_refl, and_self]
  have hsum : 0 ≤ norm (zeroCounters cl.c).ccorrect ∧
      norm (zeroCounters cl.c).ccorrect ≤ norm (zeroCounters cl.c).cclass := by
    simp only [zeroCounters, norm_replicate_zero, le_refl, and_self]
  refine ⟨?_, ne_of_gt hcount, ?_⟩
  · intro j hj
    have e : cl.trainimages.length = j + (cl.trainimages.length - j) := by omega
    rw [e, test_loop_add] at hrun
    obtain ⟨st, hst, _⟩ := (Except.bind_eq_ok _ _ _).1 hrun
    exact ⟨st, hst, (test_loop_inv m imread cl j 0 _ st hst hinit hsum).1⟩
  · have hfin := (test_loop_inv m imread cl _ 0 _ res hrun hinit hsum).2
    refine ⟨norm res.ccorrect / norm res.cclass, ?_, ?_, ?_⟩
    · unfold accuracy Double.div
      rw [if_neg (ne_of_gt hcount)]
    · exact div_nonneg hfin.1 (le_of_lt hcount)
    · exact (div_le_one hcount).2 hfin.2

/-- Witness of C12: the run of `test()` on `shortTrain`, which counts one
sample. -/
theorem test_accuracy_witness :
    (∀ j : Nat, j ≤ shortTrain.trainimages.length →
      ∃ st, test_loop taylorLibm (fun _ => flat3) shortTrain j 0 (zeroCounters shortTrain.c)
          = .ok st ∧
        ∀ k : Nat, 0 ≤ st.ccorrect.getD k 0 ∧ st.ccorrect.getD k 0 ≤ st.cclass.getD k 0) ∧
    norm [1, 0, 0, 0, 0, 0, 0, 0, 0, 0] ≠ 0 ∧
    ∃ a : ℚ, accuracy ⟨[1, 0, 0, 0, 0, 0, 0, 0, 0, 0], [1, 0, 0, 0, 0, 0, 0, 0, 0, 0]⟩ = some a ∧
      0 ≤ a ∧ a ≤ 1 :=
  test_accuracy taylorLibm (fun _ => flat3) shortTrain
    ⟨[1, 0, 0, 0, 0, 0, 0, 0, 0, 0], [1, 0, 0, 0, 0, 0, 0, 0, 0, 0]⟩ shortTrain_run
    (by norm_num [norm])

/-- C17 (as stated, refuted): `nn_search` on an empty collection of training
descriptors does not fail, it returns the index 0. -/
theorem nn_search_empty_counterexample :
    nn_search (finite [1, 0]) [] = .ok 0 := rfl

/-- C17 (amended): for every query, `nn_search` with an empty collection of
training descriptors returns the index 0 (its loop does not run and nothing
checks the collection); the guard is the `assert` of `test()`: invoked with
empty `histograms`, `test()` aborts before any counter is updated. -/
theorem empty_index (hist : List Double) (m : Libm) (imread : String → Mat)
    (cl : LBPClassifier) (h : cl.histograms = []) :
    nn_search hist [] = .ok 0 ∧ cl.test m imread = .error .assertFailed := by
  refine ⟨rfl, ?_⟩
  unfold LBPClassifier.test
  rw [h]
  rfl

/-- Witness of C17 (amended): `test()` on the classifier before `train()`. -/
theorem empty_index_witness :
    nn_search (finite [1, 0]) [] = .ok 0 ∧
    shortUntrained.test taylorLibm (fun _ => flat3) = .error .assertFailed :=
  empty_index (finite [1, 0]) taylorLibm (fun _ => flat3) shortUntrained rfl

/-! ## Claims on `LBPClassifier::train` -/

/-- C13: running `train()` on an untrained classifier (empty `histograms`) with
a train set of `n` samples leaves `histograms` with exactly `n` descriptors,
where for every `i` in `[0, n)` `histograms[i]` is what `compute_lbp_histogram`
returns for the image of train sample `i`, the position of `trainlabels[i]`;
`trainlabels`, `P`, `R`, `C` and the other fields are unchanged.  `train()`
returns whenever every train image gets a descriptor. -/
theorem train_descriptors (m : Libm) (imread : String → Mat) (cl : LBPClassifier)
    (hun : cl.histograms = []) :
    (∀ cl2, cl.train m imread = .ok cl2 →
      cl2.histograms.length = cl.trainimages.length ∧
      (∀ i path, cl.trainimages.get? i = some path →
        ∃ d, cl2.histograms.get? i = some d ∧
          compute_lbp_histogram m (imread path) cl.p cl.r = .ok d) ∧
      cl2.trainlabels = cl.trainlabels ∧ cl2.trainimages = cl.trainimages ∧
      cl2.p = cl.p ∧ cl2.r = cl.r ∧ cl2.c = cl.c ∧
      cl2.testimages = cl.testimages ∧ cl2.testlabels = cl.testlabels) ∧
    ((∀ path ∈ cl.trainimages, ∃ d, compute_lbp_histogram m (imread path) cl.p cl.r = .ok d) →
      ∃ cl2, cl.train m imread = .ok cl2) := by
  constructor
  · intro cl2 h
    unfold LBPClassifier.train at h
    simp only [bind] at h
    obtain ⟨hs, hloop, h⟩ := (Except.bind_eq_ok _ _ _).1 h
    simp only [pure, Except.pure, Except.ok.injEq] at h
    subst h
    obtain ⟨ds, hres, hlen, hall⟩ := train_loop_ok m imread cl.p cl.r _ _ _ hloop
    rw [hun, List.nil_append] at hres
    subst hres
    exact ⟨hlen, hall, rfl, rfl, rfl, rfl, rfl, rfl, rfl⟩
  · intro h
    obtain ⟨res, hres⟩ := train_loop_total m imread cl.p cl.r cl.trainimages cl.histograms h
    refine ⟨{ cl with histograms := res }, ?_⟩
    unfold LBPClassifier.train
    simp only [bind, hres, Except.ok_bind, pure, Except.pure]

/-- Witness of C13: `train()` on the untrained classifier of one train sample,
every image decoded as the constant 3 x 3 image. -/
theorem train_descriptors_witness :
    ∃ cl2, shortUntrained.train taylorLibm (fun _ => flat3) = .ok cl2 ∧
      cl2.histograms.length = shortUntrained.trainimages.length ∧
      (∀ i path, shortUntrained.trainimages.get? i = some path →
        ∃ d, cl2.histograms.get? i = some d ∧
          compute_lbp_histogram taylorLibm flat3 shortUntrained.p shortUntrained.r = .ok d) ∧
      cl2.trainlabels = shortUntrained.trainlabels := by
  have h := train_descriptors taylorLibm (fun _ => flat3) shortUntrained rfl
  obtain ⟨cl2, hcl2⟩ := h.2 (fun _ _ => ⟨_, compute_flat3⟩)
  obtain ⟨h1, h2, h3, _⟩ := h.1 cl2 hcl2
  exact ⟨cl2, hcl2, h1, h2, h3⟩

/-! ## Claims on preconditions -/

/-- C16 (as stated, refuted): the training descriptor `[1]` is shorter than the
query `[0, 0]`, and `nn_search` returns the index 0: its inner loop runs over
the training descriptor and compares the first bin only. -/
theorem nn_search_mismatch_counterexample :
    (finite [1]).length ≠ (finite [0, 0]).length ∧
    nn_search (finite [0, 0]) [finite [1]] = .ok 0 := by
  refine ⟨by decide, ?_⟩
  obtain ⟨i, hi, hlt⟩ := nn_search_index (finite [0, 0]) [finite [1]] (by simp)
    (by simp [finite])
  have : i = 0 := by simpa using hlt
  rw [← this]
  exact hi

/-- C16 (amended): `nn_search` does not compare the lengths.  When every
training descriptor of a non-empty index is at most as long as the query it
returns an index (each distance runs over the bins of the training
descriptor); when some training descriptor is longer than the query, the read
`hist[j]` past the end of the query is undefined behaviour. -/
theorem nn_search_lengths (hist : List Double) (histograms : List (List Double)) :
    (histograms ≠ [] → (∀ h ∈ histograms, h.length ≤ hist.length) →
      ∃ i, nn_search hist histograms = .ok i ∧ i < histograms.length) ∧
    ((∃ h ∈ histograms, hist.length < h.length) →
      nn_search hist histograms = .error .undefinedBehaviour) :=
  ⟨fun hne hlen => nn_search_index hist histograms hne hlen,
    fun hex => nn_search_loop_error hist histograms 0 DBL_MAX 0 hex⟩

/-- Witness of C16 (amended): a shorter training descriptor gives an index, a
longer one is undefined. -/
theorem nn_search_lengths_witness :
    (∃ i, nn_search (finite [0, 0]) [finite [1]] = .ok i ∧ i < [finite [1]].length) ∧
    nn_search (finite [0]) [finite [1, 2]] = .error .undefinedBehaviour :=
  ⟨(nn_search_lengths (finite [0, 0]) [finite [1]]).1 (by simp) (by simp [finite]),
    (nn_search_lengths (finite [0]) [finite [1, 2]]).2 ⟨finite [1, 2], by simp, by simp [finite]⟩⟩


/-! ## Claims on the scan region -/

/-- C14 (as stated, refuted): the constant 3 x 3 image is narrower than
`2*ceil(R) + 1` for `R = 2^31 > 0`, but the loop counter `int x = ceil(r)` does
not fit `int`: the scan has no defined behaviour and yields no bin counts, so
no zero total either. -/
theorem empty_region_counterexample :
    (0 : ℚ) < 2 ^ 31 ∧ (flat3.cols : Int) < 2 * ⌈((2 : ℚ) ^ 31)⌉ + 1 ∧
    ¬ ∃ h : List ℚ, lbp_counts taylorLibm flat3 8 (2 ^ 31) (List.replicate 256 0) = .ok h ∧
      norm h = 0 := by
  have e : ((2 : ℚ) ^ 31) = ((2147483648 : Int) : ℚ) := by norm_num
  have hceil : ⌈((2 : ℚ) ^ 31)⌉ = 2147483648 := by rw [e, Int.ceil_intCast]
  refine ⟨by norm_num, by rw [hceil]; decide, ?_⟩
  rintro ⟨h, hh, _⟩
  rw [lbp_counts_error taylorLibm flat3 8 (2 ^ 31) (by rw [hceil]; decide)] at hh
  exact absurd hh (by simp)

/-- C14 (amended): for every image whose width or height is smaller than
`2*ceil(R) + 1`, with `R > 0` and `ceil(R) ≤ 2^31 - 1`, `compute_lbp_histogram`
visits no pixel, so the loops leave every bin count at 0 and the total used as
the divisor is 0; for `P ≤ 30` every bin of the returned descriptor is the
quotient `0 / 0`, which is not a finite number. -/
theorem empty_region (m : Libm) (image : Mat) (p : Int) (r : ℚ) (hr : 0 < r)
    (hc : ⌈r⌉ ≤ INT_MAX)
    (h : (image.cols : Int) < 2 * ⌈r⌉ + 1 ∨ (image.rows : Int) < 2 * ⌈r⌉ + 1) :
    visited image r = .ok [] ∧
    (∀ n : Nat, lbp_counts m image p r (List.replicate n 0) = .ok (List.replicate n 0) ∧
      (∀ v ∈ List.replicate n (0 : ℚ), v = 0) ∧ norm (List.replicate n 0) = 0) ∧
    (p ≤ 30 → ∃ size : Int, toInt ((2 : ℚ) ^ p) = .ok size ∧
      compute_lbp_histogram m image p r = .ok (List.replicate size.toNat none)) := by
  refine ⟨?_, ?_, ?_⟩
  · rw [visited_eq image r hr hc, pixels_empty image r h]
  · intro n
    exact ⟨lbp_counts_empty m image p r hr hc h _, fun v hv => List.eq_of_mem_replicate hv,
      norm_replicate_zero n⟩
  · intro hp
    obtain ⟨size, hsize, _⟩ := toInt_two_pow_ok p hp
    exact ⟨size, hsize, compute_empty m image p r hr hc h size hsize⟩

/-- Witness of C14 (amended): the constant 3 x 3 image with `P = 8`, `R = 2` is
narrower than 5: no pixel is visited. -/
theorem empty_region_witness :
    visited flat3 2 = .ok [] ∧
    (∀ n : Nat, lbp_counts taylorLibm flat3 8 2 (List.replicate n 0)
        = .ok (List.replicate n 0) ∧
      (∀ v ∈ List.replicate n (0 : ℚ), v = 0) ∧ norm (List.replicate n 0) = 0) ∧
    ((8 : Int) ≤ 30 → ∃ size : Int, toInt ((2 : ℚ) ^ (8 : Int)) = .ok size ∧
      compute_lbp_histogram taylorLibm flat3 8 2 = .ok (List.replicate size.toNat none)) :=
  empty_region taylorLibm flat3 8 2 (by norm_num)
    (by rw [show (2 : ℚ) = ((2 : Int) : ℚ) by norm_num, Int.ceil_intCast]; decide)
    (Or.inl (by rw [show (2 : ℚ) = ((2 : Int) : ℚ) by norm_num, Int.ceil_intCast]; decide))

/-- C15 (as stated, refuted): with `P = 0` and `R = 2` the constant 3 x 3 image
has an empty scan region, `lbp` and its `assert` are never reached, and
`compute_lbp_histogram` returns a descriptor (one bin, not a finite number);
with `P = -1` it returns the empty descriptor. -/
theorem precondition_counterexample :
    compute_lbp_histogram taylorLibm flat3 0 2 = .ok [none] ∧
    compute_lbp_histogram taylorLibm flat3 (-1) 2 = .ok [] := by
  have hc : ⌈(2 : ℚ)⌉ = 2 := by
    rw [show (2 : ℚ) = ((2 : Int) : ℚ) by norm_num, Int.ceil_intCast]
  have hc1 : ⌈(2 : ℚ)⌉ ≤ INT_MAX := by rw [hc]; decide
  have hs : (flat3.cols : Int) < 2 * ⌈(2 : ℚ)⌉ + 1 ∨ (flat3.rows : Int) < 2 * ⌈(2 : ℚ)⌉ + 1 :=
    Or.inl (by rw [hc]; decide)
  constructor
  · exact compute_empty taylorLibm flat3 0 2 (by norm_num) hc1 hs 1
      (toInt_two_pow 0 (by decide) (by decide))
  · exact compute_empty taylorLibm flat3 (-1) 2 (by norm_num) hc1 hs 0
      (toInt_two_pow_neg (-1) (by decide))

/-- C15 (amended): for every image, `compute_lbp_histogram` called with
`P ≤ 0` or `R ≤ 0` (and `P ≤ 30`, `ceil(R) ≥ -2^31`) aborts on the `assert` of
`lbp` whenever the scan region holds a pixel, `ceil(R) < cols - ceil(R)` and
`ceil(R) < rows - ceil(R)`; when the image is smaller than `2*ceil(R) + 1` in a
dimension, with `R > 0` and `ceil(R) ≤ 2^31 - 1`, it returns a descriptor. -/
theorem precondition_abort (m : Libm) (image : Mat) (p : Int) (r : ℚ) (h : p ≤ 0 ∨ r ≤ 0)
    (hp : p ≤ 30) (hmin : INT_MIN ≤ ⌈r⌉) :
    (⌈r⌉ < (image.cols : Int) - ⌈r⌉ → ⌈r⌉ < (image.rows : Int) - ⌈r⌉ →
      compute_lbp_histogram m image p r = .error .assertFailed) ∧
    (0 < r → ⌈r⌉ ≤ INT_MAX →
      (image.cols : Int) < 2 * ⌈r⌉ + 1 ∨ (image.rows : Int) < 2 * ⌈r⌉ + 1 →
      ∃ d : List Double, compute_lbp_histogram m image p r = .ok d) := by
  obtain ⟨size, hsize, _⟩ := toInt_two_pow_ok p hp
  constructor
  · intro hx hy
    have hcols := image.cols_le
    have hmax : ⌈r⌉ ≤ INT_MAX := by simp only [INT_MAX]; omega
    unfold compute_lbp_histogram
    rw [hsize]
    simp only [bind, Except.ok_bind, lbp_counts_assert m image p r h hmin hmax hx hy]
    rfl
  · intro hr hmax hs
    exact ⟨_, compute_empty m image p r hr hmax hs size hsize⟩

/-- Witness of C15 (amended): the constant 3 x 3 image with `P = 0`, `R = 1`
has the pixel `(1, 1)` to scan, and `compute_lbp_histogram` aborts. -/
theorem precondition_abort_witness :
    compute_lbp_histogram taylorLibm flat3 0 1 = .error .assertFailed :=
  (precondition_abort taylorLibm flat3 0 1 (Or.inl (by decide)) (by decide)
    (by rw [Int.ceil_one]; decide)).1 (by rw [Int.ceil_one]; decide)
    (by rw [Int.ceil_one]; decide)

/-- C19 (as stated, refuted): for `R = 2^31 > 0` and the constant 3 x 3 image
no pair `(m + 3a, m + 3b)` lies in the region, so the visit should be empty;
but `int x = ceil(r)` does not fit `int` and the visit has no defined
behaviour. -/
theorem scan_points_counterexample :
    (0 : ℚ) < 2 ^ 31 ∧
    (¬ ∃ a : Nat, ⌈((2 : ℚ) ^ 31)⌉ + 3 * (a : Int) < (flat3.cols : Int) - ⌈((2 : ℚ) ^ 31)⌉) ∧
    visited flat3 (2 ^ 31) ≠ .ok [] ∧
    visited flat3 (2 ^ 31) = .error .undefinedBehaviour := by
  have e : ((2 : ℚ) ^ 31) = ((2147483648 : Int) : ℚ) := by norm_num
  have hceil : ⌈((2 : ℚ) ^ 31)⌉ = 2147483648 := by rw [e, Int.ceil_intCast]
  have hv : visited flat3 (2 ^ 31) = .error .undefinedBehaviour :=
    visited_error flat3 (2 ^ 31) (by rw [hceil]; decide)
  refine ⟨by norm_num, ?_, ?_, hv⟩
  · rintro ⟨a, ha⟩
    rw [hceil] at ha
    have : (flat3.cols : Int) = 3 := rfl
    omega
  · rw [hv]
    simp

/-- C19 (amended): for every image of size `cols x rows` and `R > 0` with
`m = ceil(R) ≤ 2^31 - 1`, `compute_lbp_histogram` visits exactly the pixels
`(m + 3a, m + 3b)` with naturals `a`, `b`, `m + 3a < cols - m` and
`m + 3b < rows - m`, each once, and its counts are the fold of `lbp` over them;
the number of sampled pixels is `ceil((cols - 2m)/3) * ceil((rows - 2m)/3)`
when both factors are positive, and at least one pixel is sampled whenever
`cols ≥ 2m + 1` and `rows ≥ 2m + 1`. -/
theorem scan_points (image : Mat) (r : ℚ) (hr : 0 < r) (hc : ⌈r⌉ ≤ INT_MAX) :
    ∃ pxs : List (Int × Int), visited image r = .ok pxs ∧
      (∀ (m : Libm) (p : Int) (histogram : List ℚ),
        lbp_counts m image p r histogram
          = pxs.foldlM (fun h q => (lbp m image q.1 q.2 p r).bind (fun index => bump h index))
              histogram) ∧
      (∀ x y : Int, (x, y) ∈ pxs ↔
        ∃ a b : Nat, x = ⌈r⌉ + 3 * (a : Int) ∧ y = ⌈r⌉ + 3 * (b : Int) ∧
          ⌈r⌉ + 3 * (a : Int) < (image.cols : Int) - ⌈r⌉ ∧
          ⌈r⌉ + 3 * (b : Int) < (image.rows : Int) - ⌈r⌉) ∧
      pxs.Nodup ∧
      (0 < ⌈((((image.cols : Int) - 2 * ⌈r⌉ : Int) : ℚ) / 3)⌉ →
        0 < ⌈((((image.rows : Int) - 2 * ⌈r⌉ : Int) : ℚ) / 3)⌉ →
        (pxs.length : Int)
          = ⌈((((image.cols : Int) - 2 * ⌈r⌉ : Int) : ℚ) / 3)⌉
            * ⌈((((image.rows : Int) - 2 * ⌈r⌉ : Int) : ℚ) / 3)⌉) ∧
      (2 * ⌈r⌉ + 1 ≤ (image.cols : Int) → 2 * ⌈r⌉ + 1 ≤ (image.rows : Int) → pxs ≠ []) := by
  refine ⟨pixels image r, visited_eq image r hr hc,
    fun m p histogram => lbp_counts_eq m image p r hr hc histogram,
    pixels_mem_iff image r, pixels_nodup image r, ?_, ?_⟩
  · rw [ceil_div_three, ceil_div_three, pixels_length]
    intro h1 h2
    push_cast
    rw [Int.toNat_of_nonneg (le_of_lt h1), Int.toNat_of_nonneg (le_of_lt h2)]
  · intro h1 h2 hnil
    have hmem : (⌈r⌉, ⌈r⌉) ∈ pixels image r :=
      (pixels_mem_iff image r ⌈r⌉ ⌈r⌉).2 ⟨0, 0, by simp, by simp, by simp; omega, by simp; omega⟩
    rw [hnil] at hmem
    exact absurd hmem (List.not_mem_nil _)

/-- Witness of C19 (amended): the constant 3 x 3 image with `R = 1`: the visit
is `[(1, 1)]`, one pixel, `ceil(1/3) * ceil(1/3) = 1`. -/
theorem scan_points_witness :
    ∃ pxs : List (Int × Int), visited flat3 1 = .ok pxs ∧
      (∀ (m : Libm) (p : Int) (histogram : List ℚ),
        lbp_counts m flat3 p 1 histogram
          = pxs.foldlM (fun h q => (lbp m flat3 q.1 q.2 p 1).bind (fun index => bump h index))
              histogram) ∧
      (∀ x y : Int, (x, y) ∈ pxs ↔
        ∃ a b : Nat, x = ⌈(1 : ℚ)⌉ + 3 * (a : Int) ∧ y = ⌈(1 : ℚ)⌉ + 3 * (b : Int) ∧
          ⌈(1 : ℚ)⌉ + 3 * (a : Int) < (flat3.cols : Int) - ⌈(1 : ℚ)⌉ ∧
          ⌈(1 : ℚ)⌉ + 3 * (b : Int) < (flat3.rows : Int) - ⌈(1 : ℚ)⌉) ∧
      pxs.Nodup ∧
      (0 < ⌈((((flat3.cols : Int) - 2 * ⌈(1 : ℚ)⌉ : Int) : ℚ) / 3)⌉ →
        0 < ⌈((((flat3.rows : Int) - 2 * ⌈(1 : ℚ)⌉ : Int) : ℚ) / 3)⌉ →
        (pxs.length : Int)
          = ⌈((((flat3.cols : Int) - 2 * ⌈(1 : ℚ)⌉ : Int) : ℚ) / 3)⌉
            * ⌈((((flat3.rows : Int) - 2 * ⌈(1 : ℚ)⌉ : Int) : ℚ) / 3)⌉) ∧
      (2 * ⌈(1 : ℚ)⌉ + 1 ≤ (flat3.cols : Int) → 2 * ⌈(1 : ℚ)⌉ + 1 ≤ (flat3.rows : Int) →
        pxs ≠ []) :=
  scan_points flat3 1 (by norm_num) (by rw [Int.ceil_one]; decide)


/-! ## Claims on `load_set` -/

/-- C18: for every dataset list and whatever `atoi` returns.  For every line: a
line `key value rest` with one space between the fields, no space in `key`, a
non-empty `value` without space and `rest` empty or starting at the next space,
makes the loop body of `load_set` append exactly one sample, with label
`atoi(key)` and path `value`; with an `atoi` that follows the C standard the
label is the decimal number read in `key` when an `int` holds it, and 0 when
`key` holds no number.  A line without a space, such as `7`, appends nothing.
For a file that is the lines `ls`, each ended by a newline, and a last line
`last` that may be empty, `load_set` returns what its loop body gives over the
lines in file order; a file that does not open adds nothing.  Every run of
`load_set` returns, only appends, and keeps `images` and `labels` at the same
length. -/
theorem load_set_samples (fs : String → Option (List Char)) (atoi : List Char → Int)
    (filename : String) (images : List String) (labels : List Int) :
    (∀ (st : LoadState) (key value rest : List Char), ' ' ∉ key → value ≠ [] → ' ' ∉ value →
      (rest = [] ∨ ∃ t, rest = ' ' :: t) →
      (load_set_body atoi { st with line := key ++ ' ' :: (value ++ rest) }).images
          = st.images ++ [String.mk value] ∧
      (load_set_body atoi { st with line := key ++ ' ' :: (value ++ rest) }).labels
          = st.labels ++ [atoi key] ∧
      (conforming atoi → INT_MIN ≤ decimalAtoi key → decimalAtoi key ≤ INT_MAX →
        (load_set_body atoi { st with line := key ++ ' ' :: (value ++ rest) }).labels
          = st.labels ++ [decimalAtoi key]) ∧
      (conforming atoi → unparseable key = true →
        (load_set_body atoi { st with line := key ++ ' ' :: (value ++ rest) }).labels
          = st.labels ++ [0])) ∧
    (∀ (st : LoadState) (line : List Char), ' ' ∉ line →
      (load_set_body atoi { st with line := line }).images = st.images ∧
      (load_set_body atoi { st with line := line }).labels = st.labels) ∧
    (∀ (ls : List (List Char)) (last : List Char),
      fs filename = some (ls.flatMap (fun l => l ++ ['\n']) ++ last) →
      (∀ l ∈ ls, '\n' ∉ l) → '\n' ∉ last →
      load_set fs atoi filename images labels
        = .ok (((ls ++ if last = [] then [] else [last]).foldl
                  (fun st l => load_set_body atoi { st with line := l })
                  ⟨[], [], [], images, labels⟩).images,
               ((ls ++ if last = [] then [] else [last]).foldl
                  (fun st l => load_set_body atoi { st with line := l })
                  ⟨[], [], [], images, labels⟩).labels)) ∧
    (fs filename = none → load_set fs atoi filename images labels = .ok (images, labels)) ∧
    (∃ samples : List (String × Int),
      load_set fs atoi filename images labels
        = .ok (images ++ samples.map Prod.fst, labels ++ samples.map Prod.snd)) ∧
    (images.length = labels.length →
      ∃ res : List String × List Int, load_set fs atoi filename images labels = .ok res ∧
        res.1.length = res.2.length) := by
  refine ⟨?_, ?_, ?_, load_set_unopened fs atoi filename images labels,
    load_set_appends fs atoi filename images labels, ?_⟩
  · intro st key value rest hk hv hvs hrest
    obtain ⟨e1, e2⟩ := load_set_body_sample atoi st key value rest hk hv hvs hrest
    refine ⟨e1, e2, ?_, ?_⟩
    · intro hatoi h1 h2
      rw [e2, hatoi key h1 h2]
    · intro hatoi hu
      rw [e2, conforming_unparseable atoi hatoi key hu]
  · intro st line hl
    obtain ⟨e1, e2, _⟩ := load_set_body_skip atoi st line hl
    exact ⟨e1, e2⟩
  · intro ls last hfile hls hlast
    exact load_set_eq fs atoi filename images labels ls last hfile hls hlast
  · intro hlen
    obtain ⟨samples, hs⟩ := load_set_appends fs atoi filename images labels
    refine ⟨_, hs, ?_⟩
    simp only [List.length_append, List.length_map, hlen]

/-- Witness of C18: the file `train.txt` with the lines `5 images/cat.png`, `7`
and `x images/dog.png` loads the samples `(5, images/cat.png)` and
`(0, images/dog.png)`; the line `5 images/cat.png` alone gives label 5 and path
`images/cat.png`, the line `7` gives nothing, and a first field made of a
vertical tab and `5` reads as 5. -/
theorem load_set_samples_witness :
    load_set listFile decimalAtoi "train.txt" [] []
      = .ok (["images/cat.png", "images/dog.png"], [5, 0]) ∧
    (load_set_body decimalAtoi ⟨"5 images/cat.png".toList, [], [], [], []⟩).images
      = ["images/cat.png"] ∧
    (load_set_body decimalAtoi ⟨"5 images/cat.png".toList, [], [], [], []⟩).labels = [5] ∧
    (load_set_body decimalAtoi ⟨"7".toList, [], [], [], []⟩).images = [] ∧
    (load_set_body decimalAtoi ⟨[Char.ofNat 11, '5', ' ', 'a'], [], [], [], []⟩).labels = [5] :=
  have h := load_set_samples listFile decimalAtoi "train.txt" [] []
  have h5 := h.1 ⟨[], [], [], [], []⟩ "5".toList "images/cat.png".toList [] (by decide)
    (by decide) (by decide) (Or.inl rfl)
  have hv := h.1 ⟨[], [], [], [], []⟩ [Char.ofNat 11, '5'] ['a'] [] (by decide)
    (by decide) (by decide) (Or.inl rfl)
  ⟨(h.2.2.1 listLines [] rfl (by decide) (by decide)).trans rfl, h5.1,
    h5.2.2.1 decimalAtoi_conforming (by decide) (by decide),
    (h.2.1 ⟨[], [], [], [], []⟩ "7".toList (by decide)).1,
    hv.2.2.1 decimalAtoi_conforming (by decide) (by decide)⟩


/-! ## Claims on the sample points of `main` -/

end LBP
